import Mathlib

/-!
# OOP-Lab5: `cube_memory_resource` and `pmr_queue`

A shallow embedding of `src/cube_memory_resource.hpp` and `src/pmr_queue.hpp`.

* Addresses (`void*`, `Node*`) are natural numbers, the null pointer is `0`.
* `std::size_t` values are natural numbers; the arithmetic the source performs on
  them is done modulo `2 ^ 64` (`size_add`, `size_sub`, `size_mul`).
* The upstream `std::pmr::memory_resource` of a pool is external code.  Its
  `allocate` is a parameter (`Upstream`): a function of the calls made on it so far
  and of the request, returning the address handed out, or `none` when it throws.
  Every call made on the upstream resource is appended to a log (`List UpCall`).
* The free store that holds the queue's nodes is a partial map from addresses to
  nodes (`World.heap`); a block is represented by its address.
* A memory resource is named by a number (`m_allocator`): `DEFAULT_RESOURCE` names
  the resource that `std::pmr::get_default_resource()` returns, every other number
  names a `cube_memory_resource`. The pools of the repository are all constructed
  without an argument, so their upstream resource is the default resource: a queue
  bound to the default resource allocates from the upstream resource directly.
* Queue objects are values (`pmr_queue`); an operation on two queues takes and
  returns both. Where the source compares object addresses (`this != &other`), the
  addresses are arguments (`copy_assign`) or the operation is defined for distinct
  objects (`move_assign`).
* `std::vector::push_back` on the record collection is taken not to fail.
* What the upstream resource guarantees is a hypothesis of the theorems that need
  it: `Upstream.Sound` (the address returned is not null and is not the address of a
  block still handed out) and `Upstream.Real` (the block returned lies inside the
  64-bit address space and has no byte in common with a block still handed out).
* A call ends in one of three ways (`Outcome`): it returns, it throws, or it has
  undefined behaviour (a null or dangling node pointer is dereferenced).
-/

namespace PmrQueue

/-! ## `std::size_t` arithmetic -/

/-- The number of values of `std::size_t`. -/
def SIZE_RANGE : Nat := 2 ^ 64

/-- Addition of two `std::size_t` values. -/
def size_add (a b : Nat) : Nat := (a + b) % SIZE_RANGE

/-- Subtraction of two `std::size_t` values. -/
def size_sub (a b : Nat) : Nat := (a + (SIZE_RANGE - b % SIZE_RANGE)) % SIZE_RANGE

/-- Multiplication of two `std::size_t` values. -/
def size_mul (a b : Nat) : Nat := (a * b) % SIZE_RANGE

/-! ## `cube_memory_resource` -/

/-- The record `cube_memory_resource::block_info`. -/
structure block_info where
  ptr : Nat
  size : Nat
  alignment : Nat
  used : Bool
deriving DecidableEq, Repr

/-- The constant `cube_memory_resource::CUBE_SIZE`. -/
def CUBE_SIZE : Nat := 64

/-- One call made on the upstream memory resource. `result` is the address the
upstream resource returned, `none` when the call threw. -/
inductive UpCall where
  | allocate (bytes alignment : Nat) (result : Option Nat)
  | deallocate (ptr bytes alignment : Nat)
deriving DecidableEq, Repr

/-- The behaviour of `upstream->allocate(bytes, alignment)`, given the calls made on
the upstream resource so far. `none` stands for a thrown exception. -/
abbrev Upstream := List UpCall → Nat → Nat → Option Nat

/-- The data members of `cube_memory_resource` (the `upstream` pointer is
represented by the call log that the operations thread through). -/
structure cube_memory_resource where
  blocks : List block_info
deriving DecidableEq, Repr

/-- A pool right after `cube_memory_resource(upstream_resource)`. -/
def cube_memory_resource.new : cube_memory_resource := ⟨[]⟩

/-- The method `allocated_blocks()`: `std::count_if` over `blocks` on `info.used`. -/
def allocated_blocks (self : cube_memory_resource) : Nat :=
  self.blocks.countP (fun info => info.used)

/-- The method `total_blocks()`: `blocks.size()`. -/
def total_blocks (self : cube_memory_resource) : Nat :=
  self.blocks.length

/-- The method `total_memory()`: the loop `total += block.size` on a `std::size_t`. -/
def total_memory (self : cube_memory_resource) : Nat :=
  self.blocks.foldl (fun total block => size_add total block.size) 0

/-- The local `actual_size` of `do_allocate`:
`((bytes + CUBE_SIZE - 1) / CUBE_SIZE) * CUBE_SIZE` in `std::size_t`. -/
def actual_size (bytes : Nat) : Nat :=
  size_mul (size_sub (size_add bytes CUBE_SIZE) 1 / CUBE_SIZE) CUBE_SIZE

/-- Position and value of the first record satisfying `p` (the scanning loop of
`do_allocate`, and `std::find_if` in `do_deallocate`); `none` is `blocks.end()`. -/
def find_if (p : block_info → Bool) : List block_info → Option (Nat × block_info)
  | [] => none
  | block :: rest =>
    if p block then some (0, block)
    else match find_if p rest with
      | some (i, b) => some (i + 1, b)
      | none => none

/-- The assignment `block.used = u` on the record at position `i`. -/
def set_used : List block_info → Nat → Bool → List block_info
  | [], _, _ => []
  | block :: rest, 0, u => { block with used := u } :: rest
  | block :: rest, i + 1, u => block :: set_used rest i u

/-- What `do_allocate` leaves behind: the returned address (`none` when the upstream
exception propagated), the pool and the upstream call log. -/
structure Allocation where
  ret : Option Nat
  self : cube_memory_resource
  upstream : List UpCall

/-- The method `cube_memory_resource::do_allocate(bytes, alignment)`. -/
def do_allocate (up : Upstream) (self : cube_memory_resource) (log : List UpCall)
    (bytes alignment : Nat) : Allocation :=
  match find_if (fun block => !block.used && decide (block.size ≥ bytes)) self.blocks with
  | some (i, block) =>
    { ret := some block.ptr, self := ⟨set_used self.blocks i true⟩, upstream := log }
  | none =>
    match up log (actual_size bytes) alignment with
    | some ptr =>
      { ret := some ptr
        self := ⟨self.blocks ++ [block_info.mk ptr (actual_size bytes) alignment true]⟩
        upstream := log ++ [UpCall.allocate (actual_size bytes) alignment (some ptr)] }
    | none =>
      { ret := none
        self := self
        upstream := log ++ [UpCall.allocate (actual_size bytes) alignment none] }

/-- The method `cube_memory_resource::do_deallocate(ptr, bytes, alignment)`:
the pool and the upstream call log after the call. -/
def do_deallocate (self : cube_memory_resource) (log : List UpCall)
    (ptr bytes alignment : Nat) : cube_memory_resource × List UpCall :=
  match find_if (fun info => decide (info.ptr = ptr)) self.blocks with
  | some (i, _) => (⟨set_used self.blocks i false⟩, log)
  | none => (self, log ++ [UpCall.deallocate ptr bytes alignment])

/-- The variant of `do_allocate` whose fit test compares the size of a record with
the rounded size `actual_size` instead of `bytes`; everything else is as in
`do_allocate`. -/
def do_allocate_rounded (up : Upstream) (self : cube_memory_resource) (log : List UpCall)
    (bytes alignment : Nat) : Allocation :=
  match find_if (fun block => !block.used && decide (block.size ≥ actual_size bytes))
      self.blocks with
  | some (i, block) =>
    { ret := some block.ptr, self := ⟨set_used self.blocks i true⟩, upstream := log }
  | none =>
    match up log (actual_size bytes) alignment with
    | some ptr =>
      { ret := some ptr
        self := ⟨self.blocks ++ [block_info.mk ptr (actual_size bytes) alignment true]⟩
        upstream := log ++ [UpCall.allocate (actual_size bytes) alignment (some ptr)] }
    | none =>
      { ret := none
        self := self
        upstream := log ++ [UpCall.allocate (actual_size bytes) alignment none] }

/-- The destructor `~cube_memory_resource()`: the loop over `blocks` that calls
`upstream->deallocate` for every record whose `ptr` is not null, then
`blocks.clear()`. -/
def cube_memory_resource.destructor (self : cube_memory_resource) (log : List UpCall) :
    cube_memory_resource × List UpCall :=
  (⟨[]⟩,
   self.blocks.foldl
     (fun log block =>
       if block.ptr ≠ 0 then
         log ++ [UpCall.deallocate block.ptr block.size block.alignment]
       else log)
     log)

/-- A call of one of the two protected methods, as `allocate` / `deallocate` of
`std::pmr::memory_resource` dispatch them. -/
inductive PoolCall where
  | allocate (bytes alignment : Nat)
  | deallocate (ptr bytes alignment : Nat)
deriving DecidableEq, Repr

/-- One call on a pool. -/
def PoolCall.apply (up : Upstream) (s : cube_memory_resource × List UpCall) :
    PoolCall → cube_memory_resource × List UpCall
  | PoolCall.allocate bytes alignment =>
    ((do_allocate up s.1 s.2 bytes alignment).self,
     (do_allocate up s.1 s.2 bytes alignment).upstream)
  | PoolCall.deallocate ptr bytes alignment => do_deallocate s.1 s.2 ptr bytes alignment

/-- A sequence of calls on a pool, in order. -/
def run_calls (up : Upstream) (s : cube_memory_resource × List UpCall) :
    List PoolCall → cube_memory_resource × List UpCall
  | [] => s
  | c :: cs => run_calls up (c.apply up s) cs

/-- The upstream resource returns no address that is present in the records of the
pool, in the state `s`. -/
def FreshAt (up : Upstream) (s : cube_memory_resource × List UpCall) : Prop :=
  ∀ bytes alignment a, up s.2 bytes alignment = some a →
    a ∉ s.1.blocks.map (fun b => b.ptr)

/-- The upstream resource returns no address that is present in the records of the
pool, in any state that the calls `cs` run through from `s`, the last one
included. -/
def FreshAlong (up : Upstream) (s : cube_memory_resource × List UpCall) :
    List PoolCall → Prop
  | [] => FreshAt up s
  | c :: cs => FreshAt up s ∧ FreshAlong up (c.apply up s) cs

/-- The addresses that the upstream resource returned to `allocate` calls, in the
order of the calls. -/
def obtained : List UpCall → List Nat
  | [] => []
  | UpCall.allocate _ _ (some a) :: rest => a :: obtained rest
  | _ :: rest => obtained rest

/-- The addresses passed to `deallocate` calls of the upstream resource, in the
order of the calls. -/
def returned : List UpCall → List Nat
  | [] => []
  | UpCall.deallocate p _ _ :: rest => p :: returned rest
  | _ :: rest => returned rest

/-- The (address, size, alignment) part of a record. -/
def block_info.triple (b : block_info) : Nat × Nat × Nat := (b.ptr, b.size, b.alignment)

/-! ## `pmr_queue<T>` -/

/-- The record `pmr_queue<T>::Node`; `next = 0` is the null link. -/
structure Node (T : Type) where
  data : T
  next : Nat

/-- The data members of `pmr_queue<T>`. `m_allocator` is the identity of the memory
resource held by the `std::pmr::polymorphic_allocator<Node>`. -/
structure pmr_queue where
  m_head : Nat
  m_tail : Nat
  m_size : Nat
  m_allocator : Nat
deriving DecidableEq, Repr

/-- Everything outside the queue object that its methods read or write: the nodes
in memory, the pools (by identity) and the log of calls on the upstream resource. -/
structure World (T : Type) where
  heap : Nat → Option (Node T)
  pools : Nat → cube_memory_resource
  upstream : List UpCall

/-- What the queue's code takes from outside the repository: `sizeof(Node)`,
`alignof(Node)`, the upstream `allocate`, and whether constructing a `T` from a
given value throws. -/
structure Env (T : Type) where
  sizeof_Node : Nat
  alignof_Node : Nat
  upstream_allocate : Upstream
  construct_throws : T → Bool

/-- The exceptions that leave the queue's methods. -/
inductive Exception where
  | out_of_range
  | upstream_failure
  | construct_failure
deriving DecidableEq, Repr

/-- How a call ends: it returns `value`, it throws `e`, or it has undefined
behaviour (a null or dangling node pointer is dereferenced). The first two carry
the state the call leaves behind. -/
inductive Outcome (σ α : Type) where
  | ok (value : α) (state : σ)
  | throws (e : Exception) (state : σ)
  | undefined

/-- The state a call leaves behind, if it has one. -/
def Outcome.state? {σ α : Type} : Outcome σ α → Option σ
  | Outcome.ok _ s => some s
  | Outcome.throws _ s => some s
  | Outcome.undefined => none

/-- Whether a call returns normally. -/
def Outcome.returns {σ α : Type} : Outcome σ α → Bool
  | Outcome.ok _ _ => true
  | _ => false

/-- The state a call leaves behind, `d` when it has undefined behaviour. -/
def Outcome.stateD {σ α : Type} (o : Outcome σ α) (d : σ) : σ :=
  match o with
  | Outcome.ok _ s => s
  | Outcome.throws _ s => s
  | Outcome.undefined => d

/-- The value a call returns, if it returns. -/
def Outcome.value? {σ α : Type} : Outcome σ α → Option α
  | Outcome.ok a _ => some a
  | _ => none

/-- Writing (or, with `none`, destroying) the node at address `p`. -/
def World.store {T : Type} (w : World T) (p : Nat) (n : Option (Node T)) : World T :=
  { w with heap := fun a => if a = p then n else w.heap a }

/-- Replacing the state of pool `r` and of the upstream log after a call on pool `r`. -/
def World.set_pool {T : Type} (w : World T) (r : Nat) (pool : cube_memory_resource)
    (log : List UpCall) : World T :=
  { w with pools := fun k => if k = r then pool else w.pools k, upstream := log }

/-- The identity of the memory resource that `std::pmr::get_default_resource()`
returns. It is the upstream resource of every pool. -/
def DEFAULT_RESOURCE : Nat := 0

/-- The call `resource()->allocate(bytes, alignment)` on the memory resource `mr`:
the address returned (`none` when the call throws) and the world after the call.
On the default resource it is a call on the upstream resource; on a pool it is
`do_allocate`. -/
def resource_allocate {T : Type} (up : Upstream) (w : World T) (mr bytes alignment : Nat) :
    Option Nat × World T :=
  if mr = DEFAULT_RESOURCE then
    (up w.upstream bytes alignment,
     { w with upstream := w.upstream ++
        [UpCall.allocate bytes alignment (up w.upstream bytes alignment)] })
  else
    let a := do_allocate up (w.pools mr) w.upstream bytes alignment
    (a.ret, w.set_pool mr a.self a.upstream)

/-- The call `resource()->deallocate(ptr, bytes, alignment)` on the memory resource
`mr`: the world after the call. -/
def resource_deallocate {T : Type} (w : World T) (mr ptr bytes alignment : Nat) : World T :=
  if mr = DEFAULT_RESOURCE then
    { w with upstream := w.upstream ++ [UpCall.deallocate ptr bytes alignment] }
  else
    let d := do_deallocate (w.pools mr) w.upstream ptr bytes alignment
    w.set_pool mr d.1 d.2

/-- The constructor `pmr_queue(mr)`. -/
def pmr_queue.new (mr : Nat) : pmr_queue := ⟨0, 0, 0, mr⟩

/-- The method `empty()`. -/
def pmr_queue.empty (q : pmr_queue) : Bool := decide (q.m_size = 0)

/-- The method `size()`. -/
def pmr_queue.size (q : pmr_queue) : Nat := q.m_size

/-- The method `push(value)`. `allocate(m_allocator, 1)` is
`resource()->allocate(sizeof(Node), alignof(Node))` (the length check of
`polymorphic_allocator::allocate` cannot fail for one node), and
`deallocate(m_allocator, new_node, 1)` is `resource()->deallocate` with the same
size and alignment. Constructing a node at the null address is undefined. -/
def push {T : Type} (E : Env T) (q : pmr_queue) (w : World T) (value : T) :
    Outcome (pmr_queue × World T) Unit :=
  let a := resource_allocate E.upstream_allocate w q.m_allocator
    E.sizeof_Node E.alignof_Node
  let w1 := a.2
  match a.1 with
  | none => Outcome.throws Exception.upstream_failure (q, w1)
  | some new_node =>
    if new_node = 0 then Outcome.undefined
    else if E.construct_throws value then
      Outcome.throws Exception.construct_failure
        (q, resource_deallocate w1 q.m_allocator new_node E.sizeof_Node E.alignof_Node)
    else
      let w2 := w1.store new_node (some ⟨value, 0⟩)
      if q.m_tail ≠ 0 then
        match w2.heap q.m_tail with
        | none => Outcome.undefined
        | some tail =>
          Outcome.ok ()
            ({ q with m_tail := new_node, m_size := size_add q.m_size 1 },
             w2.store q.m_tail (some { tail with next := new_node }))
      else
        Outcome.ok ()
          ({ q with m_head := new_node, m_tail := new_node, m_size := size_add q.m_size 1 },
           w2)

/-- The method `pop()`. -/
def pop {T : Type} (E : Env T) (q : pmr_queue) (w : World T) :
    Outcome (pmr_queue × World T) Unit :=
  if q.empty then Outcome.throws Exception.out_of_range (q, w)
  else
    match w.heap q.m_head with
    | none => Outcome.undefined
    | some old_head =>
      let w1 := w.store q.m_head none
      Outcome.ok ()
        ({ q with
            m_head := old_head.next
            m_tail := if old_head.next = 0 then 0 else q.m_tail
            m_size := size_sub q.m_size 1 },
         resource_deallocate w1 q.m_allocator q.m_head E.sizeof_Node E.alignof_Node)

/-- The method `front()`. -/
def front {T : Type} (q : pmr_queue) (w : World T) : Outcome (pmr_queue × World T) T :=
  if q.empty then Outcome.throws Exception.out_of_range (q, w)
  else
    match w.heap q.m_head with
    | none => Outcome.undefined
    | some head => Outcome.ok head.data (q, w)

/-- The method `back()`. -/
def back {T : Type} (q : pmr_queue) (w : World T) : Outcome (pmr_queue × World T) T :=
  if q.empty then Outcome.throws Exception.out_of_range (q, w)
  else
    match w.heap q.m_tail with
    | none => Outcome.undefined
    | some tail => Outcome.ok tail.data (q, w)

/-- The loop `while (!empty()) pop();` run for at most `fuel` iterations. The last
line is the loop still running when the fuel is spent; `clear` gives it `m_size`
iterations, and by `clear_fuel` no larger number of iterations changes the result,
in any state. -/
def clear_loop {T : Type} (E : Env T) :
    Nat → pmr_queue → World T → Outcome (pmr_queue × World T) Unit
  | fuel + 1, q, w =>
    if q.empty then Outcome.ok () (q, w)
    else
      match pop E q w with
      | Outcome.ok _ s => clear_loop E fuel s.1 s.2
      | other => other
  | 0, q, w => if q.empty then Outcome.ok () (q, w) else Outcome.undefined

/-- The method `clear()`. -/
def clear {T : Type} (E : Env T) (q : pmr_queue) (w : World T) :
    Outcome (pmr_queue × World T) Unit :=
  clear_loop E q.m_size q w

/-- The move assignment `self = std::move(other)` for `this != &other`; the state is
(`self`, `other`) and the world. `propagate_on_container_move_assignment` of
`std::pmr::polymorphic_allocator` is `false_type`, so `m_allocator` is kept. The
operator is `noexcept`: an exception leaving `clear()` ends the program. -/
def move_assign {T : Type} (E : Env T) (self other : pmr_queue) (w : World T) :
    Outcome ((pmr_queue × pmr_queue) × World T) Unit :=
  match clear E self w with
  | Outcome.ok _ s =>
    Outcome.ok ()
      (({ s.1 with m_head := other.m_head, m_tail := other.m_tail, m_size := other.m_size },
        { other with m_head := 0, m_tail := 0, m_size := 0 }), s.2)
  | _ => Outcome.undefined

/-- The move constructor `pmr_queue(pmr_queue&& other)`: the new queue and `other`
afterwards. Moving a `std::pmr::polymorphic_allocator` copies its resource
pointer. No node is touched. -/
def move_construct (other : pmr_queue) : pmr_queue × pmr_queue :=
  ({ m_head := other.m_head, m_tail := other.m_tail, m_size := other.m_size,
     m_allocator := other.m_allocator },
   { other with m_head := 0, m_tail := 0, m_size := 0 })

/-- The loop `while (current) { push(current->data); current = current->next; }` of
the copy constructor and of the copy assignment, on the queue `q` being filled. The
last line is the loop still running when the fuel is spent; by `copy_loop_fuel` a
result reached with some fuel is the result with any larger fuel. -/
def copy_loop {T : Type} (E : Env T) :
    Nat → Nat → pmr_queue → World T → Outcome (pmr_queue × World T) Unit
  | fuel + 1, current, q, w =>
    if current = 0 then Outcome.ok () (q, w)
    else
      match w.heap current with
      | none => Outcome.undefined
      | some node =>
        match push E q w node.data with
        | Outcome.ok _ s =>
          match s.2.heap current with
          | none => Outcome.undefined
          | some node1 => copy_loop E fuel node1.next s.1 s.2
        | other => other
  | 0, current, q, w => if current = 0 then Outcome.ok () (q, w) else Outcome.undefined

/-- The copy constructor `pmr_queue(const pmr_queue& other)`: the new queue and the
world. `select_on_container_copy_construction` of `std::pmr::polymorphic_allocator`
returns a default-constructed allocator, so the new queue is bound to
`get_default_resource()`. The loop is given `other.m_size` iterations. -/
def copy_construct {T : Type} (E : Env T) (other : pmr_queue) (w : World T) :
    Outcome (pmr_queue × World T) Unit :=
  copy_loop E other.m_size other.m_head (pmr_queue.new DEFAULT_RESOURCE) w

/-- The copy assignment `self = other`, for the objects at the addresses `this` and
`that`; the state is (`self`, `other`) and the world. When the two addresses are
equal, `self` and `other` are the same object.
`propagate_on_container_copy_assignment` of `std::pmr::polymorphic_allocator` is
`false_type`, so `m_allocator` is kept. -/
def copy_assign {T : Type} (E : Env T) (this that : Nat) (self other : pmr_queue)
    (w : World T) : Outcome ((pmr_queue × pmr_queue) × World T) Unit :=
  if this ≠ that then
    match clear E self w with
    | Outcome.ok _ s =>
      match copy_loop E other.m_size other.m_head s.1 s.2 with
      | Outcome.ok _ s2 => Outcome.ok () ((s2.1, other), s2.2)
      | Outcome.throws e s2 => Outcome.throws e ((s2.1, other), s2.2)
      | Outcome.undefined => Outcome.undefined
    | Outcome.throws e s => Outcome.throws e ((s.1, other), s.2)
    | Outcome.undefined => Outcome.undefined
  else Outcome.ok () ((self, other), w)

/-- The calls `pop(); ...; pop()`, `n` of them, stopping at the first one that does
not return. -/
def pop_times {T : Type} (E : Env T) :
    Nat → pmr_queue → World T → Outcome (pmr_queue × World T) Unit
  | 0, q, w => Outcome.ok () (q, w)
  | n + 1, q, w =>
    match pop E q w with
    | Outcome.ok _ s => pop_times E n s.1 s.2
    | other => other

/-- The world after the nodes at the addresses `l` have been destroyed and their
blocks passed to `deallocate` of the memory resource `r`, one after the other, as
`pop()` does it. -/
def destroy_nodes {T : Type} (E : Env T) (r : Nat) (l : List Nat) (w : World T) : World T :=
  l.foldl
    (fun w a => resource_deallocate (w.store a none) r a E.sizeof_Node E.alignof_Node) w

/-- The data member of `queue_iterator<U>`; the const and the mutable iterator
differ in the type of the reference they give, not in their state. -/
structure queue_iterator where
  m_current : Nat
deriving DecidableEq, Repr

/-- The operator `*it`: the element `m_current->data`; `none` when `m_current` is
null or there is no node at it. -/
def queue_iterator.deref {T : Type} (heap : Nat → Option (Node T)) (it : queue_iterator) :
    Option T :=
  if it.m_current ≠ 0 then
    match heap it.m_current with
    | some n => some n.data
    | none => none
  else none

/-- The operator `++it`; `none` when `m_current` is not null and there is no node
at it. -/
def queue_iterator.increment {T : Type} (heap : Nat → Option (Node T))
    (it : queue_iterator) : Option queue_iterator :=
  if it.m_current ≠ 0 then
    match heap it.m_current with
    | some n => some ⟨n.next⟩
    | none => none
  else some it

/-- The operator `it++`: the value returned and the iterator afterwards. -/
def queue_iterator.post_increment {T : Type} (heap : Nat → Option (Node T))
    (it : queue_iterator) : Option (queue_iterator × queue_iterator) :=
  match it.increment heap with
  | some it1 => some (it, it1)
  | none => none

/-- The operator `==` of iterators. -/
def queue_iterator.eq (a b : queue_iterator) : Bool := decide (a.m_current = b.m_current)

/-- The operator `!=` of iterators. -/
def queue_iterator.ne (a b : queue_iterator) : Bool := decide (a.m_current ≠ b.m_current)

/-- The method `begin()`. -/
def pmr_queue.begin (q : pmr_queue) : queue_iterator := ⟨q.m_head⟩

/-- The method `end()`. -/
def pmr_queue.end_ (_q : pmr_queue) : queue_iterator := ⟨0⟩

/-- The method `cbegin()`, which returns `begin()` of the const queue. -/
def pmr_queue.cbegin (q : pmr_queue) : queue_iterator := ⟨q.m_head⟩

/-- The method `cend()`, which returns `end()` of the const queue. -/
def pmr_queue.cend (_q : pmr_queue) : queue_iterator := ⟨0⟩

/-- The iterator after `k` increments. -/
def advance {T : Type} (heap : Nat → Option (Node T)) :
    Nat → queue_iterator → Option queue_iterator
  | 0, it => some it
  | k + 1, it =>
    match it.increment heap with
    | some it1 => advance heap k it1
    | none => none

/-- The iterator after `k` statements `it++`. -/
def advance_post {T : Type} (heap : Nat → Option (Node T)) :
    Nat → queue_iterator → Option queue_iterator
  | 0, it => some it
  | k + 1, it =>
    match it.post_increment heap with
    | some r => advance_post heap k r.2
    | none => none

/-- The values that `for (it = first; it != last; ++it) use(*it);` reads, when the
loop ends within `fuel` iterations. -/
def traverse {T : Type} (heap : Nat → Option (Node T)) :
    Nat → queue_iterator → queue_iterator → Option (List T)
  | fuel + 1, it, last =>
    if it.ne last then
      match it.deref heap, it.increment heap with
      | some x, some it1 =>
        match traverse heap fuel it1 last with
        | some xs => some (x :: xs)
        | none => none
      | _, _ => none
    else some []
  | 0, it, last => if it.ne last then none else some []

/-- Following `next` links from `p` for at most `fuel` nodes: the addresses
visited, when the null link is reached within `fuel` nodes and every node on the
way exists. -/
def walk {T : Type} (heap : Nat → Option (Node T)) : Nat → Nat → Option (List Nat)
  | fuel + 1, p =>
    if p = 0 then some []
    else
      match heap p with
      | none => none
      | some n =>
        match walk heap fuel n.next with
        | none => none
        | some rest => some (p :: rest)
  | 0, p => if p = 0 then some [] else none

/-- The nodes reachable from `m_head`, searched to depth `m_size`. -/
def pmr_queue.nodes {T : Type} (q : pmr_queue) (w : World T) : Option (List Nat) :=
  walk w.heap q.m_size q.m_head

/-- The element stored at each address of a list. -/
def read_all {T : Type} (heap : Nat → Option (Node T)) : List Nat → Option (List T)
  | [] => some []
  | p :: rest =>
    match heap p, read_all heap rest with
    | some n, some vs => some (n.data :: vs)
    | _, _ => none

/-- The element sequence of a queue, head first. -/
def pmr_queue.elements {T : Type} (q : pmr_queue) (w : World T) : Option (List T) :=
  match q.nodes w with
  | some l => read_all w.heap l
  | none => none

/-- The calls `push(v1); ...; push(vn)`, stopping at the first one that does not
return. -/
def push_all {T : Type} (E : Env T) (q : pmr_queue) (w : World T) :
    List T → Outcome (pmr_queue × World T) Unit
  | [] => Outcome.ok () (q, w)
  | v :: vs =>
    match push E q w v with
    | Outcome.ok _ s => push_all E s.1 s.2 vs
    | other => other

/-- The loop body `x = front(); pop();` run `n` times, collecting the values read
and stopping at the first call that does not return. -/
def drain {T : Type} (E : Env T) : Nat → pmr_queue → World T →
    Outcome (pmr_queue × World T) (List T)
  | 0, q, w => Outcome.ok [] (q, w)
  | n + 1, q, w =>
    match front q w with
    | Outcome.ok x _ =>
      match pop E q w with
      | Outcome.ok _ s =>
        match drain E n s.1 s.2 with
        | Outcome.ok xs s2 => Outcome.ok (x :: xs) s2
        | other => other
      | Outcome.throws e s => Outcome.throws e s
      | Outcome.undefined => Outcome.undefined
    | Outcome.throws e s => Outcome.throws e s
    | Outcome.undefined => Outcome.undefined

/-- A call on the queue that changes it. -/
inductive QueueOp (T : Type) where
  | push (value : T)
  | pop
  | clear

/-- One call on the queue. -/
def QueueOp.apply {T : Type} (E : Env T) (q : pmr_queue) (w : World T) :
    QueueOp T → Outcome (pmr_queue × World T) Unit
  | QueueOp.push value => PmrQueue.push E q w value
  | QueueOp.pop => PmrQueue.pop E q w
  | QueueOp.clear => PmrQueue.clear E q w

/-- A sequence of calls on the queue; a caller that catches an exception goes on
from the state the throwing call left. `none` when a call has undefined behaviour. -/
def run_ops {T : Type} (E : Env T) (q : pmr_queue) (w : World T) :
    List (QueueOp T) → Option (pmr_queue × World T)
  | [] => some (q, w)
  | op :: ops =>
    match (op.apply E q w).state? with
    | some s => run_ops E s.1 s.2 ops
    | none => none

/-- The largest value that `size()` has in the states a sequence of calls runs
through, the state before the first call included; `none` when a call has
undefined behaviour. -/
def high_water {T : Type} (E : Env T) (q : pmr_queue) (w : World T) :
    List (QueueOp T) → Option Nat
  | [] => some q.size
  | op :: ops =>
    match (op.apply E q w).state? with
    | some s =>
      match high_water E s.1 s.2 ops with
      | some m => some (max q.size m)
      | none => none
    | none => none

/-! ## Invariants -/

/-- The effect of one upstream call on the addresses that the upstream resource has
handed out and not got back. -/
def live_step (acc : List Nat) : UpCall → List Nat
  | UpCall.allocate _ _ (some a) => a :: acc
  | UpCall.allocate _ _ none => acc
  | UpCall.deallocate p _ _ => acc.erase p

/-- The addresses that the upstream resource has handed out and not got back. -/
def live (log : List UpCall) : List Nat := log.foldl live_step []

/-- What any memory resource guarantees of `allocate`: the address returned is not
null, fits a pointer, and is not the address of a block still handed out. -/
def Upstream.Sound (up : Upstream) : Prop :=
  ∀ log bytes alignment a, up log bytes alignment = some a →
    a ≠ 0 ∧ a < 2 ^ 64 ∧ a ∉ live log

/-- An upstream resource that hands out increasing addresses and never reuses one. -/
def bump_upstream : Upstream := fun log _ _ =>
  if (live log).foldr max 0 + 1 < 2 ^ 64 then some ((live log).foldr max 0 + 1) else none

/-- The effect of one upstream call on the blocks, as (address, size) pairs, that the
upstream resource has handed out and not got back. -/
def held_step (acc : List (Nat × Nat)) : UpCall → List (Nat × Nat)
  | UpCall.allocate bytes _ (some a) => (a, bytes) :: acc
  | UpCall.allocate _ _ none => acc
  | UpCall.deallocate p _ _ => acc.eraseP (fun b => decide (b.1 = p))

/-- The blocks, as (address, size) pairs, that the upstream resource has handed out and
not got back. -/
def held (log : List UpCall) : List (Nat × Nat) := log.foldl held_step []

/-- Two blocks, as (address, size) pairs, have no byte in common. -/
def Apart (x y : Nat × Nat) : Prop :=
  x.2 = 0 ∨ y.2 = 0 ∨ x.1 + x.2 ≤ y.1 ∨ y.1 + y.2 ≤ x.1

/-- Blocks of storage: every block starts above the null address and ends inside the
64-bit address space, and no two blocks have a byte in common. -/
def Storage (l : List (Nat × Nat)) : Prop :=
  (∀ b ∈ l, b.1 ≠ 0 ∧ b.1 + b.2 ≤ 2 ^ 64) ∧ l.Pairwise Apart

/-- What a memory resource that hands out storage guarantees of `allocate`: the block
returned starts above the null address, ends inside the 64-bit address space, and has
no byte in common with a block still handed out. -/
def Upstream.Real (up : Upstream) : Prop :=
  ∀ log bytes alignment a, up log bytes alignment = some a →
    a ≠ 0 ∧ a + bytes ≤ 2 ^ 64 ∧ ∀ b ∈ held log, Apart (a, bytes) b

/-- The records of a pool are blocks that the upstream resource has handed out and not
got back, each record a block of its own. -/
def Holds (pool : cube_memory_resource) (log : List UpCall) : Prop :=
  (pool.blocks.map (fun b => (b.ptr, b.size))).Subperm (held log)

/-- An upstream resource that hands out storage: each block starts where the highest
block still handed out ends, and a request that does not fit the address space
throws. -/
def arena_upstream : Upstream := fun log bytes _ =>
  if (held log).foldr (fun b top => max (b.1 + b.2) top) 1 + bytes ≤ 2 ^ 64 then
    some ((held log).foldr (fun b top => max (b.1 + b.2) top) 1)
  else none

/-- The records of a pool are consistent with the upstream log: their addresses are
pairwise distinct, not null, fit a pointer, and are handed out by the upstream
resource. -/
def PoolOK (pool : cube_memory_resource) (log : List UpCall) : Prop :=
  (pool.blocks.map (fun b => b.ptr)).Nodup ∧
  ∀ p ∈ pool.blocks.map (fun b => b.ptr), p ≠ 0 ∧ p < 2 ^ 64 ∧ p ∈ live log

/-- The record that `do_deallocate(p, ..)` finds: the first one with address `p`. -/
def owner (pool : cube_memory_resource) (p : Nat) : Option block_info :=
  match find_if (fun info => decide (info.ptr = p)) pool.blocks with
  | some (_, b) => some b
  | none => none

/-- Every address of `l` is the address of a record of the pool, in use. -/
def Owned (pool : cube_memory_resource) (l : List Nat) : Prop :=
  ∀ a ∈ l, ∃ b, owner pool a = some b ∧ b.used = true

/-- Every record that the pool finds for an address of `l` is at least `sz` bytes
large. -/
def Sized (pool : cube_memory_resource) (l : List Nat) (sz : Nat) : Prop :=
  ∀ a ∈ l, ∀ b, owner pool a = some b → sz ≤ b.size

/-- Every record of the pool has the size `sz`. -/
def Uniform (pool : cube_memory_resource) (sz : Nat) : Prop :=
  ∀ b ∈ pool.blocks, b.size = sz

/-- The addresses `l` are the nodes linked from `p` up to the null link. -/
def IsChain {T : Type} (heap : Nat → Option (Node T)) : Nat → List Nat → Prop
  | p, [] => p = 0
  | p, a :: rest => p = a ∧ a ≠ 0 ∧ ∃ n, heap a = some n ∧ IsChain heap n.next rest

/-- The structural invariant of the queue, as the data model states it: `m_head` is
null iff `m_size` is 0, and then `m_tail` is null; the link of the tail node is
null; following the links from `m_head` visits exactly `m_size` nodes, the last of
which is `m_tail`. -/
def pmr_queue.structural {T : Type} (q : pmr_queue) (w : World T) : Prop :=
  (q.m_head = 0 ↔ q.m_size = 0) ∧
  (q.m_size = 0 → q.m_tail = 0) ∧
  (q.m_tail ≠ 0 → ∃ n, w.heap q.m_tail = some n ∧ n.next = 0) ∧
  ∃ l, q.nodes w = some l ∧ l.length = q.size ∧
    l.getLast? = (if q.m_tail = 0 then none else some q.m_tail)

/-- The invariant that `push`, `pop` and `clear` maintain, for a queue whose nodes
are `l`: the chain from `m_head` is `l`, without repetition, `m_size` is its length
and `m_tail` its last node; the queue is bound to a pool, which is consistent with
the upstream log and records the block of every node as in use. -/
def Inv {T : Type} (q : pmr_queue) (w : World T) (l : List Nat) : Prop :=
  IsChain w.heap q.m_head l ∧ l.Nodup ∧ q.m_size = l.length ∧ q.m_tail = l.getLastD 0 ∧
  PoolOK (w.pools q.m_allocator) w.upstream ∧ Owned (w.pools q.m_allocator) l ∧
  q.m_allocator ≠ DEFAULT_RESOURCE

/-- The links of a queue whose nodes are `l`: the chain from `m_head` is `l`,
`m_size` is its length, which a `std::size_t` holds, and `m_tail` is its last
node. -/
def Linked {T : Type} (q : pmr_queue) (heap : Nat → Option (Node T)) (l : List Nat) : Prop :=
  IsChain heap q.m_head l ∧ q.m_size = l.length ∧ q.m_tail = l.getLastD 0 ∧
  l.length < 2 ^ 64

/-- The invariant that `push`, `pop` and `clear` maintain for a queue with nodes
`l`, whatever memory resource it is bound to: its links are in order, and its nodes
occupy blocks that the upstream resource has handed out, when the queue is bound to
the default resource, or that the bound pool, consistent with the upstream log,
records as in use. -/
def Bound {T : Type} (q : pmr_queue) (w : World T) (l : List Nat) : Prop :=
  Linked q w.heap l ∧
  if q.m_allocator = DEFAULT_RESOURCE then
    ∀ a ∈ l, a ≠ 0 ∧ a < 2 ^ 64 ∧ a ∈ live w.upstream
  else PoolOK (w.pools q.m_allocator) w.upstream ∧ Owned (w.pools q.m_allocator) l

/-- Every pool is consistent with the upstream log, and no address is in the
records of two pools. -/
def WorldOK {T : Type} (w : World T) : Prop :=
  (∀ r, r ≠ DEFAULT_RESOURCE → PoolOK (w.pools r) w.upstream) ∧
  ∀ r1 r2, r1 ≠ DEFAULT_RESOURCE → r2 ≠ DEFAULT_RESOURCE → r1 ≠ r2 →
    ∀ p ∈ (w.pools r1).blocks.map (fun b => b.ptr),
      p ∉ (w.pools r2).blocks.map (fun b => b.ptr)

/-- The blocks at the addresses `l` are handed out by the memory resource `r`: by
the default resource directly, when `r` is the default resource, and else by the
pool `r`, which records them as in use. -/
def Hosted {T : Type} (w : World T) (r : Nat) (l : List Nat) : Prop :=
  if r = DEFAULT_RESOURCE then
    ∀ a ∈ l, a ≠ 0 ∧ a < 2 ^ 64 ∧ a ∈ live w.upstream ∧
      ∀ k, k ≠ DEFAULT_RESOURCE → a ∉ (w.pools k).blocks.map (fun b => b.ptr)
  else Owned (w.pools r) l

/-- A queue with nodes `l` in a consistent state: its links are in order and its
nodes occupy blocks handed out by the memory resource it is bound to. -/
def QueueOK {T : Type} (q : pmr_queue) (w : World T) (l : List Nat) : Prop :=
  Linked q w.heap l ∧ Hosted w q.m_allocator l

/-! ## A concrete pool -/

/-- A pool with one record in use and two free ones, the first free one stored with
alignment 1. -/
def pool_three : cube_memory_resource :=
  ⟨[⟨4096, 64, 8, true⟩, ⟨4160, 64, 1, false⟩, ⟨4224, 128, 8, false⟩]⟩

/-! ## A concrete scenario: two pools -/

/-- An environment for `pmr_queue<int>`-like queues: nodes of 16 bytes aligned to 8,
the upstream resource `bump_upstream`, and an element type whose construction never
throws. -/
def demo_env : Env Nat :=
  { sizeof_Node := 16, alignof_Node := 8,
    upstream_allocate := bump_upstream,
    construct_throws := fun _ => false }

/-- As `demo_env`, with an element type whose construction from the value 13
throws. -/
def throwing_env : Env Nat :=
  { sizeof_Node := 16, alignof_Node := 8,
    upstream_allocate := bump_upstream,
    construct_throws := fun v => decide (v = 13) }

/-- As `demo_env`, with an upstream resource that has no memory left. -/
def exhausted_env : Env Nat :=
  { sizeof_Node := 16, alignof_Node := 8,
    upstream_allocate := fun _ _ _ => none,
    construct_throws := fun _ => false }

/-- As `demo_env`, with nodes of `2 ^ 62` bytes. -/
def big_env : Env Nat :=
  { sizeof_Node := 2 ^ 62, alignof_Node := 8,
    upstream_allocate := bump_upstream,
    construct_throws := fun _ => false }

/-- No node in memory, every pool new, no upstream call made yet. -/
def demo_world : World Nat :=
  { heap := fun _ => none, pools := fun _ => cube_memory_resource.new, upstream := [] }

/-- A queue `b` bound to pool 2, after `b.push(7)`. -/
def foreign_source : pmr_queue × World Nat :=
  (push demo_env (pmr_queue.new 2) demo_world 7).stateD (pmr_queue.new 2, demo_world)

/-- A new queue `a` bound to pool 1, after `a = std::move(b)`: the pair (`a`, `b`)
and the world. -/
def foreign_moved : (pmr_queue × pmr_queue) × World Nat :=
  (move_assign demo_env (pmr_queue.new 1) foreign_source.1 foreign_source.2).stateD
    ((pmr_queue.new 1, foreign_source.1), foreign_source.2)

/-- The queue `a` and the world after the following `a.pop()`. -/
def foreign_popped : pmr_queue × World Nat :=
  (pop demo_env foreign_moved.1.1 foreign_moved.2).stateD (foreign_moved.1.1, foreign_moved.2)

/-- The queue `a` and the world after the following `a.push(9)`. -/
def foreign_pushed : pmr_queue × World Nat :=
  (push demo_env foreign_popped.1 foreign_popped.2 9).stateD foreign_popped

/-! ## A concrete scenario: one pool -/

/-- A queue on pool 1 after `push(1); push(2)`. -/
def demo_two : pmr_queue × World Nat :=
  (push_all demo_env (pmr_queue.new 1) demo_world [1, 2]).stateD (pmr_queue.new 1, demo_world)

/-- The same queue after the following `pop()`. -/
def demo_two_popped : pmr_queue × World Nat :=
  (pop demo_env demo_two.1 demo_two.2).stateD demo_two

/-- The same queue after the following `push(3)`. -/
def demo_two_pushed : pmr_queue × World Nat :=
  (push demo_env demo_two_popped.1 demo_two_popped.2 3).stateD demo_two_popped

/-- Two queues in one world: `a` on pool 1 after `a.push(1); a.push(2)` and `b` on
pool 2 after `b.push(7)`; the state is (`a`, `b`) and the world. -/
def two_queues : (pmr_queue × pmr_queue) × World Nat :=
  ((demo_two.1, ((push demo_env (pmr_queue.new 2) demo_two.2 7).stateD
      (pmr_queue.new 2, demo_two.2)).1),
   ((push demo_env (pmr_queue.new 2) demo_two.2 7).stateD (pmr_queue.new 2, demo_two.2)).2)

/-- The queues of `two_queues` after `a = std::move(b)`: the pair (`a`, `b`) and the
world. -/
def crossed_moved : (pmr_queue × pmr_queue) × World Nat :=
  (move_assign demo_env two_queues.1.1 two_queues.1.2 two_queues.2).stateD two_queues

/-- The queue `a` and the world after the following `a.pop()`. -/
def crossed_popped : pmr_queue × World Nat :=
  (pop demo_env crossed_moved.1.1 crossed_moved.2).stateD (crossed_moved.1.1, crossed_moved.2)

/-! ## Facts about the record scan -/

theorem find_if_none_iff (p : block_info → Bool) (l : List block_info) :
    find_if p l = none ↔ ∀ b ∈ l, p b = false := by
  induction l with
  | nil => simp [find_if]
  | cons a rest ih =>
    by_cases ha : p a = true
    · simp [find_if, ha]
    · have ha' : p a = false := by simpa using ha
      cases hr : find_if p rest with
      | none =>
        simp only [find_if, ha', hr]
        simpa [ha'] using ih.mp hr
      | some ib =>
        have : ¬ ∀ b ∈ rest, p b = false := fun h => by simp [ih.mpr h] at hr
        simp only [find_if, ha', hr]
        simpa [ha'] using this

theorem find_if_some (p : block_info → Bool) (l : List block_info) (i : Nat) (b : block_info)
    (h : find_if p l = some (i, b)) :
    l[i]? = some b ∧ p b = true ∧ ∀ j, j < i → ∀ c, l[j]? = some c → p c = false := by
  induction l generalizing i with
  | nil => simp [find_if] at h
  | cons a rest ih =>
    by_cases ha : p a = true
    · simp [find_if, ha] at h
      obtain ⟨rfl, rfl⟩ := h
      exact ⟨by simp, ha, fun j hj => absurd hj (Nat.not_lt_zero j)⟩
    · have ha' : p a = false := by simpa using ha
      cases hr : find_if p rest with
      | none => simp [find_if, ha', hr] at h
      | some ib =>
        obtain ⟨k, c⟩ := ib
        simp [find_if, ha', hr] at h
        obtain ⟨rfl, rfl⟩ := h
        obtain ⟨h1, h2, h3⟩ := ih k hr
        refine ⟨by simpa using h1, h2, ?_⟩
        intro j hj d hd
        cases j with
        | zero => simp at hd; subst hd; exact ha'
        | succ j => exact h3 j (by omega) d (by simpa using hd)

theorem find_if_first (p : block_info → Bool) (l : List block_info) (i : Nat) (b : block_info)
    (h1 : l[i]? = some b) (h2 : p b = true)
    (h3 : ∀ j, j < i → ∀ c, l[j]? = some c → p c = false) :
    find_if p l = some (i, b) := by
  induction l generalizing i with
  | nil => simp at h1
  | cons a rest ih =>
    cases i with
    | zero =>
      simp at h1; subst h1
      simp [find_if, h2]
    | succ k =>
      have ha : p a = false := h3 0 (by omega) a (by simp)
      have := ih k (by simpa using h1) (fun j hj c hc => h3 (j + 1) (by omega) c (by simpa using hc))
      simp [find_if, ha, this]

theorem set_used_eq_set (l : List block_info) (i : Nat) (u : Bool) (b : block_info)
    (h : l[i]? = some b) : set_used l i u = l.set i { b with used := u } := by
  induction l generalizing i with
  | nil => simp at h
  | cons a rest ih =>
    cases i with
    | zero => simp at h; subst h; simp [set_used]
    | succ k => simp [set_used, ih k (by simpa using h)]

theorem set_used_triple (l : List block_info) (i : Nat) (u : Bool) :
    (set_used l i u).map block_info.triple = l.map block_info.triple := by
  induction l generalizing i with
  | nil => simp [set_used]
  | cons a rest ih =>
    cases i with
    | zero => simp [set_used, block_info.triple]
    | succ k => simp [set_used, ih k]

theorem set_used_length (l : List block_info) (i : Nat) (u : Bool) :
    (set_used l i u).length = l.length := by
  have := congrArg List.length (set_used_triple l i u)
  simpa using this

/-! ## The pool: reuse, growth, rounding, release -/

theorem find_if_of_mem (p : block_info → Bool) (l : List block_info)
    (h : ∃ b ∈ l, p b = true) : ∃ i b, find_if p l = some (i, b) := by
  cases hr : find_if p l with
  | some ib => exact ⟨ib.1, ib.2, rfl⟩
  | none =>
    obtain ⟨b, hb, hp⟩ := h
    have := (find_if_none_iff p l).mp hr b hb
    simp [hp] at this

/-- C4 (first-fit reuse). When some record is free and at least `bytes` large,
`do_allocate` returns the address of the first such record in insertion order,
sets the used flag of that record and changes nothing else in the collection (so no
record is appended), and makes no upstream call; the stored alignment of the record
and the requested alignment play no part. -/
theorem do_allocate_first_fit (up : Upstream) (self : cube_memory_resource)
    (log : List UpCall) (bytes alignment : Nat)
    (h : ∃ b ∈ self.blocks, b.used = false ∧ bytes ≤ b.size) :
    ∃ i b, self.blocks[i]? = some b ∧ b.used = false ∧ bytes ≤ b.size ∧
      (∀ j, j < i → ∀ c, self.blocks[j]? = some c → ¬ (c.used = false ∧ bytes ≤ c.size)) ∧
      (do_allocate up self log bytes alignment).ret = some b.ptr ∧
      (do_allocate up self log bytes alignment).self.blocks
        = self.blocks.set i { b with used := true } ∧
      (do_allocate up self log bytes alignment).upstream = log := by
  obtain ⟨i, b, hf⟩ := find_if_of_mem
    (fun block => !block.used && decide (block.size ≥ bytes)) self.blocks
    (by obtain ⟨b, hb, h1, h2⟩ := h; exact ⟨b, hb, by simp [h1, h2]⟩)
  obtain ⟨h1, h2, h3⟩ := find_if_some _ _ _ _ hf
  simp only [Bool.and_eq_true, Bool.not_eq_true', decide_eq_true_eq] at h2
  refine ⟨i, b, h1, h2.1, h2.2, ?_, ?_, ?_, ?_⟩
  · intro j hj c hc hcon
    have := h3 j hj c hc
    simp [hcon.1, hcon.2] at this
  · simp [do_allocate, hf]
  · simp [do_allocate, hf, set_used_eq_set _ _ _ _ h1]
  · simp [do_allocate, hf]

/-- C4 at `pool_three`, for a request of 24 bytes aligned to 16. -/
theorem do_allocate_first_fit_witness :
    (∃ b ∈ pool_three.blocks, b.used = false ∧ 24 ≤ b.size) ∧
    ∃ i b, pool_three.blocks[i]? = some b ∧ b.used = false ∧ 24 ≤ b.size ∧
      (∀ j, j < i → ∀ c, pool_three.blocks[j]? = some c → ¬ (c.used = false ∧ 24 ≤ c.size)) ∧
      (do_allocate (fun _ _ _ => none) pool_three [] 24 16).ret = some b.ptr ∧
      (do_allocate (fun _ _ _ => none) pool_three [] 24 16).self.blocks
        = pool_three.blocks.set i { b with used := true } ∧
      (do_allocate (fun _ _ _ => none) pool_three [] 24 16).upstream = [] :=
  ⟨⟨⟨4160, 64, 1, false⟩, by decide⟩,
   do_allocate_first_fit (fun _ _ _ => none) pool_three [] 24 16
     ⟨⟨4160, 64, 1, false⟩, by decide⟩⟩

theorem do_allocate_no_fit (up : Upstream) (self : cube_memory_resource)
    (log : List UpCall) (bytes alignment : Nat)
    (h : ∀ b ∈ self.blocks, ¬ (b.used = false ∧ bytes ≤ b.size)) :
    (do_allocate up self log bytes alignment).upstream
      = log ++ [UpCall.allocate (actual_size bytes) alignment
          (up log (actual_size bytes) alignment)] ∧
    (∀ a, up log (actual_size bytes) alignment = some a →
      (do_allocate up self log bytes alignment).ret = some a ∧
      (do_allocate up self log bytes alignment).self.blocks
        = self.blocks ++ [block_info.mk a (actual_size bytes) alignment true]) ∧
    (up log (actual_size bytes) alignment = none →
      (do_allocate up self log bytes alignment).ret = none ∧
      (do_allocate up self log bytes alignment).self = self) := by
  have hf : find_if (fun block => !block.used && decide (block.size ≥ bytes)) self.blocks
      = none := by
    rw [find_if_none_iff]
    intro b hb
    have := h b hb
    by_cases hu : b.used = true
    · simp [hu]
    · have hu' : b.used = false := by simpa using hu
      have : ¬ bytes ≤ b.size := fun hle => this ⟨hu', hle⟩
      simp [hu', this]
  cases hup : up log (actual_size bytes) alignment with
  | none => simp [do_allocate, hf, hup]
  | some a => simp [do_allocate, hf, hup]

/-- C5 (growth). When no free record is at least `bytes` large, `do_allocate` makes
exactly one upstream call, `allocate(actual_size, alignment)`; when that call
returns an address, the method returns it and the collection is the old one,
untouched, followed by the one record (address, `actual_size`, `alignment`, used);
when that call throws, the exception propagates and the collection is unchanged. -/
theorem do_allocate_growth (up : Upstream) (self : cube_memory_resource)
    (log : List UpCall) (bytes alignment : Nat)
    (h : ∀ b ∈ self.blocks, ¬ (b.used = false ∧ bytes ≤ b.size)) :
    (do_allocate up self log bytes alignment).upstream
      = log ++ [UpCall.allocate (actual_size bytes) alignment
          (up log (actual_size bytes) alignment)] ∧
    (∀ a, up log (actual_size bytes) alignment = some a →
      (do_allocate up self log bytes alignment).ret = some a ∧
      (do_allocate up self log bytes alignment).self.blocks
        = self.blocks ++ [block_info.mk a (actual_size bytes) alignment true]) ∧
    (up log (actual_size bytes) alignment = none →
      (do_allocate up self log bytes alignment).ret = none ∧
      (do_allocate up self log bytes alignment).self = self) :=
  do_allocate_no_fit up self log bytes alignment h

/-- C5 at `pool_three`, for a request of 200 bytes aligned to 8, with an upstream
resource that returns the address 8192. -/
theorem do_allocate_growth_witness :
    (∀ b ∈ pool_three.blocks, ¬ (b.used = false ∧ 200 ≤ b.size)) ∧
    (do_allocate (fun _ _ _ => some 8192) pool_three [] 200 8).upstream
      = [] ++ [UpCall.allocate (actual_size 200) 8 (some 8192)] ∧
    (∀ a, some 8192 = some a →
      (do_allocate (fun _ _ _ => some 8192) pool_three [] 200 8).ret = some a ∧
      (do_allocate (fun _ _ _ => some 8192) pool_three [] 200 8).self.blocks
        = pool_three.blocks ++ [block_info.mk a (actual_size 200) 8 true]) ∧
    ((some 8192 : Option Nat) = none →
      (do_allocate (fun _ _ _ => some 8192) pool_three [] 200 8).ret = none ∧
      (do_allocate (fun _ _ _ => some 8192) pool_three [] 200 8).self = pool_three) :=
  ⟨by decide, do_allocate_growth (fun _ _ _ => some 8192) pool_three [] 200 8 (by decide)⟩

theorem actual_size_eq (bytes : Nat) (hb : bytes ≤ 2 ^ 64 - 64) :
    actual_size bytes = (bytes + 63) / 64 * 64 := by
  unfold actual_size size_mul size_sub size_add SIZE_RANGE CUBE_SIZE
  norm_num at hb ⊢
  omega

/-- C6 (granule rounding), for requests of at most `2 ^ 64 - 64` bytes. The size
that `do_allocate` requests upstream and stores in the new record is the least
multiple of 64 that is at least `bytes`; it is `bytes` itself when `bytes` is a
multiple of 64. -/
theorem actual_size_least_multiple (bytes : Nat) (hb : bytes ≤ 2 ^ 64 - 64) :
    IsLeast {m : Nat | CUBE_SIZE ∣ m ∧ bytes ≤ m} (actual_size bytes) ∧
    (CUBE_SIZE ∣ bytes → actual_size bytes = bytes) ∧
    ∀ (up : Upstream) (self : cube_memory_resource) (log : List UpCall) (alignment a : Nat),
      (∀ b ∈ self.blocks, ¬ (b.used = false ∧ bytes ≤ b.size)) →
      up log (actual_size bytes) alignment = some a →
      (do_allocate up self log bytes alignment).upstream
        = log ++ [UpCall.allocate (actual_size bytes) alignment (some a)] ∧
      (do_allocate up self log bytes alignment).self.blocks
        = self.blocks ++ [block_info.mk a (actual_size bytes) alignment true] := by
  have he := actual_size_eq bytes hb
  refine ⟨⟨⟨?_, ?_⟩, ?_⟩, ?_, ?_⟩
  · rw [he]; exact Nat.dvd_mul_left _ _
  · rw [he]; omega
  · rintro m ⟨⟨k, rfl⟩, hm⟩
    rw [he]
    unfold CUBE_SIZE at hm ⊢
    omega
  · rintro ⟨k, rfl⟩
    rw [he]
    unfold CUBE_SIZE
    omega
  · intro up self log alignment a hfit hup
    have := do_allocate_no_fit up self log bytes alignment hfit
    rw [hup] at this
    exact ⟨this.1, (this.2.1 a rfl).2⟩

/-- C6 at a request of 100 bytes: the rounded size is 128. -/
theorem actual_size_least_multiple_witness :
    100 ≤ 2 ^ 64 - 64 ∧ IsLeast {m : Nat | CUBE_SIZE ∣ m ∧ 100 ≤ m} (actual_size 100) :=
  ⟨by norm_num, (actual_size_least_multiple 100 (by norm_num)).1⟩

/-- C6 as stated fails for a request of `2 ^ 64 - 1` bytes: `bytes + CUBE_SIZE - 1`
wraps around, the size requested upstream and stored in the new record is 0, which
is smaller than `bytes`. -/
theorem actual_size_wraps :
    (do_allocate (fun _ _ _ => some 4096) cube_memory_resource.new [] (2 ^ 64 - 1) 8).upstream
      = [UpCall.allocate 0 8 (some 4096)] ∧
    (do_allocate (fun _ _ _ => some 4096) cube_memory_resource.new [] (2 ^ 64 - 1) 8).self.blocks
      = [block_info.mk 4096 0 8 true] ∧
    actual_size (2 ^ 64 - 1) = 0 ∧
    ¬ IsLeast {m : Nat | CUBE_SIZE ∣ m ∧ 2 ^ 64 - 1 ≤ m} (actual_size (2 ^ 64 - 1)) := by
  have h0 : actual_size (2 ^ 64 - 1) = 0 := by
    unfold actual_size size_mul size_sub size_add SIZE_RANGE CUBE_SIZE
    norm_num
  refine ⟨?_, ?_, h0, ?_⟩
  · simp only [do_allocate, cube_memory_resource.new, find_if, h0, List.nil_append]
  · simp only [do_allocate, cube_memory_resource.new, find_if, h0, List.nil_append]
  · rw [h0]
    rintro ⟨⟨-, h⟩, -⟩
    norm_num at h

/-- C7 (release). If some record has address `ptr`, `do_deallocate` clears the used
flag of the first such record, leaves the number of records and every address,
size and alignment as they were, and makes no upstream call. If no record has
address `ptr`, the collection is unchanged and the one upstream call
`deallocate(ptr, bytes, alignment)` is made. -/
theorem do_deallocate_spec (self : cube_memory_resource) (log : List UpCall)
    (ptr bytes alignment : Nat) :
    ((∃ b ∈ self.blocks, b.ptr = ptr) →
      ∃ i b, self.blocks[i]? = some b ∧ b.ptr = ptr ∧
        (∀ j, j < i → ∀ c, self.blocks[j]? = some c → c.ptr ≠ ptr) ∧
        (do_deallocate self log ptr bytes alignment).1.blocks
          = self.blocks.set i { b with used := false } ∧
        total_blocks (do_deallocate self log ptr bytes alignment).1 = total_blocks self ∧
        (do_deallocate self log ptr bytes alignment).1.blocks.map block_info.triple
          = self.blocks.map block_info.triple ∧
        (do_deallocate self log ptr bytes alignment).2 = log) ∧
    ((∀ b ∈ self.blocks, b.ptr ≠ ptr) →
      do_deallocate self log ptr bytes alignment
        = (self, log ++ [UpCall.deallocate ptr bytes alignment])) := by
  constructor
  · intro h
    obtain ⟨i, b, hf⟩ := find_if_of_mem (fun info => decide (info.ptr = ptr)) self.blocks
      (by obtain ⟨b, hb, h1⟩ := h; exact ⟨b, hb, by simp [h1]⟩)
    obtain ⟨h1, h2, h3⟩ := find_if_some _ _ _ _ hf
    simp only [decide_eq_true_eq] at h2
    refine ⟨i, b, h1, h2, ?_, ?_, ?_, ?_, ?_⟩
    · intro j hj c hc
      simpa using h3 j hj c hc
    · simp [do_deallocate, hf, set_used_eq_set _ _ _ _ h1]
    · simp [do_deallocate, hf, total_blocks, set_used_length]
    · simp only [do_deallocate, hf, set_used_triple]
    · simp [do_deallocate, hf]
  · intro h
    have hf : find_if (fun info => decide (info.ptr = ptr)) self.blocks = none := by
      rw [find_if_none_iff]
      intro b hb
      simpa using h b hb
    simp [do_deallocate, hf]

/-- C7 at `pool_three`: releasing the address 4096 that the pool owns, and the
address 12 that it does not own. -/
theorem do_deallocate_spec_witness :
    (∃ b ∈ pool_three.blocks, b.ptr = 4096) ∧
    (do_deallocate pool_three [] 4096 24 8).1.blocks.map block_info.triple
      = pool_three.blocks.map block_info.triple ∧
    allocated_blocks (do_deallocate pool_three [] 4096 24 8).1 = 0 ∧
    (∀ b ∈ pool_three.blocks, b.ptr ≠ 12) ∧
    do_deallocate pool_three [] 12 24 8 = (pool_three, [] ++ [UpCall.deallocate 12 24 8]) := by
  have hA : ∃ b ∈ pool_three.blocks, b.ptr = 4096 := ⟨⟨4096, 64, 8, true⟩, by decide⟩
  have hB : ∀ b ∈ pool_three.blocks, b.ptr ≠ 12 := by decide
  obtain ⟨i, b, -, -, -, -, -, h6, -⟩ := (do_deallocate_spec pool_three [] 4096 24 8).1 hA
  exact ⟨hA, h6, by decide, hB, (do_deallocate_spec pool_three [] 12 24 8).2 hB⟩

theorem do_allocate_keeps_triples (up : Upstream) (self : cube_memory_resource)
    (log : List UpCall) (bytes alignment : Nat) :
    self.blocks.map block_info.triple
      <+: (do_allocate up self log bytes alignment).self.blocks.map block_info.triple := by
  unfold do_allocate
  cases hf : find_if (fun block => !block.used && decide (block.size ≥ bytes)) self.blocks with
  | some ib =>
    simp only [set_used_triple]
    exact List.prefix_refl _
  | none =>
    cases hup : up log (actual_size bytes) alignment with
    | none => exact List.prefix_refl _
    | some a =>
      simp only [List.map_append]
      exact List.prefix_append _ _

theorem do_deallocate_triple (self : cube_memory_resource) (log : List UpCall)
    (ptr bytes alignment : Nat) :
    (do_deallocate self log ptr bytes alignment).1.blocks.map block_info.triple
      = self.blocks.map block_info.triple := by
  unfold do_deallocate
  cases hf : find_if (fun info => decide (info.ptr = ptr)) self.blocks with
  | some ib => simp only [set_used_triple]
  | none => rfl

theorem apply_keeps_triples (up : Upstream) (s : cube_memory_resource × List UpCall)
    (c : PoolCall) :
    s.1.blocks.map block_info.triple <+: (c.apply up s).1.blocks.map block_info.triple := by
  cases c with
  | allocate bytes alignment => exact do_allocate_keeps_triples up s.1 s.2 bytes alignment
  | deallocate ptr bytes alignment =>
    simp only [PoolCall.apply, do_deallocate_triple]
    exact List.prefix_refl _

theorem run_calls_keeps_triples (up : Upstream) (s : cube_memory_resource × List UpCall)
    (calls : List PoolCall) :
    s.1.blocks.map block_info.triple
      <+: (run_calls up s calls).1.blocks.map block_info.triple := by
  induction calls generalizing s with
  | nil => exact List.prefix_refl _
  | cons c cs ih => exact (apply_keeps_triples up s c).trans (ih (c.apply up s))

theorem total_memory_fold (l : List block_info) (acc : Nat) (hacc : acc < 2 ^ 64) :
    l.foldl (fun total block => size_add total block.size) acc
      = (acc + (l.map block_info.size).sum) % 2 ^ 64 := by
  induction l generalizing acc with
  | nil =>
    simp only [List.foldl_nil, List.map_nil, List.sum_nil, Nat.add_zero]
    exact (Nat.mod_eq_of_lt hacc).symm
  | cons b rest ih =>
    have hlt : size_add acc b.size < 2 ^ 64 := Nat.mod_lt _ (by norm_num [SIZE_RANGE])
    simp only [List.foldl_cons, List.map_cons, List.sum_cons]
    rw [ih _ hlt]
    unfold size_add SIZE_RANGE
    omega

theorem total_memory_eq (self : cube_memory_resource) :
    total_memory self = (self.blocks.map block_info.size).sum % 2 ^ 64 := by
  unfold total_memory
  rw [total_memory_fold _ 0 (by norm_num)]
  simp

theorem sizes_of_triples (l : List block_info) :
    l.map block_info.size = (l.map block_info.triple).map (fun t => t.2.1) := by
  simp [block_info.triple, Function.comp_def]

theorem held_append (log : List UpCall) (c : UpCall) :
    held (log ++ [c]) = held_step (held log) c := by
  simp [held, List.foldl_append]

theorem apart_symm (x y : Nat × Nat) (h : Apart x y) : Apart y x := by
  unfold Apart at *
  omega

theorem storage_points (l : List (Nat × Nat)) (hs : Storage l) :
    ∃ S : Finset Nat, S ⊆ Finset.Ico 1 (2 ^ 64) ∧
      (∀ p, p ∈ S → ∃ b ∈ l, b.1 ≤ p ∧ p < b.1 + b.2) ∧
      S.card = (l.map Prod.snd).sum := by
  induction l with
  | nil => exact ⟨∅, by simp, by simp, by simp⟩
  | cons b rest ih =>
    obtain ⟨hb, hp⟩ := hs
    rw [List.pairwise_cons] at hp
    obtain ⟨S, h1, h2, h3⟩ := ih ⟨fun c hc => hb c (List.mem_cons_of_mem _ hc), hp.2⟩
    have hbb := hb b (List.mem_cons_self _ _)
    have hd : Disjoint (Finset.Ico b.1 (b.1 + b.2)) S := by
      rw [Finset.disjoint_left]
      intro p hpb hpS
      obtain ⟨c, hc, hc1, hc2⟩ := h2 p hpS
      have ha := hp.1 c hc
      rw [Finset.mem_Ico] at hpb
      unfold Apart at ha
      omega
    refine ⟨Finset.Ico b.1 (b.1 + b.2) ∪ S, ?_, ?_, ?_⟩
    · apply Finset.union_subset _ h1
      intro p hpb
      rw [Finset.mem_Ico] at hpb ⊢
      omega
    · intro p hpm
      rw [Finset.mem_union] at hpm
      cases hpm with
      | inl hpb =>
        rw [Finset.mem_Ico] at hpb
        exact ⟨b, List.mem_cons_self _ _, hpb.1, hpb.2⟩
      | inr hpS =>
        obtain ⟨c, hc, hc1, hc2⟩ := h2 p hpS
        exact ⟨c, List.mem_cons_of_mem _ hc, hc1, hc2⟩
    · rw [Finset.card_union_of_disjoint hd, h3, Nat.card_Ico]
      simp

theorem storage_sum_lt (l : List (Nat × Nat)) (hs : Storage l) :
    (l.map Prod.snd).sum < 2 ^ 64 := by
  obtain ⟨S, h1, -, h3⟩ := storage_points l hs
  have := Finset.card_le_card h1
  rw [Nat.card_Ico, h3] at this
  omega

theorem subperm_sum_le (l h : List (Nat × Nat)) (hsub : l.Subperm h) :
    (l.map Prod.snd).sum ≤ (h.map Prod.snd).sum := by
  obtain ⟨l1, hperm, hsl⟩ := hsub
  rw [← (hperm.map Prod.snd).sum_eq]
  exact List.Sublist.sum_le_sum (hsl.map Prod.snd) (fun _ _ => Nat.zero_le _)

theorem subperm_eraseP (l h : List (Nat × Nat)) (q : Nat × Nat → Bool)
    (hsub : l.Subperm h) (hq : ∀ x ∈ l, q x = false) : l.Subperm (h.eraseP q) := by
  by_cases hex : ∃ a ∈ h, q a = true
  · obtain ⟨a, l1, l2, hl1, ha, rfl, he⟩ := List.exists_of_eraseP hex.choose_spec.1 hex.choose_spec.2
    rw [he]
    have hnot : a ∉ l := fun hm => by simp [hq a hm] at ha
    have h1 : l.Subperm (a :: (l1 ++ l2)) :=
      hsub.trans (List.perm_middle.subperm)
    obtain ⟨l3, hperm, hsl⟩ := h1
    cases hsl with
    | cons _ h => exact ⟨l3, hperm, h⟩
    | cons₂ _ h => exact absurd (hperm.subset (List.mem_cons_self _ _)) hnot
  · rw [List.eraseP_of_forall_not]
    · exact hsub
    · intro a ha hqa
      exact hex ⟨a, ha, hqa⟩

theorem set_used_pairs (l : List block_info) (i : Nat) (u : Bool) :
    (set_used l i u).map (fun b => (b.ptr, b.size)) = l.map (fun b => (b.ptr, b.size)) := by
  have h := congrArg (List.map (fun t : Nat × Nat × Nat => (t.1, t.2.1))) (set_used_triple l i u)
  simpa [block_info.triple, Function.comp_def] using h

theorem storage_step (up : Upstream) (hr : up.Real) (s : cube_memory_resource × List UpCall)
    (c : PoolCall) (hst : Storage (held s.2)) (hh : Holds s.1 s.2) :
    Storage (held (c.apply up s).2) ∧ Holds (c.apply up s).1 (c.apply up s).2 := by
  cases c with
  | allocate bytes alignment =>
    simp only [PoolCall.apply]
    unfold do_allocate
    cases hf : find_if (fun block => !block.used && decide (block.size ≥ bytes)) s.1.blocks with
    | some ib =>
      refine ⟨hst, ?_⟩
      simpa [Holds, set_used_pairs] using hh
    | none =>
      cases hup : up s.2 (actual_size bytes) alignment with
      | none =>
        simp only [held_append, held_step, Holds]
        exact ⟨hst, hh⟩
      | some a =>
        obtain ⟨h1, h2, h3⟩ := hr _ _ _ _ hup
        simp only [held_append, held_step, Holds]
        constructor
        · refine ⟨?_, List.pairwise_cons.mpr ⟨h3, hst.2⟩⟩
          intro b hb
          rcases List.mem_cons.mp hb with rfl | hb
          · exact ⟨h1, h2⟩
          · exact hst.1 b hb
        · simp only [List.map_append, List.map_cons, List.map_nil]
          exact (List.perm_append_singleton _ _).subperm.trans
            ((List.subperm_cons _).mpr hh)
  | deallocate ptr bytes alignment =>
    simp only [PoolCall.apply]
    unfold do_deallocate
    cases hf : find_if (fun info => decide (info.ptr = ptr)) s.1.blocks with
    | some ib =>
      refine ⟨hst, ?_⟩
      simpa [Holds, set_used_pairs] using hh
    | none =>
      simp only [held_append, held_step, Holds]
      have hnone := (find_if_none_iff _ _).mp hf
      constructor
      · refine ⟨fun b hb => hst.1 b (List.mem_of_mem_eraseP hb), ?_⟩
        exact hst.2.sublist (List.eraseP_sublist _)
      · apply subperm_eraseP _ _ _ hh
        intro x hx
        obtain ⟨b, hb, rfl⟩ := List.mem_map.mp hx
        simpa using hnone b hb

theorem storage_run (up : Upstream) (hr : up.Real) (s : cube_memory_resource × List UpCall)
    (calls : List PoolCall) (hst : Storage (held s.2)) (hh : Holds s.1 s.2) :
    Storage (held (run_calls up s calls).2) ∧
      Holds (run_calls up s calls).1 (run_calls up s calls).2 := by
  induction calls generalizing s with
  | nil => exact ⟨hst, hh⟩
  | cons c cs ih =>
    obtain ⟨h1, h2⟩ := storage_step up hr s c hst hh
    exact ih (c.apply up s) h1 h2

theorem holds_sum_lt (pool : cube_memory_resource) (log : List UpCall)
    (hst : Storage (held log)) (hh : Holds pool log) :
    (pool.blocks.map block_info.size).sum < 2 ^ 64 := by
  have h1 := subperm_sum_le _ _ hh
  have h2 := storage_sum_lt _ hst
  have h3 : (pool.blocks.map (fun b => (b.ptr, b.size))).map Prod.snd
      = pool.blocks.map block_info.size := by
    simp [Function.comp_def]
  rw [h3] at h1
  omega

theorem arena_top (l : List (Nat × Nat)) :
    1 ≤ l.foldr (fun b top => max (b.1 + b.2) top) 1 ∧
    ∀ b ∈ l, b.1 + b.2 ≤ l.foldr (fun b top => max (b.1 + b.2) top) 1 := by
  induction l with
  | nil => simp
  | cons a rest ih =>
    simp only [List.foldr_cons, List.mem_cons, forall_eq_or_imp]
    refine ⟨by omega, by omega, ?_⟩
    intro b hb
    have := ih.2 b hb
    omega

theorem arena_upstream_real : Upstream.Real arena_upstream := by
  intro log bytes alignment a h
  unfold arena_upstream at h
  split at h
  · rename_i hle
    simp only [Option.some.injEq] at h
    subst h
    obtain ⟨h1, h2⟩ := arena_top (held log)
    refine ⟨by omega, hle, ?_⟩
    intro b hb
    have := h2 b hb
    unfold Apart
    simp only
    omega
  · simp at h

theorem storage_nil : Storage (held []) := by
  simp [Storage, held]

theorem holds_new (log : List UpCall) : Holds cube_memory_resource.new log := by
  simp [Holds, cube_memory_resource.new]

/-- C8 (the record collection only grows). Over one call and over every sequence of
`do_allocate` and `do_deallocate` calls, the (address, size, alignment) triples
before are a prefix of those after, so only used flags of existing records change
and `total_blocks()` does not decrease. `total_memory()`, the `std::size_t` sum of
the record sizes, does not decrease either: whenever the sum of the record sizes
after the calls is below `2 ^ 64`, and therefore whenever the upstream resource
hands out storage (blocks inside the 64-bit address space with no byte in common)
and the records of the pool are blocks that it holds, as they are from the
construction of the pool on; the pool then still holds its records after the
calls. -/
theorem blocks_only_grow (up : Upstream) (s : cube_memory_resource × List UpCall)
    (calls : List PoolCall) :
    (∀ c : PoolCall,
      s.1.blocks.map block_info.triple <+: (c.apply up s).1.blocks.map block_info.triple) ∧
    s.1.blocks.map block_info.triple
      <+: (run_calls up s calls).1.blocks.map block_info.triple ∧
    total_blocks s.1 ≤ total_blocks (run_calls up s calls).1 ∧
    (((run_calls up s calls).1.blocks.map block_info.size).sum < 2 ^ 64 →
      total_memory s.1 ≤ total_memory (run_calls up s calls).1) ∧
    (up.Real → Storage (held s.2) → Holds s.1 s.2 →
      Storage (held (run_calls up s calls).2) ∧
      Holds (run_calls up s calls).1 (run_calls up s calls).2 ∧
      total_memory s.1 ≤ total_memory (run_calls up s calls).1) ∧
    (up.Real → ∀ before : List PoolCall,
      total_memory (run_calls up (cube_memory_resource.new, []) before).1
        ≤ total_memory
            (run_calls up (run_calls up (cube_memory_resource.new, []) before) calls).1) := by
  have hmem : ∀ t : cube_memory_resource × List UpCall,
      ((run_calls up t calls).1.blocks.map block_info.size).sum < 2 ^ 64 →
      total_memory t.1 ≤ total_memory (run_calls up t calls).1 := by
    intro t hsum
    obtain ⟨r, hr⟩ := run_calls_keeps_triples up t calls
    have h2 : ((run_calls up t calls).1.blocks.map block_info.size).sum
        = (t.1.blocks.map block_info.size).sum + (r.map (fun x => x.2.1)).sum := by
      rw [sizes_of_triples, sizes_of_triples, ← hr, List.map_append, List.sum_append]
    rw [total_memory_eq, total_memory_eq, Nat.mod_eq_of_lt hsum,
      Nat.mod_eq_of_lt (by omega)]
    omega
  have hp := run_calls_keeps_triples up s calls
  refine ⟨apply_keeps_triples up s, hp, ?_, hmem s, ?_, ?_⟩
  · have := hp.length_le
    simpa [total_blocks] using this
  · intro hr hst hh
    obtain ⟨h1, h2⟩ := storage_run up hr s calls hst hh
    exact ⟨h1, h2, hmem s (holds_sum_lt _ _ h1 h2)⟩
  · intro hr before
    obtain ⟨h1, h2⟩ := storage_run up hr (cube_memory_resource.new, []) before
      storage_nil (holds_new [])
    obtain ⟨h3, h4⟩ := storage_run up hr _ calls h1 h2
    exact hmem _ (holds_sum_lt _ _ h3 h4)

/-- C8 on a new pool, for two growing allocations, a release and a reuse, with an
upstream resource that hands out storage. -/
theorem blocks_only_grow_witness :
    arena_upstream.Real ∧ Storage (held []) ∧ Holds cube_memory_resource.new [] ∧
    (run_calls arena_upstream (cube_memory_resource.new, [])
        [PoolCall.allocate 200 8, PoolCall.allocate 16 8, PoolCall.deallocate 1 200 8,
         PoolCall.allocate 100 8]).1.blocks
      = [block_info.mk 1 256 8 true, block_info.mk 257 64 8 true] ∧
    total_memory (run_calls arena_upstream (cube_memory_resource.new, [])
        [PoolCall.allocate 200 8, PoolCall.allocate 16 8, PoolCall.deallocate 1 200 8,
         PoolCall.allocate 100 8]).1 = 320 ∧
    total_memory cube_memory_resource.new
      ≤ total_memory (run_calls arena_upstream (cube_memory_resource.new, [])
        [PoolCall.allocate 200 8, PoolCall.allocate 16 8, PoolCall.deallocate 1 200 8,
         PoolCall.allocate 100 8]).1 :=
  ⟨arena_upstream_real, storage_nil, holds_new [], by decide, by decide,
   ((blocks_only_grow arena_upstream (cube_memory_resource.new, [])
      [PoolCall.allocate 200 8, PoolCall.allocate 16 8, PoolCall.deallocate 1 200 8,
       PoolCall.allocate 100 8]).2.2.2.2.1 arena_upstream_real storage_nil (holds_new [])).2.2⟩

/-! ## The pool and the addresses it hands out -/

theorem set_used_ptrs (l : List block_info) (i : Nat) (u : Bool) :
    (set_used l i u).map (fun b => b.ptr) = l.map (fun b => b.ptr) := by
  induction l generalizing i with
  | nil => simp [set_used]
  | cons a rest ih =>
    cases i with
    | zero => simp [set_used]
    | succ k => simp [set_used, ih k]

theorem set_used_sizes (l : List block_info) (i : Nat) (u : Bool) :
    (set_used l i u).map block_info.size = l.map block_info.size := by
  induction l generalizing i with
  | nil => simp [set_used]
  | cons a rest ih =>
    cases i with
    | zero => simp [set_used]
    | succ k => simp [set_used, ih k]

theorem find_if_ptr_set_used (a : Nat) (l : List block_info) (i : Nat) (u : Bool) :
    find_if (fun info => decide (info.ptr = a)) (set_used l i u)
      = match find_if (fun info => decide (info.ptr = a)) l with
        | some (j, c) => some (j, if j = i then { c with used := u } else c)
        | none => none := by
  induction l generalizing i with
  | nil => simp [set_used, find_if]
  | cons x rest ih =>
    cases i with
    | zero =>
      by_cases hx : x.ptr = a
      · simp [set_used, find_if, hx]
      · simp only [set_used, find_if, hx, decide_False, Bool.false_eq_true, if_false]
        cases find_if (fun info => decide (info.ptr = a)) rest with
        | none => rfl
        | some jc => simp
    | succ k =>
      by_cases hx : x.ptr = a
      · simp [set_used, find_if, hx]
      · simp only [set_used, find_if, hx, decide_False, Bool.false_eq_true, if_false, ih k]
        cases find_if (fun info => decide (info.ptr = a)) rest with
        | none => rfl
        | some jc => simp

theorem find_if_append_one (p : block_info → Bool) (l : List block_info) (x : block_info) :
    find_if p (l ++ [x])
      = match find_if p l with
        | some r => some r
        | none => if p x then some (l.length, x) else none := by
  induction l with
  | nil => simp [find_if]
  | cons y rest ih =>
    by_cases hy : p y = true
    · simp [find_if, hy]
    · have hy' : p y = false := by simpa using hy
      cases hr : find_if p rest with
      | some r =>
        rw [hr] at ih
        simp [find_if, hy', ih, hr]
      | none =>
        rw [hr] at ih
        by_cases hx : p x = true
        · simp [find_if, hy', ih, hx, hr]
        · simp [find_if, hy', ih, hx, hr]

theorem find_if_of_nodup (l : List block_info) (i : Nat) (b : block_info)
    (hn : (l.map (fun b => b.ptr)).Nodup) (hi : l[i]? = some b) :
    find_if (fun info => decide (info.ptr = b.ptr)) l = some (i, b) := by
  apply find_if_first _ _ _ _ hi (by simp)
  intro j hj c hc
  simp only [decide_eq_false_iff_not]
  intro hcb
  have h1 : (l.map (fun b => b.ptr))[j]? = some c.ptr := by simp [hc]
  have h2 : (l.map (fun b => b.ptr))[i]? = some c.ptr := by simp [hi, hcb]
  have := (List.nodup_iff_getElem?_ne_getElem?.mp hn) j i hj (by
    have := (List.getElem?_eq_some_iff.mp h2).1
    exact this)
  exact this (h1.trans h2.symm)

theorem owner_mem (pool : cube_memory_resource) (a : Nat) (b : block_info)
    (h : owner pool a = some b) : b ∈ pool.blocks ∧ b.ptr = a := by
  unfold owner at h
  cases hf : find_if (fun info => decide (info.ptr = a)) pool.blocks with
  | none => simp [hf] at h
  | some jc =>
    obtain ⟨j, c⟩ := jc
    simp [hf] at h
    subst h
    obtain ⟨h1, h2, -⟩ := find_if_some _ _ _ _ hf
    exact ⟨List.getElem?_mem h1, by simpa using h2⟩

theorem live_append (log : List UpCall) (c : UpCall) :
    live (log ++ [c]) = live_step (live log) c := by
  simp [live, List.foldl_append]

theorem le_foldr_max (l : List Nat) (x : Nat) (h : x ∈ l) : x ≤ l.foldr max 0 := by
  induction l with
  | nil => simp at h
  | cons y rest ih =>
    simp only [List.foldr_cons]
    rcases List.mem_cons.mp h with rfl | h
    · exact le_max_left _ _
    · exact (ih h).trans (le_max_right _ _)

theorem bump_upstream_sound : Upstream.Sound bump_upstream := by
  intro log bytes alignment a h
  unfold bump_upstream at h
  split at h
  · rename_i hlt
    simp only [Option.some.injEq] at h
    subst h
    refine ⟨by omega, hlt, fun hmem => ?_⟩
    have := le_foldr_max _ _ hmem
    omega
  · simp at h

theorem poolOK_allocate (up : Upstream) (hs : up.Sound) (pool : cube_memory_resource)
    (log : List UpCall) (bytes alignment : Nat) (h : PoolOK pool log) :
    PoolOK (do_allocate up pool log bytes alignment).self
      (do_allocate up pool log bytes alignment).upstream := by
  unfold do_allocate
  cases hf : find_if (fun block => !block.used && decide (block.size ≥ bytes)) pool.blocks with
  | some ib =>
    simp only [PoolOK, set_used_ptrs]
    exact h
  | none =>
    cases hup : up log (actual_size bytes) alignment with
    | none =>
      simp only [PoolOK, live_append, live_step]
      exact h
    | some a =>
      obtain ⟨ha0, halt, hal⟩ := hs _ _ _ _ hup
      have hnot : a ∉ pool.blocks.map (fun b => b.ptr) := fun hm => hal (h.2 a hm).2.2
      simp only [PoolOK, live_append, live_step, List.map_append, List.map_cons, List.map_nil]
      constructor
      · rw [List.nodup_append]
        refine ⟨h.1, by simp, ?_⟩
        intro x hx hx'
        simp only [List.mem_singleton] at hx'
        subst hx'
        exact hnot hx
      · intro p hp
        rcases List.mem_append.mp hp with hp | hp
        · obtain ⟨h1, h2, h3⟩ := h.2 p hp
          exact ⟨h1, h2, List.mem_cons_of_mem _ h3⟩
        · simp only [List.mem_singleton] at hp
          subst hp
          exact ⟨ha0, halt, List.mem_cons_self _ _⟩

theorem owner_set_used (pool : cube_memory_resource) (i : Nat) (u : Bool) (a : Nat)
    (b : block_info) (h : owner pool a = some b) :
    ∃ j, find_if (fun info => decide (info.ptr = a)) pool.blocks = some (j, b) ∧
      owner ⟨set_used pool.blocks i u⟩ a = some (if j = i then { b with used := u } else b) := by
  unfold owner at h ⊢
  cases hf : find_if (fun info => decide (info.ptr = a)) pool.blocks with
  | none => simp [hf] at h
  | some jc =>
    obtain ⟨j, c⟩ := jc
    simp only [hf, Option.some.injEq] at h
    subst h
    exact ⟨j, rfl, by simp [find_if_ptr_set_used, hf]⟩

theorem owned_allocate (up : Upstream) (pool : cube_memory_resource)
    (log : List UpCall) (bytes alignment : Nat) (l : List Nat) (ho : Owned pool l) :
    Owned (do_allocate up pool log bytes alignment).self l := by
  intro a ha
  obtain ⟨b, hb, hu⟩ := ho a ha
  unfold do_allocate
  cases hf : find_if (fun block => !block.used && decide (block.size ≥ bytes)) pool.blocks with
  | some ib =>
    obtain ⟨j, -, hj⟩ := owner_set_used pool ib.1 true a b hb
    refine ⟨_, hj, ?_⟩
    split <;> simp [hu]
  | none =>
    cases hup : up log (actual_size bytes) alignment with
    | none => exact ⟨b, hb, hu⟩
    | some x =>
      refine ⟨b, ?_, hu⟩
      unfold owner at hb ⊢
      simp only [find_if_append_one]
      cases hf2 : find_if (fun info => decide (info.ptr = a)) pool.blocks with
      | none => simp [hf2] at hb
      | some jc => simpa [hf2] using hb

theorem allocate_fresh (up : Upstream) (hs : up.Sound) (pool : cube_memory_resource)
    (log : List UpCall) (bytes alignment : Nat) (l : List Nat) (hn : PoolOK pool log)
    (ho : Owned pool l) (a : Nat) (hr : (do_allocate up pool log bytes alignment).ret = some a) :
    a ≠ 0 ∧ a < 2 ^ 64 ∧ a ∉ l ∧
    ∃ b, owner (do_allocate up pool log bytes alignment).self a = some b ∧ b.used = true := by
  unfold do_allocate at hr ⊢
  cases hf : find_if (fun block => !block.used && decide (block.size ≥ bytes)) pool.blocks with
  | some ib =>
    obtain ⟨i, b⟩ := ib
    simp only [hf, Option.some.injEq] at hr
    subst hr
    obtain ⟨h1, h2, -⟩ := find_if_some _ _ _ _ hf
    simp only [Bool.and_eq_true, Bool.not_eq_true', decide_eq_true_eq] at h2
    have hmem : b.ptr ∈ pool.blocks.map (fun b => b.ptr) :=
      List.mem_map.mpr ⟨b, List.getElem?_mem h1, rfl⟩
    have hfi := find_if_of_nodup pool.blocks i b hn.1 h1
    have hown : owner pool b.ptr = some b := by simp [owner, hfi]
    refine ⟨(hn.2 _ hmem).1, (hn.2 _ hmem).2.1, ?_, ?_⟩
    · intro hl
      obtain ⟨c, hc, hu⟩ := ho _ hl
      rw [hown] at hc
      simp only [Option.some.injEq] at hc
      subst hc
      simp [h2.1] at hu
    · obtain ⟨j, hj1, hj2⟩ := owner_set_used pool i true b.ptr b hown
      rw [hfi] at hj1
      simp only [Option.some.injEq, Prod.mk.injEq, and_true] at hj1
      subst hj1
      exact ⟨_, hj2, by simp⟩
  | none =>
    cases hup : up log (actual_size bytes) alignment with
    | none => simp [hf, hup] at hr
    | some x =>
      simp only [hf, hup, Option.some.injEq] at hr
      subst hr
      obtain ⟨ha0, halt, hal⟩ := hs _ _ _ _ hup
      have hnot : x ∉ pool.blocks.map (fun b => b.ptr) := fun hm => hal (hn.2 x hm).2.2
      refine ⟨ha0, halt, ?_, ?_⟩
      · intro hl
        obtain ⟨c, hc, -⟩ := ho _ hl
        obtain ⟨hc1, hc2⟩ := owner_mem _ _ _ hc
        exact hnot (List.mem_map.mpr ⟨c, hc1, hc2⟩)
      · have hnone : find_if (fun info => decide (info.ptr = x)) pool.blocks = none := by
          rw [find_if_none_iff]
          intro b hb
          simp only [decide_eq_false_iff_not]
          intro hbx
          exact hnot (List.mem_map.mpr ⟨b, hb, hbx⟩)
        refine ⟨block_info.mk x (actual_size bytes) alignment true, ?_, rfl⟩
        simp [owner, find_if_append_one, hnone]

theorem poolOK_deallocate (pool : cube_memory_resource) (log : List UpCall)
    (p bytes alignment : Nat) (h : PoolOK pool log) :
    PoolOK (do_deallocate pool log p bytes alignment).1
      (do_deallocate pool log p bytes alignment).2 := by
  unfold do_deallocate
  cases hf : find_if (fun info => decide (info.ptr = p)) pool.blocks with
  | some ib =>
    simp only [PoolOK, set_used_ptrs]
    exact h
  | none =>
    simp only [PoolOK, live_append, live_step]
    refine ⟨h.1, fun x hx => ?_⟩
    obtain ⟨h1, h2, h3⟩ := h.2 x hx
    refine ⟨h1, h2, ?_⟩
    have hne : x ≠ p := by
      rintro rfl
      obtain ⟨b, hb, hbx⟩ := List.mem_map.mp hx
      have := (find_if_none_iff _ _).mp hf b hb
      simp [hbx] at this
    exact (List.mem_erase_of_ne hne).mpr h3

theorem owned_deallocate (pool : cube_memory_resource) (log : List UpCall)
    (p bytes alignment : Nat) (l : List Nat) (ho : Owned pool l) (hp : p ∉ l) :
    Owned (do_deallocate pool log p bytes alignment).1 l := by
  intro a ha
  obtain ⟨b, hb, hu⟩ := ho a ha
  unfold do_deallocate
  cases hf : find_if (fun info => decide (info.ptr = p)) pool.blocks with
  | none => exact ⟨b, hb, hu⟩
  | some ib =>
    obtain ⟨i, c⟩ := ib
    obtain ⟨j, hj1, hj2⟩ := owner_set_used pool i false a b hb
    refine ⟨_, hj2, ?_⟩
    have hji : j ≠ i := by
      rintro rfl
      obtain ⟨h1, h2, -⟩ := find_if_some _ _ _ _ hf
      obtain ⟨h3, h4, -⟩ := find_if_some _ _ _ _ hj1
      rw [h1] at h3
      simp only [Option.some.injEq] at h3
      subst h3
      simp only [decide_eq_true_eq] at h2 h4
      exact hp (by rw [← h2, h4]; exact ha)
    simp [hji, hu]

theorem countP_set_used_false (l : List block_info) (i : Nat) (b : block_info)
    (h : l[i]? = some b) (hu : b.used = true) :
    (set_used l i false).countP (fun info => info.used) + 1
      = l.countP (fun info => info.used) := by
  induction l generalizing i with
  | nil => simp at h
  | cons x rest ih =>
    cases i with
    | zero =>
      simp only [List.getElem?_cons_zero, Option.some.injEq] at h
      subst h
      simp [set_used, List.countP_cons, hu]
    | succ k =>
      have := ih k (by simpa using h)
      simp only [set_used, List.countP_cons]
      omega

theorem countP_set_used_true (l : List block_info) (i : Nat) (b : block_info)
    (h : l[i]? = some b) (hu : b.used = false) :
    (set_used l i true).countP (fun info => info.used)
      = l.countP (fun info => info.used) + 1 := by
  induction l generalizing i with
  | nil => simp at h
  | cons x rest ih =>
    cases i with
    | zero =>
      simp only [List.getElem?_cons_zero, Option.some.injEq] at h
      subst h
      simp [set_used, List.countP_cons, hu]
    | succ k =>
      have := ih k (by simpa using h)
      simp only [set_used, List.countP_cons]
      omega

theorem total_memory_set_used (l : List block_info) (i : Nat) (u : Bool) :
    total_memory ⟨set_used l i u⟩ = total_memory ⟨l⟩ := by
  rw [total_memory_eq, total_memory_eq, set_used_sizes]

theorem deallocate_stats (pool : cube_memory_resource) (log : List UpCall)
    (p bytes alignment : Nat) (b : block_info) (h : owner pool p = some b)
    (hu : b.used = true) :
    allocated_blocks (do_deallocate pool log p bytes alignment).1 + 1 = allocated_blocks pool ∧
    total_blocks (do_deallocate pool log p bytes alignment).1 = total_blocks pool ∧
    total_memory (do_deallocate pool log p bytes alignment).1 = total_memory pool ∧
    (do_deallocate pool log p bytes alignment).2 = log := by
  unfold owner at h
  unfold do_deallocate
  cases hf : find_if (fun info => decide (info.ptr = p)) pool.blocks with
  | none => simp [hf] at h
  | some ib =>
    obtain ⟨i, c⟩ := ib
    simp only [hf, Option.some.injEq] at h
    subst h
    obtain ⟨h1, -, -⟩ := find_if_some _ _ _ _ hf
    exact ⟨countP_set_used_false _ _ _ h1 hu, set_used_length _ _ _,
      total_memory_set_used _ _ _, rfl⟩

theorem allocate_reuse_stats (up : Upstream) (pool : cube_memory_resource)
    (log : List UpCall) (bytes alignment : Nat)
    (h : ∃ b ∈ pool.blocks, b.used = false ∧ bytes ≤ b.size) :
    allocated_blocks (do_allocate up pool log bytes alignment).self = allocated_blocks pool + 1 ∧
    total_blocks (do_allocate up pool log bytes alignment).self = total_blocks pool ∧
    total_memory (do_allocate up pool log bytes alignment).self = total_memory pool ∧
    (do_allocate up pool log bytes alignment).upstream = log ∧
    ∃ b ∈ pool.blocks, (do_allocate up pool log bytes alignment).ret = some b.ptr := by
  obtain ⟨i, b, hf⟩ := find_if_of_mem
    (fun block => !block.used && decide (block.size ≥ bytes)) pool.blocks
    (by obtain ⟨b, hb, h1, h2⟩ := h; exact ⟨b, hb, by simp [h1, h2]⟩)
  obtain ⟨h1, h2, -⟩ := find_if_some _ _ _ _ hf
  simp only [Bool.and_eq_true, Bool.not_eq_true', decide_eq_true_eq] at h2
  unfold do_allocate
  simp only [hf]
  exact ⟨countP_set_used_true _ _ _ h1 h2.1, set_used_length _ _ _,
    total_memory_set_used _ _ _, trivial, b, List.getElem?_mem h1, rfl⟩

/-! ## Chains of nodes -/

theorem isChain_frame {T : Type} (heap heap' : Nat → Option (Node T)) (p : Nat) (l : List Nat)
    (h : IsChain heap p l) (hf : ∀ a ∈ l, heap' a = heap a) : IsChain heap' p l := by
  induction l generalizing p with
  | nil => exact h
  | cons a rest ih =>
    obtain ⟨h1, h2, n, h3, h4⟩ := h
    refine ⟨h1, h2, n, ?_, ih _ h4 (fun x hx => hf x (List.mem_cons_of_mem _ hx))⟩
    rw [hf a (List.mem_cons_self _ _)]
    exact h3

theorem isChain_walk {T : Type} (heap : Nat → Option (Node T)) (p : Nat) (l : List Nat)
    (h : IsChain heap p l) : walk heap l.length p = some l := by
  induction l generalizing p with
  | nil =>
    have : p = 0 := h
    simp [walk, this]
  | cons a rest ih =>
    obtain ⟨h1, h2, n, h3, h4⟩ := h
    subst h1
    simp [walk, h2, h3, ih _ h4]

theorem walk_isChain {T : Type} (heap : Nat → Option (Node T)) (fuel p : Nat) (l : List Nat)
    (h : walk heap fuel p = some l) : IsChain heap p l := by
  induction fuel generalizing p l with
  | zero =>
    by_cases hp : p = 0
    · simp [walk, hp] at h
      subst h
      exact hp
    · simp [walk, hp] at h
  | succ k ih =>
    by_cases hp : p = 0
    · simp [walk, hp] at h
      subst h
      exact hp
    · cases hn : heap p with
      | none => simp [walk, hp, hn] at h
      | some n =>
        cases hw : walk heap k n.next with
        | none => simp [walk, hp, hn, hw] at h
        | some rest =>
          simp [walk, hp, hn, hw] at h
          subst h
          exact ⟨rfl, hp, n, hn, ih _ _ hw⟩

theorem isChain_mem {T : Type} (heap : Nat → Option (Node T)) (p : Nat) (l : List Nat)
    (h : IsChain heap p l) : ∀ a ∈ l, a ≠ 0 ∧ ∃ n, heap a = some n := by
  induction l generalizing p with
  | nil => simp
  | cons a rest ih =>
    obtain ⟨-, h2, n, h3, h4⟩ := h
    intro x hx
    rcases List.mem_cons.mp hx with rfl | hx
    · exact ⟨h2, n, h3⟩
    · exact ih _ h4 x hx

theorem isChain_last {T : Type} (heap : Nat → Option (Node T)) (p : Nat) (l : List Nat)
    (h : IsChain heap p l) (hl : l ≠ []) :
    l.getLastD 0 ∈ l ∧ ∃ n, heap (l.getLastD 0) = some n ∧ n.next = 0 := by
  induction l generalizing p with
  | nil => exact absurd rfl hl
  | cons a rest ih =>
    obtain ⟨-, -, n, h3, h4⟩ := h
    cases rest with
    | nil =>
      have : n.next = 0 := h4
      exact ⟨by simp, n, by simpa using h3, this⟩
    | cons b rest2 =>
      obtain ⟨i1, i2⟩ := ih _ h4 (by simp)
      simp only [List.getLastD_cons] at i1 i2 ⊢
      exact ⟨List.mem_cons_of_mem _ i1, i2⟩

theorem isChain_snoc {T : Type} (heap heap' : Nat → Option (Node T)) (p : Nat) (l : List Nat)
    (a : Nat) (v : T) (tail : Node T)
    (h : IsChain heap p l) (hnd : l.Nodup) (hl : l ≠ []) (ha : a ∉ l) (ha0 : a ≠ 0)
    (ht : heap (l.getLastD 0) = some tail)
    (h1 : heap' a = some ⟨v, 0⟩)
    (h2 : heap' (l.getLastD 0) = some { tail with next := a })
    (h3 : ∀ x, x ≠ a → x ≠ l.getLastD 0 → heap' x = heap x) :
    IsChain heap' p (l ++ [a]) := by
  induction l generalizing p with
  | nil => exact absurd rfl hl
  | cons x rest ih =>
    obtain ⟨c1, c2, n, c3, c4⟩ := h
    cases rest with
    | nil =>
      have hn0 : n.next = 0 := c4
      simp only [List.getLastD_cons, List.getLastD_nil] at ht h2
      rw [c3] at ht
      simp only [Option.some.injEq] at ht
      subst ht
      refine ⟨c1, c2, { n with next := a }, h2, ?_⟩
      exact ⟨rfl, ha0, ⟨v, 0⟩, h1, rfl⟩
    | cons y rest2 =>
      simp only [List.getLastD_cons] at ht h2 h3
      have hx_ne_a : x ≠ a := fun e => ha (by simp [e])
      have hlast_mem : rest2.getLastD y ∈ y :: rest2 := by
        have := (isChain_last heap n.next (y :: rest2) c4 (by simp)).1
        simpa only [List.getLastD_cons] using this
      have hx_ne_last : x ≠ rest2.getLastD y := by
        intro e
        have := (List.nodup_cons.mp hnd).1
        exact this (e ▸ hlast_mem)
      refine ⟨c1, c2, n, ?_, ?_⟩
      · rw [h3 x hx_ne_a hx_ne_last]
        exact c3
      · exact ih n.next c4 (List.nodup_cons.mp hnd).2 (by simp)
          (fun hm => ha (List.mem_cons_of_mem _ hm))
          (by simpa only [List.getLastD_cons] using ht)
          (by simpa only [List.getLastD_cons] using h2)
          (by simpa only [List.getLastD_cons] using h3)

/-! ## Element sequences -/

theorem read_all_congr {T : Type} (heap heap' : Nat → Option (Node T)) (l : List Nat)
    (h : ∀ a ∈ l, (heap' a).map Node.data = (heap a).map Node.data) :
    read_all heap' l = read_all heap l := by
  induction l with
  | nil => rfl
  | cons a rest ih =>
    have ha := h a (List.mem_cons_self _ _)
    have ir := ih (fun x hx => h x (List.mem_cons_of_mem _ hx))
    simp only [read_all, ir]
    cases h1 : heap a <;> cases h2 : heap' a <;> simp [h1, h2] at ha ⊢
    cases read_all heap rest <;> simp [ha]

theorem read_all_cons {T : Type} (heap : Nat → Option (Node T)) (a : Nat) (rest : List Nat)
    (xs : List T) (h : read_all heap (a :: rest) = some xs) :
    ∃ n ys, heap a = some n ∧ xs = n.data :: ys ∧ read_all heap rest = some ys := by
  simp only [read_all] at h
  cases h1 : heap a with
  | none => simp [h1] at h
  | some n =>
    cases h2 : read_all heap rest with
    | none => simp [h1, h2] at h
    | some ys =>
      simp [h1, h2] at h
      exact ⟨n, ys, rfl, h.symm, rfl⟩

theorem read_all_snoc {T : Type} (heap : Nat → Option (Node T)) (l : List Nat) (a : Nat)
    (xs : List T) (n : Node T) (h : read_all heap l = some xs) (ha : heap a = some n) :
    read_all heap (l ++ [a]) = some (xs ++ [n.data]) := by
  induction l generalizing xs with
  | nil =>
    simp only [read_all, Option.some.injEq] at h
    subst h
    simp [read_all, ha]
  | cons x rest ih =>
    obtain ⟨m, ys, h1, h2, h3⟩ := read_all_cons heap x rest xs h
    subst h2
    simp [read_all, h1, ih ys h3]

theorem isChain_read_all {T : Type} (heap : Nat → Option (Node T)) (p : Nat) (l : List Nat)
    (h : IsChain heap p l) : ∃ xs, read_all heap l = some xs ∧ xs.length = l.length := by
  induction l generalizing p with
  | nil => exact ⟨[], rfl, rfl⟩
  | cons a rest ih =>
    obtain ⟨-, -, n, h3, h4⟩ := h
    obtain ⟨ys, hy, hlen⟩ := ih _ h4
    exact ⟨n.data :: ys, by simp [read_all, h3, hy], by simp [hlen]⟩

theorem read_all_getLast {T : Type} (heap : Nat → Option (Node T)) (l : List Nat)
    (xs : List T) (h : read_all heap l = some xs) (hl : l ≠ []) :
    ∃ n, heap (l.getLastD 0) = some n ∧ xs.getLast? = some n.data := by
  induction l generalizing xs with
  | nil => exact absurd rfl hl
  | cons a rest ih =>
    obtain ⟨m, ys, h1, h2, h3⟩ := read_all_cons heap a rest xs h
    subst h2
    cases rest with
    | nil =>
      simp only [read_all, Option.some.injEq] at h3
      subst h3
      exact ⟨m, by simpa using h1, by simp⟩
    | cons b rest2 =>
      obtain ⟨n, hn1, hn2⟩ := ih ys h3 (by simp)
      refine ⟨n, by simpa only [List.getLastD_cons] using hn1, ?_⟩
      obtain ⟨m2, zs, -, hz, -⟩ := read_all_cons heap b rest2 ys h3
      subst hz
      simpa [List.getLast?_cons_cons] using hn2

/-! ## The size of a chain -/

theorem length_lt_of_nodup (l : List Nat) (N : Nat) (hnd : l.Nodup)
    (hb : ∀ x ∈ l, x ≠ 0 ∧ x < N) : l.length + 1 ≤ N ∨ l = [] := by
  by_cases hl : l = []
  · exact Or.inr hl
  · left
    have hsub : l.toFinset ⊆ Finset.Ico 1 N := by
      intro x hx
      have := hb x (List.mem_toFinset.mp hx)
      simp only [Finset.mem_Ico]
      omega
    have hcard := Finset.card_le_card hsub
    rw [List.toFinset_card_of_nodup hnd, Nat.card_Ico] at hcard
    have hpos : 0 < l.length := List.length_pos.mpr hl
    omega

/-! ## The queue invariant -/

theorem inv_bounds {T : Type} (q : pmr_queue) (w : World T) (l : List Nat) (h : Inv q w l) :
    ∀ a ∈ l, a ≠ 0 ∧ a < 2 ^ 64 := by
  intro a ha
  obtain ⟨-, -, -, -, hp, ho, -⟩ := h
  obtain ⟨b, hb, -⟩ := ho a ha
  obtain ⟨h1, h2⟩ := owner_mem _ _ _ hb
  have := hp.2 a (List.mem_map.mpr ⟨b, h1, h2⟩)
  exact ⟨this.1, this.2.1⟩

theorem size_add_one (n : Nat) (h : n + 1 < 2 ^ 64) : size_add n 1 = n + 1 := by
  unfold size_add SIZE_RANGE
  exact Nat.mod_eq_of_lt h

theorem size_sub_one (n : Nat) (h : n + 1 < 2 ^ 64) : size_sub (n + 1) 1 = n := by
  unfold size_sub SIZE_RANGE
  norm_num at h ⊢
  omega

theorem size_sub_one_lt (n : Nat) (h : n ≠ 0) : size_sub n 1 < n := by
  unfold size_sub SIZE_RANGE
  norm_num
  omega

theorem inv_tail_zero {T : Type} (q : pmr_queue) (w : World T) (l : List Nat) (h : Inv q w l) :
    q.m_tail = 0 ↔ l = [] := by
  obtain ⟨hc, -, -, ht, -, -⟩ := h
  constructor
  · intro h0
    by_contra hl
    have hm := (isChain_last _ _ _ hc hl).1
    have := (isChain_mem _ _ _ hc _ hm).1
    exact this (ht ▸ h0)
  · rintro rfl
    simpa using ht

theorem push_inv {T : Type} (E : Env T) (hs : E.upstream_allocate.Sound) (q : pmr_queue)
    (w : World T) (l : List Nat) (v : T) (h : Inv q w l) :
    (∃ e w', push E q w v = Outcome.throws e (q, w') ∧ w'.heap = w.heap ∧ Inv q w' l ∧
      (E.construct_throws v = false → e = Exception.upstream_failure)) ∨
    (∃ a q' w', push E q w v = Outcome.ok () (q', w') ∧ q'.m_allocator = q.m_allocator ∧
      E.construct_throws v = false ∧ Inv q' w' (l ++ [a]) ∧
      ∀ xs, read_all w.heap l = some xs → read_all w'.heap (l ++ [a]) = some (xs ++ [v])) := by
  have h' := h
  obtain ⟨hc, hnd, hsz, ht, hp, ho, hr⟩ := h
  have hP := poolOK_allocate E.upstream_allocate hs (w.pools q.m_allocator) w.upstream
    E.sizeof_Node E.alignof_Node hp
  have hO := owned_allocate E.upstream_allocate (w.pools q.m_allocator) w.upstream
    E.sizeof_Node E.alignof_Node l ho
  have hF := allocate_fresh E.upstream_allocate hs
      (w.pools q.m_allocator) w.upstream E.sizeof_Node E.alignof_Node l hp ho
  unfold push
  simp only [resource_allocate, resource_deallocate, hr, if_false]
  generalize do_allocate E.upstream_allocate (w.pools q.m_allocator) w.upstream
      E.sizeof_Node E.alignof_Node = A at hP hO hF ⊢
  cases hret : A.ret with
  | none =>
    left
    exact ⟨_, _, rfl, rfl,
      ⟨hc, hnd, hsz, ht, by simpa [World.set_pool] using hP,
        by simpa [World.set_pool] using hO, hr⟩, fun _ => rfl⟩
  | some a =>
    obtain ⟨ha0, halt, hal, b, hb, hbu⟩ := hF a hret
    by_cases hct : E.construct_throws v = true
    · left
      simp only [ha0, hct, if_true, if_false]
      refine ⟨_, _, rfl, rfl, ?_, fun hf => absurd hf (by simp)⟩
      refine ⟨hc, hnd, hsz, ht, ?_, ?_, hr⟩
      · simpa [World.set_pool] using poolOK_deallocate _ _ a E.sizeof_Node E.alignof_Node hP
      · simpa [World.set_pool] using
          owned_deallocate _ A.upstream a E.sizeof_Node E.alignof_Node l hO hal
    · right
      have hct' : E.construct_throws v = false := by simpa using hct
      have hnd' : (l ++ [a]).Nodup := by
        rw [List.nodup_append]
        refine ⟨hnd, by simp, ?_⟩
        intro x hx hx'
        simp only [List.mem_singleton] at hx'
        exact hal (hx' ▸ hx)
      have hO' : Owned A.self (l ++ [a]) := by
        intro x hx
        rcases List.mem_append.mp hx with hx | hx
        · exact hO x hx
        · simp only [List.mem_singleton] at hx
          subst hx
          exact ⟨b, hb, hbu⟩
      have hbnd : ∀ x ∈ l ++ [a], x ≠ 0 ∧ x < 2 ^ 64 := by
        intro x hx
        rcases List.mem_append.mp hx with hx | hx
        · exact inv_bounds q w l h' x hx
        · simp only [List.mem_singleton] at hx
          subst hx
          exact ⟨ha0, halt⟩
      have hlen : l.length + 1 < 2 ^ 64 := by
        rcases length_lt_of_nodup (l ++ [a]) (2 ^ 64) hnd' hbnd with h1 | h1
        · simp only [List.length_append, List.length_singleton] at h1
          omega
        · simp at h1
      by_cases htail : q.m_tail = 0
      · have hl : l = [] := (inv_tail_zero q w l h').mp htail
        subst hl
        have hhead : q.m_head = 0 := hc
        simp only [ha0, hct', htail, if_false, ne_eq, not_true_eq_false, Bool.false_eq_true]
        refine ⟨a, _, _, rfl, rfl, trivial, ?_, ?_⟩
        · refine ⟨?_, hnd', ?_, by simp, by simpa [World.set_pool, World.store] using hP,
            by simpa [World.set_pool, World.store] using hO', hr⟩
          · exact ⟨rfl, ha0, ⟨v, 0⟩, by simp [World.set_pool, World.store], rfl⟩
          · simp only [List.nil_append, List.length_singleton]
            rw [hsz]
            exact size_add_one 0 (by norm_num)
        · intro xs hxs
          simp only [read_all, Option.some.injEq] at hxs
          subst hxs
          simp [read_all, World.set_pool, World.store]
      · have hl : l ≠ [] := fun e => htail ((inv_tail_zero q w l h').mpr e)
        obtain ⟨hmem, t, hth, -⟩ := isChain_last _ _ _ hc hl
        rw [← ht] at hmem hth
        have hta : q.m_tail ≠ a := fun e => hal (e ▸ hmem)
        have hw2 : ((w.set_pool q.m_allocator A.self A.upstream).store a
            (some ⟨v, 0⟩)).heap q.m_tail = some t := by
          simp [World.set_pool, World.store, hta, hth]
        simp only [ha0, hct', htail, if_false, ne_eq, not_false_eq_true, if_true, hw2,
          Bool.false_eq_true]
        refine ⟨a, _, _, rfl, rfl, trivial, ?_, ?_⟩
        · refine ⟨?_, hnd', ?_, by simp, by simpa [World.set_pool, World.store] using hP,
            by simpa [World.set_pool, World.store] using hO', hr⟩
          · apply isChain_snoc w.heap _ q.m_head l a v t hc hnd hl hal ha0 (ht ▸ hth)
            · simp [World.set_pool, World.store, Ne.symm hta]
            · rw [← ht]
              simp [World.set_pool, World.store]
            · intro x hxa hxt
              rw [← ht] at hxt
              simp [World.set_pool, World.store, hxa, hxt]
          · simp only [List.length_append, List.length_singleton]
            rw [hsz]
            exact size_add_one _ hlen
        · intro xs hxs
          refine read_all_snoc _ l a xs ⟨v, 0⟩ ?_ ?_
          · rw [← hxs]
            apply read_all_congr
            intro x hx
            have hxa : x ≠ a := fun e => hal (e ▸ hx)
            by_cases hxt : x = q.m_tail
            · subst hxt
              simp [World.set_pool, World.store, hth]
            · simp [World.set_pool, World.store, hxa, hxt]
          · simp [World.set_pool, World.store, Ne.symm hta]

theorem inv_length {T : Type} (q : pmr_queue) (w : World T) (l : List Nat) (h : Inv q w l) :
    l.length < 2 ^ 64 := by
  rcases length_lt_of_nodup l (2 ^ 64) h.2.1 (inv_bounds q w l h) with h1 | h1
  · omega
  · subst h1
    norm_num

theorem pop_inv {T : Type} (E : Env T) (q : pmr_queue) (w : World T) (a : Nat)
    (rest : List Nat) (h : Inv q w (a :: rest)) :
    ∃ n q' w', w.heap a = some n ∧ q.m_head = a ∧ pop E q w = Outcome.ok () (q', w') ∧
      q'.m_allocator = q.m_allocator ∧ Inv q' w' rest ∧
      (∀ x, x ≠ a → w'.heap x = w.heap x) ∧
      allocated_blocks (w'.pools q.m_allocator) + 1
        = allocated_blocks (w.pools q.m_allocator) ∧
      total_blocks (w'.pools q.m_allocator) = total_blocks (w.pools q.m_allocator) := by
  have hlen := inv_length q w _ h
  obtain ⟨hc, hnd, hsz, ht, hp, ho, hr⟩ := h
  obtain ⟨hh, ha0, n, hn, hc'⟩ := hc
  have hne : q.empty = false := by simp [pmr_queue.empty, hsz]
  have hn' : w.heap q.m_head = some n := hh ▸ hn
  have hanr : a ∉ rest := (List.nodup_cons.mp hnd).1
  obtain ⟨b, hb, hbu⟩ := ho a (List.mem_cons_self _ _)
  have hst := deallocate_stats (w.pools q.m_allocator) w.upstream a E.sizeof_Node
    E.alignof_Node b hb hbu
  unfold pop
  simp only [hne, Bool.false_eq_true, if_false, hn', resource_deallocate, hr]
  refine ⟨n, _, _, hn, hh, rfl, rfl, ?_, ?_, ?_, ?_⟩
  · refine ⟨?_, (List.nodup_cons.mp hnd).2, ?_, ?_, ?_, ?_, hr⟩
    · apply isChain_frame w.heap _ _ _ hc'
      intro x hx
      have : x ≠ q.m_head := fun e => hanr (hh ▸ e ▸ hx)
      simp [World.set_pool, World.store, this]
    · simp only [hsz, List.length_cons]
      simp only [List.length_cons] at hlen
      exact size_sub_one _ hlen
    · cases rest with
      | nil =>
        have : n.next = 0 := hc'
        simp [this]
      | cons y rest2 =>
        have : n.next ≠ 0 := hc'.1 ▸ hc'.2.1
        simp only [this, if_false, ht, List.getLastD_cons]
    · have := poolOK_deallocate _ _ a E.sizeof_Node E.alignof_Node hp
      simpa [World.set_pool, World.store, hh] using this
    · have := owned_deallocate _ w.upstream a E.sizeof_Node E.alignof_Node rest
        (fun x hx => ho x (List.mem_cons_of_mem _ hx)) hanr
      simpa [World.set_pool, World.store, hh] using this
  · intro x hx
    simp [World.set_pool, World.store, hh, hx]
  · simpa [World.set_pool, World.store, hh] using hst.1
  · simpa [World.set_pool, World.store, hh] using hst.2.1

theorem front_inv {T : Type} (q : pmr_queue) (w : World T) (a : Nat) (rest : List Nat)
    (x : T) (xs : List T) (h : Inv q w (a :: rest))
    (hx : read_all w.heap (a :: rest) = some (x :: xs)) :
    front q w = Outcome.ok x (q, w) := by
  obtain ⟨hc, -, hsz, -, -, -⟩ := h
  obtain ⟨hh, -, n, hn, -⟩ := hc
  obtain ⟨m, ys, h1, h2, -⟩ := read_all_cons _ _ _ _ hx
  rw [hn] at h1
  simp only [Option.some.injEq] at h1
  subst h1
  simp only [List.cons.injEq] at h2
  have hne : q.empty = false := by simp [pmr_queue.empty, hsz]
  simp [front, hne, hh, hn, h2.1]

theorem inv_nil_queue {T : Type} (q : pmr_queue) (w : World T) (h : Inv q w []) :
    q = pmr_queue.new q.m_allocator := by
  obtain ⟨hc, -, hsz, ht, -, -⟩ := h
  have hh : q.m_head = 0 := hc
  cases q
  simp_all [pmr_queue.new]

theorem inv_new {T : Type} (mr : Nat) (w : World T) (hr : mr ≠ DEFAULT_RESOURCE)
    (hp : PoolOK (w.pools mr) w.upstream) : Inv (pmr_queue.new mr) w [] :=
  ⟨rfl, List.nodup_nil, rfl, rfl, hp, fun _ ha => absurd ha (List.not_mem_nil _), hr⟩

theorem clear_loop_inv {T : Type} (E : Env T) (fuel : Nat) (q : pmr_queue) (w : World T)
    (l : List Nat) (h : Inv q w l) (hf : l.length ≤ fuel) :
    ∃ q' w', clear_loop E fuel q w = Outcome.ok () (q', w') ∧
      q'.m_allocator = q.m_allocator ∧ Inv q' w' [] ∧
      allocated_blocks (w'.pools q.m_allocator) + l.length
        = allocated_blocks (w.pools q.m_allocator) ∧
      total_blocks (w'.pools q.m_allocator) = total_blocks (w.pools q.m_allocator) := by
  induction fuel generalizing q w l with
  | zero =>
    have hl : l = [] := List.length_eq_zero.mp (Nat.le_zero.mp hf)
    subst hl
    have he : q.empty = true := by simp [pmr_queue.empty, h.2.2.1]
    exact ⟨q, w, by simp [clear_loop, he], rfl, h, rfl, rfl⟩
  | succ k ih =>
    cases l with
    | nil =>
      have he : q.empty = true := by simp [pmr_queue.empty, h.2.2.1]
      exact ⟨q, w, by simp [clear_loop, he], rfl, h, rfl, rfl⟩
    | cons a rest =>
      have he : q.empty = false := by simp [pmr_queue.empty, h.2.2.1]
      obtain ⟨n, q1, w1, -, -, hpop, hal, hinv, -, hab, htb⟩ := pop_inv E q w a rest h
      obtain ⟨q2, w2, hcl, hal2, hinv2, hab2, htb2⟩ := ih q1 w1 rest hinv
        (by simpa using hf)
      refine ⟨q2, w2, by simp [clear_loop, he, hpop, hcl], hal2.trans hal, hinv2, ?_, ?_⟩
      · rw [hal] at hab2
        simp only [List.length_cons]
        omega
      · rw [hal] at htb2
        exact htb2.trans htb

theorem clear_inv {T : Type} (E : Env T) (q : pmr_queue) (w : World T)
    (l : List Nat) (h : Inv q w l) :
    ∃ q' w', clear E q w = Outcome.ok () (q', w') ∧
      q'.m_allocator = q.m_allocator ∧ Inv q' w' [] ∧
      allocated_blocks (w'.pools q.m_allocator) + l.length
        = allocated_blocks (w.pools q.m_allocator) ∧
      total_blocks (w'.pools q.m_allocator) = total_blocks (w.pools q.m_allocator) :=
  clear_loop_inv E q.m_size q w l h (le_of_eq h.2.2.1.symm)

theorem clear_loop_fuel {T : Type} (E : Env T) (n : Nat) (q : pmr_queue) (w : World T)
    (fuel : Nat) (hq : q.m_size ≤ n) (hn : n ≤ fuel) :
    clear_loop E fuel q w = clear_loop E n q w := by
  induction n generalizing q w fuel with
  | zero =>
    have he : q.empty = true := by simp [pmr_queue.empty, Nat.le_zero.mp hq]
    cases fuel <;> simp [clear_loop, he]
  | succ k ih =>
    cases fuel with
    | zero => omega
    | succ f =>
      by_cases he : q.empty = true
      · simp [clear_loop, he]
      · have he' : q.m_size ≠ 0 := by simpa [pmr_queue.empty] using he
        simp only [clear_loop, he, if_false]
        cases hp : pop E q w with
        | ok u s =>
          simp only
          apply ih
          · have hs : s.1.m_size = size_sub q.m_size 1 := by
              have he2 : q.empty = false := by simpa using he
              unfold pop at hp
              cases hh : w.heap q.m_head with
              | none => simp [hh, he2] at hp
              | some old =>
                simp only [hh, he2, Bool.false_eq_true, if_false, Outcome.ok.injEq] at hp
                rw [← hp.2]
            have := size_sub_one_lt q.m_size he'
            omega
          · omega
        | throws e s => rfl
        | undefined => rfl

theorem clear_fuel {T : Type} (E : Env T) (q : pmr_queue) (w : World T) (k : Nat) :
    clear_loop E (q.m_size + k) q w = clear E q w :=
  clear_loop_fuel E q.m_size q w (q.m_size + k) (le_refl _) (Nat.le_add_right _ _)

theorem drain_inv {T : Type} (E : Env T) (q : pmr_queue) (w : World T) (l : List Nat)
    (xs : List T) (h : Inv q w l) (hx : read_all w.heap l = some xs) :
    ∃ w', drain E l.length q w = Outcome.ok xs (pmr_queue.new q.m_allocator, w') ∧
      Inv (pmr_queue.new q.m_allocator) w' [] := by
  induction l generalizing q w xs with
  | nil =>
    simp only [read_all, Option.some.injEq] at hx
    subst hx
    have := inv_nil_queue q w h
    refine ⟨w, ?_, this ▸ h⟩
    simp only [List.length_nil, drain]
    rw [← this]
  | cons a rest ih =>
    obtain ⟨m, ys, h1, h2, h3⟩ := read_all_cons _ _ _ _ hx
    subst h2
    have hfront := front_inv q w a rest m.data ys h hx
    obtain ⟨n, q1, w1, -, -, hpop, hal, hinv, hframe, -, -⟩ := pop_inv E q w a rest h
    have hrest : read_all w1.heap rest = some ys := by
      rw [← h3]
      apply read_all_congr
      intro x hx'
      have : x ≠ a := fun e => (List.nodup_cons.mp h.2.1).1 (e ▸ hx')
      rw [hframe x this]
    obtain ⟨w2, hd, hinv2⟩ := ih q1 w1 ys hinv hrest
    rw [hal] at hd hinv2
    exact ⟨w2, by simp [drain, hfront, hpop, hd], hinv2⟩

theorem push_all_inv {T : Type} (E : Env T) (hs : E.upstream_allocate.Sound) (q : pmr_queue)
    (w : World T) (l : List Nat) (vs xs : List T) (h : Inv q w l)
    (hx : read_all w.heap l = some xs) (q' : pmr_queue) (w' : World T)
    (hp : push_all E q w vs = Outcome.ok () (q', w')) :
    ∃ l', Inv q' w' l' ∧ l'.length = l.length + vs.length ∧
      read_all w'.heap l' = some (xs ++ vs) ∧ q'.m_allocator = q.m_allocator := by
  induction vs generalizing q w l xs with
  | nil =>
    simp only [push_all, Outcome.ok.injEq, Prod.mk.injEq, true_and] at hp
    obtain ⟨rfl, rfl⟩ := hp
    exact ⟨l, h, by simp, by simpa using hx, rfl⟩
  | cons v rest ih =>
    rcases push_inv E hs q w l v h with ⟨e, w1, hpush, -, -, -⟩ | ⟨a, q1, w1, hpush, hal, -, hinv, hread⟩
    · simp [push_all, hpush] at hp
    · simp only [push_all, hpush] at hp
      obtain ⟨l', h1, h2, h3, h4⟩ := ih q1 w1 (l ++ [a]) (xs ++ [v]) hinv (hread xs hx) hp
      refine ⟨l', h1, ?_, by simpa using h3, h4.trans hal⟩
      simp only [List.length_append, List.length_singleton, List.length_cons,
        List.length_nil] at h2 ⊢
      omega

theorem apply_inv {T : Type} (E : Env T) (hs : E.upstream_allocate.Sound) (q : pmr_queue)
    (w : World T) (l : List Nat) (op : QueueOp T) (h : Inv q w l) :
    ∃ q' w' l', (op.apply E q w).state? = some (q', w') ∧ Inv q' w' l' ∧
      q'.m_allocator = q.m_allocator := by
  cases op with
  | push v =>
    rcases push_inv E hs q w l v h with ⟨e, w1, hpush, -, hinv, -⟩ | ⟨a, q1, w1, hpush, hal, -, hinv, -⟩
    · exact ⟨q, w1, l, by simp [QueueOp.apply, hpush, Outcome.state?], hinv, rfl⟩
    · exact ⟨q1, w1, l ++ [a], by simp [QueueOp.apply, hpush, Outcome.state?], hinv, hal⟩
  | pop =>
    cases l with
    | nil =>
      have he : q.empty = true := by simp [pmr_queue.empty, h.2.2.1]
      exact ⟨q, w, [], by simp [QueueOp.apply, pop, he, Outcome.state?], h, rfl⟩
    | cons a rest =>
      obtain ⟨n, q1, w1, -, -, hpop, hal, hinv, -, -, -⟩ := pop_inv E q w a rest h
      exact ⟨q1, w1, rest, by simp [QueueOp.apply, hpop, Outcome.state?], hinv, hal⟩
  | clear =>
    obtain ⟨q1, w1, hcl, hal, hinv, -, -⟩ := clear_inv E q w l h
    exact ⟨q1, w1, [], by simp [QueueOp.apply, hcl, Outcome.state?], hinv, hal⟩

theorem run_ops_inv {T : Type} (E : Env T) (hs : E.upstream_allocate.Sound) (q : pmr_queue)
    (w : World T) (l : List Nat) (ops : List (QueueOp T)) (h : Inv q w l) :
    ∃ q' w' l', run_ops E q w ops = some (q', w') ∧ Inv q' w' l' ∧
      q'.m_allocator = q.m_allocator := by
  induction ops generalizing q w l with
  | nil => exact ⟨q, w, l, rfl, h, rfl⟩
  | cons op rest ih =>
    obtain ⟨q1, w1, l1, h1, hinv, hal⟩ := apply_inv E hs q w l op h
    obtain ⟨q2, w2, l2, h2, hinv2, hal2⟩ := ih q1 w1 l1 hinv
    exact ⟨q2, w2, l2, by simp [run_ops, h1, h2], hinv2, hal2.trans hal⟩

theorem inv_structural {T : Type} (q : pmr_queue) (w : World T) (l : List Nat)
    (h : Inv q w l) : q.structural w := by
  have htz := inv_tail_zero q w l h
  obtain ⟨hc, hnd, hsz, ht, -, -, -⟩ := h
  cases l with
  | nil =>
    have hh : q.m_head = 0 := hc
    have ht0 : q.m_tail = 0 := htz.mpr rfl
    refine ⟨by simp [hh, hsz], fun _ => ht0, fun hne => absurd ht0 hne, [], ?_, by simp [pmr_queue.size, hsz], by simp [ht0]⟩
    simp [pmr_queue.nodes, hsz, hh, walk]
  | cons a rest =>
    have hh : q.m_head = a := hc.1
    have ha0 : a ≠ 0 := hc.2.1
    have ht0 : q.m_tail ≠ 0 := fun e => by simpa using htz.mp e
    obtain ⟨hmem, n, hn, hn0⟩ := isChain_last _ _ _ hc (by simp)
    refine ⟨by simp [hh, ha0, hsz], fun e => by simp [hsz] at e, fun _ => ⟨n, ht ▸ hn, hn0⟩,
      a :: rest, ?_, by simp [pmr_queue.size, hsz], ?_⟩
    · have := isChain_walk _ _ _ hc
      simpa [pmr_queue.nodes, hsz] using this
    · have key : (a :: rest).getLast? = some q.m_tail := by
        rw [ht, List.getLastD_eq_getLast?]
        cases hg : (a :: rest).getLast? with
        | none => simp at hg
        | some y => simp
      simp only [ht0, if_false, key]

/-! ## The queue: errors on the empty queue -/

theorem poolOK_new (log : List UpCall) : PoolOK cube_memory_resource.new log :=
  ⟨List.nodup_nil, fun _ hp => absurd hp (List.not_mem_nil _)⟩

theorem inv_elements {T : Type} (q : pmr_queue) (w : World T) (l : List Nat) (xs : List T)
    (h : Inv q w l) (hx : read_all w.heap l = some xs) : q.elements w = some xs := by
  have := isChain_walk _ _ _ h.1
  simp [pmr_queue.elements, pmr_queue.nodes, h.2.2.1, this, hx]

/-- C2 (errors on the empty queue). With `size() == 0`, each of `pop()`, `front()`
and `back()` throws `std::out_of_range` and leaves the queue and everything around
it (the nodes, the pools, the upstream log) as they were. With `size() > 0`, in a
queue that satisfies the structural invariant, none of the three throws or
misbehaves: `front()` returns the first element of the sequence and `back()` the
last one, leaving everything unchanged, and `pop()` returns. -/
theorem empty_queue_errors {T : Type} (E : Env T) (q : pmr_queue) (w : World T) :
    (q.size = 0 →
      pop E q w = Outcome.throws Exception.out_of_range (q, w) ∧
      front q w = Outcome.throws Exception.out_of_range (q, w) ∧
      back q w = Outcome.throws Exception.out_of_range (q, w)) ∧
    (0 < q.size → q.structural w →
      ∃ xs x y s, q.elements w = some xs ∧ xs.head? = some x ∧ xs.getLast? = some y ∧
        front q w = Outcome.ok x (q, w) ∧ back q w = Outcome.ok y (q, w) ∧
        pop E q w = Outcome.ok () s) := by
  constructor
  · intro h0
    have he : q.empty = true := by simpa [pmr_queue.empty, pmr_queue.size] using h0
    simp [pop, front, back, he]
  · rintro hpos ⟨-, -, -, l, hnodes, hlen, hlast⟩
    have hne : q.empty = false := by
      simp only [pmr_queue.size] at hpos
      simp only [pmr_queue.empty, decide_eq_false_iff_not]
      omega
    have hc := walk_isChain _ _ _ _ hnodes
    cases l with
    | nil =>
      simp only [pmr_queue.size, List.length_nil] at hlen hpos
      omega
    | cons a rest =>
      obtain ⟨hh, -, n, hn, -⟩ := id hc
      obtain ⟨xs, hxs, -⟩ := isChain_read_all _ _ _ hc
      obtain ⟨m, ys, h1, h2, -⟩ := read_all_cons _ _ _ _ hxs
      obtain ⟨t, ht1, ht2⟩ := read_all_getLast _ _ _ hxs (by simp)
      have htail : q.m_tail = (a :: rest).getLastD 0 := by
        by_cases h0 : q.m_tail = 0
        · simp [h0] at hlast
        · simp only [h0, if_false] at hlast
          rw [List.getLastD_eq_getLast?, hlast]
          rfl
      rw [← htail] at ht1
      rw [← hh] at hn h1
      have hpop : ∃ s, pop E q w = Outcome.ok () s := by
        simp only [pop, hne, hn, Bool.false_eq_true, if_false]
        exact ⟨_, rfl⟩
      obtain ⟨s, hs⟩ := hpop
      refine ⟨xs, m.data, t.data, s, ?_, by simp [h2], ht2, ?_, ?_, hs⟩
      · simp [pmr_queue.elements, hnodes, hxs]
      · simp [front, hne, h1]
      · simp [back, hne, ht1]

/-- A queue holding 1, 2, 3 on a new pool. -/
theorem demo_three_inv :
    ∃ q w, push_all demo_env (pmr_queue.new 1) demo_world [1, 2, 3] = Outcome.ok () (q, w) ∧
      q.size = 3 ∧ ∃ l, Inv q w l := by
  cases hpa : push_all demo_env (pmr_queue.new 1) demo_world [1, 2, 3] with
  | throws e s =>
    have : (push_all demo_env (pmr_queue.new 1) demo_world [1, 2, 3]).returns = true := by
      decide
    simp [hpa, Outcome.returns] at this
  | undefined =>
    have : (push_all demo_env (pmr_queue.new 1) demo_world [1, 2, 3]).returns = true := by
      decide
    simp [hpa, Outcome.returns] at this
  | ok u s =>
    obtain ⟨q1, w1⟩ := s
    obtain ⟨l, hinv, hlen, -⟩ := push_all_inv demo_env bump_upstream_sound (pmr_queue.new 1)
      demo_world [] [1, 2, 3] [] (inv_new 1 demo_world (by decide) (poolOK_new [])) rfl q1 w1 hpa
    exact ⟨q1, w1, rfl, by rw [pmr_queue.size, hinv.2.2.1, hlen]; rfl, l, hinv⟩

/-- C2 on a new queue, and on the queue that holds 1, 2, 3. -/
theorem empty_queue_errors_witness :
    (pop demo_env (pmr_queue.new 1) demo_world
        = Outcome.throws Exception.out_of_range (pmr_queue.new 1, demo_world) ∧
      front (pmr_queue.new 1) demo_world
        = Outcome.throws Exception.out_of_range (pmr_queue.new 1, demo_world) ∧
      back (pmr_queue.new 1) demo_world
        = Outcome.throws Exception.out_of_range (pmr_queue.new 1, demo_world)) ∧
    ∃ q w, push_all demo_env (pmr_queue.new 1) demo_world [1, 2, 3] = Outcome.ok () (q, w) ∧
      0 < q.size ∧ q.structural w ∧
      ∃ xs x y s, q.elements w = some xs ∧ xs.head? = some x ∧ xs.getLast? = some y ∧
        front q w = Outcome.ok x (q, w) ∧ back q w = Outcome.ok y (q, w) ∧
        pop demo_env q w = Outcome.ok () s := by
  obtain ⟨q, w, h1, h2, l, hinv⟩ := demo_three_inv
  have hs := inv_structural q w l hinv
  exact ⟨(empty_queue_errors demo_env (pmr_queue.new 1) demo_world).1 rfl,
    q, w, h1, by omega, hs, (empty_queue_errors demo_env q w).2 (by omega) hs⟩

/-! ## The queue and its pool -/

theorem pop_ok_pool {T : Type} (E : Env T) (q q' : pmr_queue) (w w' : World T)
    (hr : q.m_allocator ≠ DEFAULT_RESOURCE) (h : pop E q w = Outcome.ok () (q', w')) :
    q'.m_allocator = q.m_allocator ∧
    w'.pools q.m_allocator
      = (do_deallocate (w.pools q.m_allocator) w.upstream q.m_head
          E.sizeof_Node E.alignof_Node).1 ∧
    w'.upstream
      = (do_deallocate (w.pools q.m_allocator) w.upstream q.m_head
          E.sizeof_Node E.alignof_Node).2 := by
  unfold pop at h
  simp only [resource_deallocate, hr, if_false] at h
  split at h
  · simp at h
  · split at h
    · simp at h
    · simp only [Outcome.ok.injEq, Prod.mk.injEq, true_and] at h
      obtain ⟨rfl, rfl⟩ := h
      simp [World.set_pool, World.store]

theorem push_ok_pool {T : Type} (E : Env T) (q q' : pmr_queue) (w w' : World T) (v : T)
    (hr : q.m_allocator ≠ DEFAULT_RESOURCE) (h : push E q w v = Outcome.ok () (q', w')) :
    q'.m_allocator = q.m_allocator ∧
    w'.pools q.m_allocator
      = (do_allocate E.upstream_allocate (w.pools q.m_allocator) w.upstream
          E.sizeof_Node E.alignof_Node).self ∧
    w'.upstream
      = (do_allocate E.upstream_allocate (w.pools q.m_allocator) w.upstream
          E.sizeof_Node E.alignof_Node).upstream := by
  unfold push at h
  simp only [resource_allocate, resource_deallocate, hr, if_false] at h
  split at h
  · simp at h
  · split at h
    · simp at h
    · split at h
      · simp at h
      · split at h
        · split at h
          · simp at h
          · simp only [Outcome.ok.injEq, Prod.mk.injEq, true_and] at h
            obtain ⟨rfl, rfl⟩ := h
            simp [World.set_pool, World.store]
        · simp only [Outcome.ok.injEq, Prod.mk.injEq, true_and] at h
          obtain ⟨rfl, rfl⟩ := h
          simp [World.set_pool, World.store]

theorem push_throws_upstream {T : Type} (E : Env T) (q : pmr_queue) (w : World T) (v : T)
    (s : pmr_queue × World T) (hr : q.m_allocator ≠ DEFAULT_RESOURCE)
    (h : push E q w v = Outcome.throws Exception.upstream_failure s) :
    (do_allocate E.upstream_allocate (w.pools q.m_allocator) w.upstream
      E.sizeof_Node E.alignof_Node).ret = none := by
  unfold push at h
  simp only [resource_allocate, resource_deallocate, hr, if_false] at h
  split at h
  · assumption
  · split at h
    · simp at h
    · split at h
      · simp at h
      · split at h
        · split at h <;> simp at h
        · simp at h

theorem set_used_mem (l : List block_info) (i : Nat) (u : Bool) (b : block_info)
    (h : l[i]? = some b) : { b with used := u } ∈ set_used l i u := by
  induction l generalizing i with
  | nil => simp at h
  | cons x rest ih =>
    cases i with
    | zero =>
      simp only [List.getElem?_cons_zero, Option.some.injEq] at h
      subst h
      simp [set_used]
    | succ k =>
      simp only [set_used, List.mem_cons]
      exact Or.inr (ih k (by simpa using h))

theorem deallocate_frees (pool : cube_memory_resource) (log : List UpCall)
    (p bytes alignment : Nat) (b : block_info) (h : owner pool p = some b) :
    ∃ c ∈ (do_deallocate pool log p bytes alignment).1.blocks,
      c.used = false ∧ c.size = b.size := by
  unfold owner at h
  unfold do_deallocate
  cases hf : find_if (fun info => decide (info.ptr = p)) pool.blocks with
  | none => simp [hf] at h
  | some ib =>
    obtain ⟨i, c⟩ := ib
    simp only [hf, Option.some.injEq] at h
    subst h
    obtain ⟨h1, -, -⟩ := find_if_some _ _ _ _ hf
    exact ⟨_, set_used_mem _ i false c h1, rfl, rfl⟩

/-- C9 (a pop releases one block), for a queue bound to a pool whose head node
occupies a block of that pool: when the queue is not empty, its head node exists, and the record
that the pool finds for the address of the head node is in use, `pop()` returns,
`allocated_blocks()` of the pool decreases by exactly 1 and `total_blocks()` is
unchanged. Every non-empty queue reached from a new one by `push`, `pop` and
`clear` calls is such a queue. -/
theorem pop_releases_block {T : Type} (E : Env T) :
    (∀ (q : pmr_queue) (w : World T) (n : Node T) (b : block_info),
      q.m_allocator ≠ DEFAULT_RESOURCE → 0 < q.size → w.heap q.m_head = some n →
      owner (w.pools q.m_allocator) q.m_head = some b → b.used = true →
      ∃ q' w', pop E q w = Outcome.ok () (q', w') ∧
        allocated_blocks (w'.pools q.m_allocator) + 1
          = allocated_blocks (w.pools q.m_allocator) ∧
        total_blocks (w'.pools q.m_allocator) = total_blocks (w.pools q.m_allocator)) ∧
    (E.upstream_allocate.Sound →
      ∀ (mr : Nat) (w : World T) (ops : List (QueueOp T)) (q1 : pmr_queue) (w1 : World T),
      mr ≠ DEFAULT_RESOURCE → PoolOK (w.pools mr) w.upstream →
      run_ops E (pmr_queue.new mr) w ops = some (q1, w1) → 0 < q1.size →
      ∃ q' w', pop E q1 w1 = Outcome.ok () (q', w') ∧
        allocated_blocks (w'.pools q1.m_allocator) + 1
          = allocated_blocks (w1.pools q1.m_allocator) ∧
        total_blocks (w'.pools q1.m_allocator) = total_blocks (w1.pools q1.m_allocator)) := by
  constructor
  · intro q w n b hr hpos hn hb hu
    have hne : q.empty = false := by
      simp only [pmr_queue.size] at hpos
      simp only [pmr_queue.empty, decide_eq_false_iff_not]
      omega
    have hpop : ∃ s, pop E q w = Outcome.ok () s := by
      simp only [pop, hne, hn, Bool.false_eq_true, if_false]
      exact ⟨_, rfl⟩
    obtain ⟨⟨q', w'⟩, hs⟩ := hpop
    obtain ⟨-, h2, -⟩ := pop_ok_pool E q q' w w' hr hs
    have hst := deallocate_stats (w.pools q.m_allocator) w.upstream q.m_head E.sizeof_Node
      E.alignof_Node b hb hu
    exact ⟨q', w', hs, by rw [h2]; exact hst.1, by rw [h2]; exact hst.2.1⟩
  · intro hs mr w ops q1 w1 hr hp hrun hpos
    obtain ⟨q2, w2, l, h1, hinv, -⟩ :=
      run_ops_inv E hs (pmr_queue.new mr) w [] ops (inv_new mr w hr hp)
    rw [hrun] at h1
    simp only [Option.some.injEq, Prod.mk.injEq] at h1
    obtain ⟨rfl, rfl⟩ := h1
    cases l with
    | nil =>
      have := hinv.2.2.1
      simp only [pmr_queue.size, this, List.length_nil] at hpos
      omega
    | cons a rest =>
      obtain ⟨n, q', w', -, -, hpop, -, -, -, hab, htb⟩ := pop_inv E q1 w1 a rest hinv
      exact ⟨q', w', hpop, hab, htb⟩

/-- C9 on the queue that holds 1, 2, 3 on a new pool: after the pop two of the
three blocks are in use. -/
theorem pop_releases_block_witness :
    demo_env.upstream_allocate.Sound ∧ 1 ≠ DEFAULT_RESOURCE ∧
    PoolOK (demo_world.pools 1) demo_world.upstream ∧
    ∃ q1 w1, run_ops demo_env (pmr_queue.new 1) demo_world
        [QueueOp.push 1, QueueOp.push 2, QueueOp.push 3] = some (q1, w1) ∧
      0 < q1.size ∧
      ∃ q' w', pop demo_env q1 w1 = Outcome.ok () (q', w') ∧
        allocated_blocks (w'.pools q1.m_allocator) + 1
          = allocated_blocks (w1.pools q1.m_allocator) ∧
        total_blocks (w'.pools q1.m_allocator) = total_blocks (w1.pools q1.m_allocator) := by
  obtain ⟨q1, w1, l, h1, hinv, -⟩ := run_ops_inv demo_env bump_upstream_sound (pmr_queue.new 1)
    demo_world [] [QueueOp.push 1, QueueOp.push 2, QueueOp.push 3]
    (inv_new 1 demo_world (by decide) (poolOK_new []))
  have hsize : q1.size = 3 := by
    have : (run_ops demo_env (pmr_queue.new 1) demo_world
        [QueueOp.push 1, QueueOp.push 2, QueueOp.push 3]).map (fun s => s.1.size)
        = some 3 := by decide
    rw [h1] at this
    simpa using this
  exact ⟨bump_upstream_sound, by decide, poolOK_new [], q1, w1, h1, by omega,
    (pop_releases_block demo_env).2 bump_upstream_sound 1 demo_world _ q1 w1
      (by decide) (poolOK_new []) h1 (by omega)⟩

/-- C9 as stated fails for a queue that holds a node of another pool. A queue `b`
on pool 2 holds one element; `a`, new on pool 1, is move-assigned from `b` and so
holds the node of `b` while bound to pool 1. `a.pop()` returns, pool 1 finds no
record for the address and forwards it upstream, and `allocated_blocks()` of pool 1
is 0 before and after. -/
theorem pop_foreign_node :
    foreign_moved.1.1.m_allocator = 1 ∧ foreign_moved.1.1.size = 1 ∧
    (pop demo_env foreign_moved.1.1 foreign_moved.2).returns = true ∧
    allocated_blocks (foreign_moved.2.pools 1) = 0 ∧
    allocated_blocks (foreign_popped.2.pools 1) = 0 ∧
    ¬ (allocated_blocks (foreign_popped.2.pools 1) + 1
        = allocated_blocks (foreign_moved.2.pools 1)) ∧
    foreign_popped.2.upstream
      = [UpCall.allocate 64 8 (some 1), UpCall.deallocate 1 16 8] := by
  refine ⟨by decide, by decide, by decide, by decide, by decide, by decide, by decide⟩

/-! ## The size of the blocks under the nodes -/

theorem owner_allocate (up : Upstream) (pool : cube_memory_resource) (log : List UpCall)
    (bytes alignment a : Nat) (b : block_info) (h : owner pool a = some b) :
    ∃ c, owner (do_allocate up pool log bytes alignment).self a = some c ∧
      c.size = b.size := by
  unfold do_allocate
  cases hf : find_if (fun block => !block.used && decide (block.size ≥ bytes)) pool.blocks with
  | some ib =>
    obtain ⟨j, -, hj⟩ := owner_set_used pool ib.1 true a b h
    refine ⟨_, hj, ?_⟩
    split <;> rfl
  | none =>
    cases hup : up log (actual_size bytes) alignment with
    | none => exact ⟨b, h, rfl⟩
    | some x =>
      refine ⟨b, ?_, rfl⟩
      unfold owner at h ⊢
      simp only [find_if_append_one]
      cases hf2 : find_if (fun info => decide (info.ptr = a)) pool.blocks with
      | none => simp [hf2] at h
      | some jc => simpa [hf2] using h

theorem owner_deallocate (pool : cube_memory_resource) (log : List UpCall)
    (p bytes alignment a : Nat) (b : block_info) (h : owner pool a = some b) (hne : a ≠ p) :
    owner (do_deallocate pool log p bytes alignment).1 a = some b := by
  unfold do_deallocate
  cases hf : find_if (fun info => decide (info.ptr = p)) pool.blocks with
  | none => exact h
  | some ib =>
    obtain ⟨i, c⟩ := ib
    obtain ⟨j, hj1, hj2⟩ := owner_set_used pool i false a b h
    have hji : j ≠ i := by
      rintro rfl
      obtain ⟨h1, h2, -⟩ := find_if_some _ _ _ _ hf
      obtain ⟨h3, h4, -⟩ := find_if_some _ _ _ _ hj1
      rw [h1] at h3
      simp only [Option.some.injEq] at h3
      subst h3
      simp only [decide_eq_true_eq] at h2 h4
      exact hne (h4.symm.trans h2)
    simpa [hji] using hj2

theorem actual_size_ge (bytes : Nat) (hb : bytes ≤ 2 ^ 64 - 64) : bytes ≤ actual_size bytes := by
  rw [actual_size_eq bytes hb]
  omega

theorem owner_fresh_size (up : Upstream) (hs : up.Sound) (pool : cube_memory_resource)
    (log : List UpCall) (bytes alignment : Nat) (hn : PoolOK pool log)
    (hb : bytes ≤ 2 ^ 64 - 64) (a : Nat)
    (hr : (do_allocate up pool log bytes alignment).ret = some a) :
    ∀ c, owner (do_allocate up pool log bytes alignment).self a = some c → bytes ≤ c.size := by
  unfold do_allocate at hr ⊢
  cases hf : find_if (fun block => !block.used && decide (block.size ≥ bytes)) pool.blocks with
  | some ib =>
    obtain ⟨i, b⟩ := ib
    simp only [hf, Option.some.injEq] at hr
    subst hr
    obtain ⟨h1, h2, -⟩ := find_if_some _ _ _ _ hf
    simp only [Bool.and_eq_true, Bool.not_eq_true', decide_eq_true_eq] at h2
    have hfi := find_if_of_nodup pool.blocks i b hn.1 h1
    have hown : owner pool b.ptr = some b := by simp [owner, hfi]
    obtain ⟨j, -, hj2⟩ := owner_set_used pool i true b.ptr b hown
    intro c hc
    simp only [hf] at hc
    rw [hj2] at hc
    simp only [Option.some.injEq] at hc
    subst hc
    split <;> exact h2.2
  | none =>
    cases hup : up log (actual_size bytes) alignment with
    | none => simp [hf, hup] at hr
    | some x =>
      simp only [hf, hup, Option.some.injEq] at hr
      subst hr
      obtain ⟨-, -, hal⟩ := hs _ _ _ _ hup
      have hnot : x ∉ pool.blocks.map (fun b => b.ptr) := fun hm => hal (hn.2 x hm).2.2
      have hnone : find_if (fun info => decide (info.ptr = x)) pool.blocks = none := by
        rw [find_if_none_iff]
        intro b hb'
        simp only [decide_eq_false_iff_not]
        intro hbx
        exact hnot (List.mem_map.mpr ⟨b, hb', hbx⟩)
      intro c hc
      simp [owner, find_if_append_one, hnone] at hc
      subst hc
      exact actual_size_ge bytes hb

theorem sized_allocate (up : Upstream) (pool : cube_memory_resource) (log : List UpCall)
    (bytes alignment sz : Nat) (l : List Nat) (ho : Owned pool l) (hz : Sized pool l sz) :
    Sized (do_allocate up pool log bytes alignment).self l sz := by
  intro a ha c hc
  obtain ⟨b, hb, -⟩ := ho a ha
  obtain ⟨c', hc', hsize⟩ := owner_allocate up pool log bytes alignment a b hb
  rw [hc] at hc'
  simp only [Option.some.injEq] at hc'
  subst hc'
  rw [hsize]
  exact hz a ha b hb

theorem sized_deallocate (pool : cube_memory_resource) (log : List UpCall)
    (p bytes alignment sz : Nat) (l : List Nat) (ho : Owned pool l) (hz : Sized pool l sz)
    (hp : p ∉ l) : Sized (do_deallocate pool log p bytes alignment).1 l sz := by
  intro a ha c hc
  obtain ⟨b, hb, -⟩ := ho a ha
  have := owner_deallocate pool log p bytes alignment a b hb (fun e => hp (e ▸ ha))
  rw [hc] at this
  simp only [Option.some.injEq] at this
  subst this
  exact hz a ha c hb

theorem push_ok_ret {T : Type} (E : Env T) (q q' : pmr_queue) (w w' : World T) (v : T)
    (hr : q.m_allocator ≠ DEFAULT_RESOURCE) (h : push E q w v = Outcome.ok () (q', w')) :
    (do_allocate E.upstream_allocate (w.pools q.m_allocator) w.upstream
      E.sizeof_Node E.alignof_Node).ret = some q'.m_tail := by
  unfold push at h
  simp only [resource_allocate, resource_deallocate, hr, if_false] at h
  split at h
  · simp at h
  · rename_i new_node hret
    split at h
    · simp at h
    · split at h
      · simp at h
      · split at h
        · split at h
          · simp at h
          · simp only [Outcome.ok.injEq, Prod.mk.injEq, true_and] at h
            obtain ⟨rfl, -⟩ := h
            exact hret
        · simp only [Outcome.ok.injEq, Prod.mk.injEq, true_and] at h
          obtain ⟨rfl, -⟩ := h
          exact hret

theorem push_throws_pool {T : Type} (E : Env T) (q : pmr_queue) (w : World T) (v : T)
    (e : Exception) (s : pmr_queue × World T) (hr : q.m_allocator ≠ DEFAULT_RESOURCE)
    (h : push E q w v = Outcome.throws e s) :
    s.2.pools q.m_allocator
      = (do_allocate E.upstream_allocate (w.pools q.m_allocator) w.upstream
          E.sizeof_Node E.alignof_Node).self ∨
    ∃ a, (do_allocate E.upstream_allocate (w.pools q.m_allocator) w.upstream
          E.sizeof_Node E.alignof_Node).ret = some a ∧
      s.2.pools q.m_allocator
        = (do_deallocate
            (do_allocate E.upstream_allocate (w.pools q.m_allocator) w.upstream
              E.sizeof_Node E.alignof_Node).self
            (do_allocate E.upstream_allocate (w.pools q.m_allocator) w.upstream
              E.sizeof_Node E.alignof_Node).upstream a E.sizeof_Node E.alignof_Node).1 := by
  unfold push at h
  simp only [resource_allocate, resource_deallocate, hr, if_false] at h
  split at h
  · simp only [Outcome.throws.injEq] at h
    left
    rw [← h.2]
    simp [World.set_pool]
  · rename_i new_node hret
    split at h
    · simp at h
    · split at h
      · simp only [Outcome.throws.injEq] at h
        right
        refine ⟨new_node, hret, ?_⟩
        rw [← h.2]
        simp [World.set_pool]
      · split at h
        · split at h <;> simp at h
        · simp at h

theorem push_inv_sized {T : Type} (E : Env T) (hs : E.upstream_allocate.Sound)
    (hsz : E.sizeof_Node ≤ 2 ^ 64 - 64) (q : pmr_queue) (w : World T) (l : List Nat) (v : T)
    (h : Inv q w l) (hz : Sized (w.pools q.m_allocator) l E.sizeof_Node) :
    (∃ e w', push E q w v = Outcome.throws e (q, w') ∧ Inv q w' l ∧
      Sized (w'.pools q.m_allocator) l E.sizeof_Node) ∨
    (∃ a q' w', push E q w v = Outcome.ok () (q', w') ∧ q'.m_allocator = q.m_allocator ∧
      Inv q' w' (l ++ [a]) ∧ Sized (w'.pools q.m_allocator) (l ++ [a]) E.sizeof_Node) := by
  have hp := h.2.2.2.2.1
  have ho := h.2.2.2.2.2.1
  have hr := h.2.2.2.2.2.2
  have hO := owned_allocate E.upstream_allocate (w.pools q.m_allocator) w.upstream
    E.sizeof_Node E.alignof_Node l ho
  have hZ := sized_allocate E.upstream_allocate (w.pools q.m_allocator) w.upstream
    E.sizeof_Node E.alignof_Node E.sizeof_Node l ho hz
  rcases push_inv E hs q w l v h with ⟨e, w1, hpush, -, hinv, -⟩ | ⟨a, q1, w1, hpush, hal, -, hinv, -⟩
  · left
    refine ⟨e, w1, hpush, hinv, ?_⟩
    rcases push_throws_pool E q w v e (q, w1) hr hpush with hpool | ⟨a, hret, hpool⟩
    · simp only at hpool
      rw [hpool]
      exact hZ
    · simp only at hpool
      rw [hpool]
      obtain ⟨-, -, hal, -⟩ := allocate_fresh E.upstream_allocate hs
        (w.pools q.m_allocator) w.upstream E.sizeof_Node E.alignof_Node l hp ho a hret
      exact sized_deallocate _ _ a _ _ _ l hO hZ hal
  · right
    refine ⟨a, q1, w1, hpush, hal, hinv, ?_⟩
    obtain ⟨-, hpool, -⟩ := push_ok_pool E q q1 w w1 v hr hpush
    have hret := push_ok_ret E q q1 w w1 v hr hpush
    have htail : q1.m_tail = a := by
      rw [hinv.2.2.2.1]
      simp
    rw [htail] at hret
    rw [hpool]
    intro x hx c hc
    rcases List.mem_append.mp hx with hx | hx
    · exact hZ x hx c hc
    · simp only [List.mem_singleton] at hx
      subst hx
      exact owner_fresh_size E.upstream_allocate hs _ _ _ _ hp hsz x hret c hc

theorem pop_inv_sized {T : Type} (E : Env T) (q : pmr_queue) (w : World T) (a : Nat)
    (rest : List Nat) (h : Inv q w (a :: rest))
    (hz : Sized (w.pools q.m_allocator) (a :: rest) E.sizeof_Node) :
    ∃ q' w', pop E q w = Outcome.ok () (q', w') ∧ q'.m_allocator = q.m_allocator ∧
      Inv q' w' rest ∧ Sized (w'.pools q.m_allocator) rest E.sizeof_Node := by
  obtain ⟨n, q1, w1, -, hh, hpop, hal, hinv, -, -, -⟩ := pop_inv E q w a rest h
  refine ⟨q1, w1, hpop, hal, hinv, ?_⟩
  obtain ⟨-, hpool, -⟩ := pop_ok_pool E q q1 w w1 h.2.2.2.2.2.2 hpop
  rw [hpool, hh]
  exact sized_deallocate _ _ a _ _ _ rest
    (fun x hx => h.2.2.2.2.2.1 x (List.mem_cons_of_mem _ hx))
    (fun x hx => hz x (List.mem_cons_of_mem _ hx))
    (List.nodup_cons.mp h.2.1).1

theorem clear_loop_inv_sized {T : Type} (E : Env T) (fuel : Nat) (q : pmr_queue)
    (w : World T) (l : List Nat) (h : Inv q w l) (hf : l.length ≤ fuel) :
    ∃ q' w', clear_loop E fuel q w = Outcome.ok () (q', w') ∧
      q'.m_allocator = q.m_allocator ∧ Inv q' w' [] ∧
      Sized (w'.pools q.m_allocator) [] E.sizeof_Node := by
  obtain ⟨q1, w1, h1, h2, h3, -, -⟩ := clear_loop_inv E fuel q w l h hf
  exact ⟨q1, w1, h1, h2, h3, fun _ ha => absurd ha (List.not_mem_nil _)⟩

theorem apply_inv_sized {T : Type} (E : Env T) (hs : E.upstream_allocate.Sound)
    (hsz : E.sizeof_Node ≤ 2 ^ 64 - 64) (q : pmr_queue) (w : World T) (l : List Nat)
    (op : QueueOp T) (h : Inv q w l)
    (hz : Sized (w.pools q.m_allocator) l E.sizeof_Node) :
    ∃ q' w' l', (op.apply E q w).state? = some (q', w') ∧ Inv q' w' l' ∧
      Sized (w'.pools q'.m_allocator) l' E.sizeof_Node ∧
      q'.m_allocator = q.m_allocator := by
  cases op with
  | push v =>
    rcases push_inv_sized E hs hsz q w l v h hz with
      ⟨e, w1, hpush, hinv, hz1⟩ | ⟨a, q1, w1, hpush, hal, hinv, hz1⟩
    · exact ⟨q, w1, l, by simp [QueueOp.apply, hpush, Outcome.state?], hinv, hz1, rfl⟩
    · exact ⟨q1, w1, l ++ [a], by simp [QueueOp.apply, hpush, Outcome.state?], hinv,
        hal ▸ hz1, hal⟩
  | pop =>
    cases l with
    | nil =>
      have he : q.empty = true := by simp [pmr_queue.empty, h.2.2.1]
      exact ⟨q, w, [], by simp [QueueOp.apply, pop, he, Outcome.state?], h, hz, rfl⟩
    | cons a rest =>
      obtain ⟨q1, w1, hpop, hal, hinv, hz1⟩ := pop_inv_sized E q w a rest h hz
      exact ⟨q1, w1, rest, by simp [QueueOp.apply, hpop, Outcome.state?], hinv,
        hal ▸ hz1, hal⟩
  | clear =>
    obtain ⟨q1, w1, hcl, hal, hinv, hz1⟩ :=
      clear_loop_inv_sized E q.m_size q w l h (le_of_eq h.2.2.1.symm)
    exact ⟨q1, w1, [], by simp [QueueOp.apply, clear, hcl, Outcome.state?], hinv,
      hal ▸ hz1, hal⟩

theorem run_ops_inv_sized {T : Type} (E : Env T) (hs : E.upstream_allocate.Sound)
    (hsz : E.sizeof_Node ≤ 2 ^ 64 - 64) (q : pmr_queue) (w : World T) (l : List Nat)
    (ops : List (QueueOp T)) (h : Inv q w l)
    (hz : Sized (w.pools q.m_allocator) l E.sizeof_Node) :
    ∃ q' w' l', run_ops E q w ops = some (q', w') ∧ Inv q' w' l' ∧
      Sized (w'.pools q'.m_allocator) l' E.sizeof_Node ∧
      q'.m_allocator = q.m_allocator := by
  induction ops generalizing q w l with
  | nil => exact ⟨q, w, l, rfl, h, hz, rfl⟩
  | cons op rest ih =>
    obtain ⟨q1, w1, l1, h1, hinv, hz1, hal⟩ := apply_inv_sized E hs hsz q w l op h hz
    obtain ⟨q2, w2, l2, h2, hinv2, hz2, hal2⟩ := ih q1 w1 l1 hinv hz1
    exact ⟨q2, w2, l2, by simp [run_ops, h1, h2], hinv2, hz2, hal2.trans hal⟩

/-- C10 (reuse on push), for a queue bound to a pool whose head node occupies a
block of that pool. (1) When the records of the bound pool include a free one of at least
`sizeof(Node)` bytes, a `push(v)` that returns increases `allocated_blocks()` by
exactly 1, leaves `total_blocks()` and `total_memory()` unchanged and makes no
upstream call. (2) In a queue that satisfies the invariant, such a push returns
unless constructing the element throws. (3) When the record that the pool finds for
the address of the head node is in use and at least `sizeof(Node)` bytes large, a
`push(v)` that directly follows a `pop()` leaves `total_blocks()`,
`total_memory()` and `allocated_blocks()` as they were before the pop. (4) In every
non-empty state reached from a new queue by `push`, `pop` and `clear` calls, with
`sizeof(Node)` at most `2 ^ 64 - 64`, `pop()` returns, the `push(v)` that directly
follows it returns unless constructing the element throws, and the pool has not
grown. -/
theorem push_reuses_free_block {T : Type} (E : Env T) :
    (∀ (q q' : pmr_queue) (w w' : World T) (v : T),
      q.m_allocator ≠ DEFAULT_RESOURCE →
      (∃ b ∈ (w.pools q.m_allocator).blocks, b.used = false ∧ E.sizeof_Node ≤ b.size) →
      push E q w v = Outcome.ok () (q', w') →
      allocated_blocks (w'.pools q.m_allocator)
        = allocated_blocks (w.pools q.m_allocator) + 1 ∧
      total_blocks (w'.pools q.m_allocator) = total_blocks (w.pools q.m_allocator) ∧
      total_memory (w'.pools q.m_allocator) = total_memory (w.pools q.m_allocator) ∧
      w'.upstream = w.upstream) ∧
    (E.upstream_allocate.Sound →
      ∀ (q : pmr_queue) (w : World T) (l : List Nat) (v : T), Inv q w l →
      (∃ b ∈ (w.pools q.m_allocator).blocks, b.used = false ∧ E.sizeof_Node ≤ b.size) →
      E.construct_throws v = false →
      ∃ q' w', push E q w v = Outcome.ok () (q', w')) ∧
    (∀ (q q1 q2 : pmr_queue) (w w1 w2 : World T) (v : T) (b : block_info),
      q.m_allocator ≠ DEFAULT_RESOURCE →
      owner (w.pools q.m_allocator) q.m_head = some b → b.used = true →
      E.sizeof_Node ≤ b.size →
      pop E q w = Outcome.ok () (q1, w1) → push E q1 w1 v = Outcome.ok () (q2, w2) →
      total_blocks (w2.pools q.m_allocator) = total_blocks (w.pools q.m_allocator) ∧
      total_memory (w2.pools q.m_allocator) = total_memory (w.pools q.m_allocator) ∧
      allocated_blocks (w2.pools q.m_allocator)
        = allocated_blocks (w.pools q.m_allocator)) ∧
    (E.upstream_allocate.Sound → E.sizeof_Node ≤ 2 ^ 64 - 64 →
      ∀ (mr : Nat) (w : World T) (ops : List (QueueOp T)) (q1 : pmr_queue) (w1 : World T)
        (v : T),
      mr ≠ DEFAULT_RESOURCE → PoolOK (w.pools mr) w.upstream →
      run_ops E (pmr_queue.new mr) w ops = some (q1, w1) → 0 < q1.size →
      E.construct_throws v = false →
      ∃ q2 w2 q3 w3, pop E q1 w1 = Outcome.ok () (q2, w2) ∧
        push E q2 w2 v = Outcome.ok () (q3, w3) ∧
        total_blocks (w3.pools q1.m_allocator) = total_blocks (w1.pools q1.m_allocator) ∧
        total_memory (w3.pools q1.m_allocator) = total_memory (w1.pools q1.m_allocator) ∧
        allocated_blocks (w3.pools q1.m_allocator)
          = allocated_blocks (w1.pools q1.m_allocator)) := by
  have part1 : ∀ (q q' : pmr_queue) (w w' : World T) (v : T),
      q.m_allocator ≠ DEFAULT_RESOURCE →
      (∃ b ∈ (w.pools q.m_allocator).blocks, b.used = false ∧ E.sizeof_Node ≤ b.size) →
      push E q w v = Outcome.ok () (q', w') →
      allocated_blocks (w'.pools q.m_allocator)
        = allocated_blocks (w.pools q.m_allocator) + 1 ∧
      total_blocks (w'.pools q.m_allocator) = total_blocks (w.pools q.m_allocator) ∧
      total_memory (w'.pools q.m_allocator) = total_memory (w.pools q.m_allocator) ∧
      w'.upstream = w.upstream := by
    intro q q' w w' v hr hfit hpush
    obtain ⟨-, h2, h3⟩ := push_ok_pool E q q' w w' v hr hpush
    obtain ⟨s1, s2, s3, s4, -⟩ := allocate_reuse_stats E.upstream_allocate
      (w.pools q.m_allocator) w.upstream E.sizeof_Node E.alignof_Node hfit
    rw [h2, h3]
    exact ⟨s1, s2, s3, s4⟩
  have part2 : E.upstream_allocate.Sound →
      ∀ (q : pmr_queue) (w : World T) (l : List Nat) (v : T), Inv q w l →
      (∃ b ∈ (w.pools q.m_allocator).blocks, b.used = false ∧ E.sizeof_Node ≤ b.size) →
      E.construct_throws v = false →
      ∃ q' w', push E q w v = Outcome.ok () (q', w') := by
    intro hs q w l v hinv hfit hct
    rcases push_inv E hs q w l v hinv with ⟨e, w1, hpush, -, -, he⟩ | ⟨a, q1, w1, hpush, -⟩
    · rw [he hct] at hpush
      have hnone := push_throws_upstream E q w v _ hinv.2.2.2.2.2.2 hpush
      obtain ⟨-, -, -, -, b, -, hb⟩ := allocate_reuse_stats E.upstream_allocate
        (w.pools q.m_allocator) w.upstream E.sizeof_Node E.alignof_Node hfit
      rw [hnone] at hb
      simp at hb
    · exact ⟨q1, w1, hpush⟩
  have part3 : ∀ (q q1 q2 : pmr_queue) (w w1 w2 : World T) (v : T) (b : block_info),
      q.m_allocator ≠ DEFAULT_RESOURCE →
      owner (w.pools q.m_allocator) q.m_head = some b → b.used = true →
      E.sizeof_Node ≤ b.size →
      pop E q w = Outcome.ok () (q1, w1) → push E q1 w1 v = Outcome.ok () (q2, w2) →
      total_blocks (w2.pools q.m_allocator) = total_blocks (w.pools q.m_allocator) ∧
      total_memory (w2.pools q.m_allocator) = total_memory (w.pools q.m_allocator) ∧
      allocated_blocks (w2.pools q.m_allocator)
        = allocated_blocks (w.pools q.m_allocator) := ?_
  · refine ⟨part1, part2, part3, ?_⟩
    intro hs hsz mr w ops q1 w1 v hr hp hrun hpos hct
    obtain ⟨q', w', l, h1, hinv, hz, -⟩ := run_ops_inv_sized E hs hsz (pmr_queue.new mr) w []
      ops (inv_new mr w hr hp) (fun _ ha => absurd ha (List.not_mem_nil _))
    rw [hrun] at h1
    simp only [Option.some.injEq, Prod.mk.injEq] at h1
    obtain ⟨rfl, rfl⟩ := h1
    cases l with
    | nil =>
      have := hinv.2.2.1
      simp only [pmr_queue.size, this, List.length_nil] at hpos
      omega
    | cons a rest =>
      obtain ⟨n, q2, w2, -, hh, hpop, hal, hinv2, -, -, -⟩ := pop_inv E q1 w1 a rest hinv
      obtain ⟨b, hb, hu⟩ := hinv.2.2.2.2.2.1 a (List.mem_cons_self _ _)
      have hbs := hz a (List.mem_cons_self _ _) b hb
      rw [← hh] at hb
      obtain ⟨-, hp1, -⟩ := pop_ok_pool E q1 q2 w1 w2 hinv.2.2.2.2.2.2 hpop
      obtain ⟨c, hc, hcu, hcs⟩ := deallocate_frees (w1.pools q1.m_allocator) w1.upstream
        q1.m_head E.sizeof_Node E.alignof_Node b hb
      have hfit : ∃ b ∈ (w2.pools q2.m_allocator).blocks,
          b.used = false ∧ E.sizeof_Node ≤ b.size :=
        ⟨c, by rw [hal, hp1]; exact hc, hcu, by rw [hcs]; exact hbs⟩
      obtain ⟨q3, w3, hpush⟩ := part2 hs q2 w2 rest v hinv2 hfit hct
      exact ⟨q2, w2, q3, w3, hpop, hpush,
        part3 q1 q2 q3 w1 w2 w3 v b hinv.2.2.2.2.2.2 hb hu hbs hpop hpush⟩
  · intro q q1 q2 w w1 w2 v b hr hb hu hsz hpop hpush
    obtain ⟨ha, hp1, -⟩ := pop_ok_pool E q q1 w w1 hr hpop
    obtain ⟨c, hc, hcu, hcs⟩ := deallocate_frees (w.pools q.m_allocator) w.upstream q.m_head
      E.sizeof_Node E.alignof_Node b hb
    obtain ⟨d1, d2, d3, -⟩ := deallocate_stats (w.pools q.m_allocator) w.upstream q.m_head
      E.sizeof_Node E.alignof_Node b hb hu
    rw [← hp1] at hc d1 d2 d3
    have hfit : ∃ b ∈ (w1.pools q1.m_allocator).blocks, b.used = false ∧ E.sizeof_Node ≤ b.size :=
      ⟨c, by rw [ha]; exact hc, hcu, by rw [hcs]; exact hsz⟩
    obtain ⟨p1, p2, p3, -⟩ := part1 q1 q2 w1 w2 v (ha ▸ hr) hfit hpush
    rw [ha] at p1 p2 p3
    exact ⟨p2.trans d2, p3.trans d3, by omega⟩

/-- C10 on a queue that holds 1, 2 on a new pool: pop, then push 3. -/
theorem push_reuses_free_block_witness :
    owner (demo_two.2.pools demo_two.1.m_allocator) demo_two.1.m_head
      = some ⟨1, 64, 8, true⟩ ∧
    pop demo_env demo_two.1 demo_two.2
      = Outcome.ok () (demo_two_popped.1, demo_two_popped.2) ∧
    push demo_env demo_two_popped.1 demo_two_popped.2 3
      = Outcome.ok () (demo_two_pushed.1, demo_two_pushed.2) ∧
    total_blocks (demo_two_pushed.2.pools demo_two.1.m_allocator)
      = total_blocks (demo_two.2.pools demo_two.1.m_allocator) ∧
    total_memory (demo_two_pushed.2.pools demo_two.1.m_allocator)
      = total_memory (demo_two.2.pools demo_two.1.m_allocator) ∧
    allocated_blocks (demo_two_pushed.2.pools demo_two.1.m_allocator)
      = allocated_blocks (demo_two.2.pools demo_two.1.m_allocator) :=
  ⟨by decide, rfl, rfl,
   (push_reuses_free_block demo_env).2.2.1 demo_two.1 demo_two_popped.1 demo_two_pushed.1
     demo_two.2 demo_two_popped.2 demo_two_pushed.2 3 ⟨1, 64, 8, true⟩
     (by decide) (by decide) rfl (by decide) rfl rfl⟩

/-- C10 as stated fails for a queue that holds a node of another pool. A queue `b`
on pool 2 holds one element; `a`, new on pool 1, is move-assigned from `b`. The
`a.pop()` frees no record of pool 1, and the `a.push(9)` that directly follows it
returns and grows pool 1 from 0 to 1 records, `total_memory()` from 0 to 64. -/
theorem push_after_foreign_pop_grows :
    (pop demo_env foreign_moved.1.1 foreign_moved.2).returns = true ∧
    (push demo_env foreign_popped.1 foreign_popped.2 9).returns = true ∧
    foreign_popped.1.m_allocator = 1 ∧
    total_blocks (foreign_popped.2.pools 1) = 0 ∧
    total_blocks (foreign_pushed.2.pools 1) = 1 ∧
    total_memory (foreign_popped.2.pools 1) = 0 ∧
    total_memory (foreign_pushed.2.pools 1) = 64 ∧
    ¬ (total_blocks (foreign_pushed.2.pools 1) = total_blocks (foreign_popped.2.pools 1)) := by
  refine ⟨by decide, by decide, by decide, by decide, by decide, by decide,
    by decide, by decide⟩

/-! ## The fit test and the rounded size -/

theorem actual_size_dvd (bytes : Nat) : CUBE_SIZE ∣ actual_size bytes := by
  unfold actual_size size_mul
  have h : size_sub (size_add bytes CUBE_SIZE) 1 / CUBE_SIZE * CUBE_SIZE < SIZE_RANGE := by
    have h1 : size_sub (size_add bytes CUBE_SIZE) 1 < SIZE_RANGE := by
      unfold size_sub
      exact Nat.mod_lt _ (by unfold SIZE_RANGE; norm_num)
    exact lt_of_le_of_lt (Nat.div_mul_le_self _ _) h1
  rw [Nat.mod_eq_of_lt h]
  exact Nat.dvd_mul_left _ _

theorem do_allocate_sizes (up : Upstream) (self : cube_memory_resource) (log : List UpCall)
    (bytes alignment : Nat) (h : ∀ x ∈ self.blocks.map block_info.size, CUBE_SIZE ∣ x) :
    ∀ x ∈ (do_allocate up self log bytes alignment).self.blocks.map block_info.size,
      CUBE_SIZE ∣ x := by
  unfold do_allocate
  cases hf : find_if (fun block => !block.used && decide (block.size ≥ bytes)) self.blocks with
  | some ib =>
    simp only [set_used_sizes]
    exact h
  | none =>
    cases hup : up log (actual_size bytes) alignment with
    | none => exact h
    | some a =>
      intro x hx
      simp only [List.map_append, List.map_cons, List.map_nil, List.mem_append,
        List.mem_singleton] at hx
      rcases hx with hx | hx
      · exact h x hx
      · rw [hx]; exact actual_size_dvd bytes

theorem do_deallocate_sizes (self : cube_memory_resource) (log : List UpCall)
    (ptr bytes alignment : Nat) (h : ∀ x ∈ self.blocks.map block_info.size, CUBE_SIZE ∣ x) :
    ∀ x ∈ (do_deallocate self log ptr bytes alignment).1.blocks.map block_info.size,
      CUBE_SIZE ∣ x := by
  unfold do_deallocate
  cases hf : find_if (fun info => decide (info.ptr = ptr)) self.blocks with
  | some ib =>
    simp only [set_used_sizes]
    exact h
  | none => exact h

theorem run_calls_sizes (up : Upstream) (s : cube_memory_resource × List UpCall)
    (calls : List PoolCall) (h : ∀ x ∈ s.1.blocks.map block_info.size, CUBE_SIZE ∣ x) :
    ∀ x ∈ (run_calls up s calls).1.blocks.map block_info.size, CUBE_SIZE ∣ x := by
  induction calls generalizing s with
  | nil => exact h
  | cons c cs ih =>
    apply ih
    cases c with
    | allocate bytes alignment => exact do_allocate_sizes up s.1 s.2 bytes alignment h
    | deallocate ptr bytes alignment => exact do_deallocate_sizes s.1 s.2 ptr bytes alignment h

theorem fit_test_rounded (bytes size : Nat) (hb : bytes ≤ 2 ^ 64 - 64)
    (hd : CUBE_SIZE ∣ size) : bytes ≤ size ↔ actual_size bytes ≤ size := by
  rw [actual_size_eq bytes hb]
  obtain ⟨k, rfl⟩ := hd
  unfold CUBE_SIZE
  omega

theorem find_if_congr (p r : block_info → Bool) (l : List block_info)
    (h : ∀ b ∈ l, p b = r b) : find_if p l = find_if r l := by
  induction l with
  | nil => rfl
  | cons a rest ih =>
    have ha := h a (List.mem_cons_self _ _)
    have hr := ih (fun b hb => h b (List.mem_cons_of_mem _ hb))
    simp only [find_if, ha, hr]

/-- C20 (the fit test against the unrounded size). In every pool state that a
sequence of `do_allocate` and `do_deallocate` calls reaches from a new pool, the size
of every record is a multiple of `CUBE_SIZE`; hence for a request of at most
`2 ^ 64 - 64` bytes, whose rounding does not wrap around, a record passes the test
`block.size >= bytes` exactly when it passes `block.size >= actual_size`, the two scans
stop at the same record, and `do_allocate` does exactly what its variant with the
rounded test does. -/
theorem fit_test_unrounded_equivalent (up : Upstream) (log : List UpCall)
    (calls : List PoolCall) (bytes alignment : Nat) (hb : bytes ≤ 2 ^ 64 - 64) :
    (∀ b ∈ (run_calls up (cube_memory_resource.new, log) calls).1.blocks,
      CUBE_SIZE ∣ b.size ∧ (b.size ≥ bytes ↔ b.size ≥ actual_size bytes)) ∧
    find_if (fun block => !block.used && decide (block.size ≥ bytes))
        (run_calls up (cube_memory_resource.new, log) calls).1.blocks
      = find_if (fun block => !block.used && decide (block.size ≥ actual_size bytes))
        (run_calls up (cube_memory_resource.new, log) calls).1.blocks ∧
    do_allocate up (run_calls up (cube_memory_resource.new, log) calls).1
        (run_calls up (cube_memory_resource.new, log) calls).2 bytes alignment
      = do_allocate_rounded up (run_calls up (cube_memory_resource.new, log) calls).1
        (run_calls up (cube_memory_resource.new, log) calls).2 bytes alignment := by
  have hsz := run_calls_sizes up (cube_memory_resource.new, log) calls
    (by simp [cube_memory_resource.new])
  have h1 : ∀ b ∈ (run_calls up (cube_memory_resource.new, log) calls).1.blocks,
      CUBE_SIZE ∣ b.size ∧ (b.size ≥ bytes ↔ b.size ≥ actual_size bytes) := by
    intro b hb'
    have hd := hsz b.size (List.mem_map_of_mem _ hb')
    exact ⟨hd, fit_test_rounded bytes b.size hb hd⟩
  have h2 := find_if_congr (fun block => !block.used && decide (block.size ≥ bytes))
    (fun block => !block.used && decide (block.size ≥ actual_size bytes)) _
    (fun b hb' => by
      have := (h1 b hb').2
      simp only [ge_iff_le] at this ⊢
      simp only [this])
  refine ⟨h1, h2, ?_⟩
  unfold do_allocate do_allocate_rounded
  rw [h2]

theorem fit_test_unrounded_equivalent_witness :
    (100 : Nat) ≤ 2 ^ 64 - 64 ∧
    do_allocate bump_upstream
        (run_calls bump_upstream (cube_memory_resource.new, [])
          [PoolCall.allocate 100 8, PoolCall.deallocate 1 100 8]).1
        (run_calls bump_upstream (cube_memory_resource.new, [])
          [PoolCall.allocate 100 8, PoolCall.deallocate 1 100 8]).2 100 8
      = do_allocate_rounded bump_upstream
        (run_calls bump_upstream (cube_memory_resource.new, [])
          [PoolCall.allocate 100 8, PoolCall.deallocate 1 100 8]).1
        (run_calls bump_upstream (cube_memory_resource.new, [])
          [PoolCall.allocate 100 8, PoolCall.deallocate 1 100 8]).2 100 8 :=
  ⟨by norm_num,
   (fit_test_unrounded_equivalent bump_upstream []
     [PoolCall.allocate 100 8, PoolCall.deallocate 1 100 8] 100 8 (by norm_num)).2.2⟩

/-! ## No block is handed out twice -/

theorem do_allocate_nodup (up : Upstream) (s : cube_memory_resource × List UpCall)
    (bytes alignment : Nat) (hf : FreshAt up s)
    (hn : (s.1.blocks.map (fun b => b.ptr)).Nodup) :
    ((do_allocate up s.1 s.2 bytes alignment).self.blocks.map (fun b => b.ptr)).Nodup := by
  unfold do_allocate
  cases hfi : find_if (fun block => !block.used && decide (block.size ≥ bytes)) s.1.blocks with
  | some ib =>
    simp only [set_used_ptrs]
    exact hn
  | none =>
    cases hup : up s.2 (actual_size bytes) alignment with
    | none => exact hn
    | some a =>
      have := hf _ _ _ hup
      simp only [List.map_append, List.map_cons, List.map_nil]
      rw [List.nodup_append]
      refine ⟨hn, List.nodup_singleton _, ?_⟩
      intro x hx hx'
      simp only [List.mem_singleton] at hx'
      subst hx'
      exact this hx

theorem do_deallocate_ptrs (self : cube_memory_resource) (log : List UpCall)
    (ptr bytes alignment : Nat) :
    (do_deallocate self log ptr bytes alignment).1.blocks.map (fun b => b.ptr)
      = self.blocks.map (fun b => b.ptr) := by
  unfold do_deallocate
  cases hf : find_if (fun info => decide (info.ptr = ptr)) self.blocks with
  | some ib => simp only [set_used_ptrs]
  | none => rfl

theorem run_calls_nodup (up : Upstream) (s : cube_memory_resource × List UpCall)
    (calls : List PoolCall) (hf : FreshAlong up s calls)
    (hn : (s.1.blocks.map (fun b => b.ptr)).Nodup) :
    ((run_calls up s calls).1.blocks.map (fun b => b.ptr)).Nodup ∧
    FreshAt up (run_calls up s calls) := by
  induction calls generalizing s with
  | nil => exact ⟨hn, hf⟩
  | cons c cs ih =>
    apply ih _ hf.2
    cases c with
    | allocate bytes alignment => exact do_allocate_nodup up s bytes alignment hf.1 hn
    | deallocate ptr bytes alignment =>
      simp only [PoolCall.apply, do_deallocate_ptrs]
      exact hn

theorem do_allocate_ret_unused (up : Upstream) (s : cube_memory_resource × List UpCall)
    (bytes alignment a : Nat) (hf : FreshAt up s)
    (hn : (s.1.blocks.map (fun b => b.ptr)).Nodup)
    (hr : (do_allocate up s.1 s.2 bytes alignment).ret = some a) :
    (∀ b ∈ s.1.blocks, b.used = true → b.ptr ≠ a) ∧
    ((∃ b ∈ s.1.blocks, b.ptr = a ∧ b.used = false) ∨
      a ∉ s.1.blocks.map (fun b => b.ptr)) := by
  unfold do_allocate at hr
  cases hfi : find_if (fun block => !block.used && decide (block.size ≥ bytes)) s.1.blocks with
  | some ib =>
    obtain ⟨i, c⟩ := ib
    rw [hfi] at hr
    simp only [Option.some.injEq] at hr
    obtain ⟨hi, hp, -⟩ := find_if_some _ _ _ _ hfi
    simp only [Bool.and_eq_true, Bool.not_eq_true', decide_eq_true_eq] at hp
    have hc : c ∈ s.1.blocks := List.getElem?_mem hi
    refine ⟨?_, Or.inl ⟨c, hc, hr, hp.1⟩⟩
    intro b hb hu hba
    have hbc : b = c := by
      have hinj := List.inj_on_of_nodup_map hn hb hc
      exact hinj (by rw [hba, hr])
    rw [hbc, hp.1] at hu
    exact Bool.noConfusion hu
  | none =>
    rw [hfi] at hr
    cases hup : up s.2 (actual_size bytes) alignment with
    | none => rw [hup] at hr; simp at hr
    | some p =>
      rw [hup] at hr
      simp only [Option.some.injEq] at hr
      subst hr
      have := hf _ _ _ hup
      refine ⟨?_, Or.inr this⟩
      intro b hb _ hba
      exact this (hba ▸ List.mem_map_of_mem _ hb)

theorem freshAt_of_sound (up : Upstream) (hs : up.Sound)
    (s : cube_memory_resource × List UpCall) (hp : PoolOK s.1 s.2) : FreshAt up s := by
  intro bytes alignment a ha hmem
  exact (hs _ _ _ _ ha).2.2 (hp.2 a hmem).2.2

theorem freshAlong_of_sound (up : Upstream) (hs : up.Sound)
    (s : cube_memory_resource × List UpCall) (calls : List PoolCall) (hp : PoolOK s.1 s.2) :
    FreshAlong up s calls := by
  induction calls generalizing s with
  | nil => exact freshAt_of_sound up hs s hp
  | cons c cs ih =>
    refine ⟨freshAt_of_sound up hs s hp, ih _ ?_⟩
    cases c with
    | allocate bytes alignment => exact poolOK_allocate up hs s.1 s.2 bytes alignment hp
    | deallocate ptr bytes alignment => exact poolOK_deallocate s.1 s.2 ptr bytes alignment hp

/-- C19 (no block is handed out twice), under the assumption of the claim that the
upstream resource never returns an address that is present in the records of the
pool. In every state that a sequence of `do_allocate` and `do_deallocate` calls
reaches from a new pool, the addresses of the records are pairwise distinct, and the
address that a further `do_allocate` returns is the address of no record in use: it
is either the address of a record that was free just before the call, or an address
that no record had. -/
theorem no_block_handed_out_twice (up : Upstream) (log : List UpCall)
    (calls : List PoolCall)
    (hf : FreshAlong up (cube_memory_resource.new, log) calls) :
    ((run_calls up (cube_memory_resource.new, log) calls).1.blocks.map
      (fun b => b.ptr)).Nodup ∧
    ∀ bytes alignment a,
      (do_allocate up (run_calls up (cube_memory_resource.new, log) calls).1
        (run_calls up (cube_memory_resource.new, log) calls).2 bytes alignment).ret = some a →
      (∀ b ∈ (run_calls up (cube_memory_resource.new, log) calls).1.blocks,
        b.used = true → b.ptr ≠ a) ∧
      ((∃ b ∈ (run_calls up (cube_memory_resource.new, log) calls).1.blocks,
          b.ptr = a ∧ b.used = false) ∨
        a ∉ (run_calls up (cube_memory_resource.new, log) calls).1.blocks.map
          (fun b => b.ptr)) := by
  have h := run_calls_nodup up (cube_memory_resource.new, log) calls hf
    (by simp [cube_memory_resource.new])
  exact ⟨h.1, fun bytes alignment a hr =>
    do_allocate_ret_unused up _ bytes alignment a h.2 h.1 hr⟩

theorem no_block_handed_out_twice_witness :
    FreshAlong bump_upstream (cube_memory_resource.new, [])
      [PoolCall.allocate 16 8, PoolCall.allocate 16 8, PoolCall.deallocate 1 16 8] ∧
    ((run_calls bump_upstream (cube_memory_resource.new, [])
      [PoolCall.allocate 16 8, PoolCall.allocate 16 8, PoolCall.deallocate 1 16 8]).1.blocks.map
      (fun b => b.ptr)).Nodup :=
  ⟨freshAlong_of_sound bump_upstream bump_upstream_sound _ _ (poolOK_new []),
   (no_block_handed_out_twice bump_upstream []
    [PoolCall.allocate 16 8, PoolCall.allocate 16 8, PoolCall.deallocate 1 16 8]
    (freshAlong_of_sound bump_upstream bump_upstream_sound _ _ (poolOK_new []))).1⟩

/-! ## Destruction of a pool -/

theorem destructor_fold (l : List block_info) (log : List UpCall) :
    l.foldl
      (fun log block =>
        if block.ptr ≠ 0 then
          log ++ [UpCall.deallocate block.ptr block.size block.alignment]
        else log)
      log
    = log ++ (l.filter (fun b => decide (b.ptr ≠ 0))).map
        (fun b => UpCall.deallocate b.ptr b.size b.alignment) := by
  induction l generalizing log with
  | nil => simp
  | cons a rest ih =>
    rw [List.foldl_cons, ih]
    by_cases ha : a.ptr = 0
    · simp [ha]
    · simp [ha]

theorem obtained_append (l m : List UpCall) : obtained (l ++ m) = obtained l ++ obtained m := by
  induction l with
  | nil => rfl
  | cons c rest ih =>
    cases c with
    | allocate b al r =>
      cases r with
      | none => simpa [obtained] using ih
      | some a => simpa [obtained] using ih
    | deallocate p b al => simpa [obtained] using ih

theorem returned_append (l m : List UpCall) : returned (l ++ m) = returned l ++ returned m := by
  induction l with
  | nil => rfl
  | cons c rest ih =>
    cases c with
    | allocate b al r => simpa [returned] using ih
    | deallocate p b al => simpa [returned] using ih

theorem returned_map_deallocate (l : List block_info) :
    returned (l.map (fun b => UpCall.deallocate b.ptr b.size b.alignment))
      = l.map (fun b => b.ptr) := by
  induction l with
  | nil => rfl
  | cons a rest ih => simp [returned, ih]

/-- The log that the pool has written since its construction, with the facts that
the calls maintain: the addresses of the records are the addresses obtained from
upstream, in order, and no obtained address was passed to `deallocate` afterwards. -/
theorem run_calls_log (up : Upstream) (log0 : List UpCall)
    (s : cube_memory_resource × List UpCall) (calls : List PoolCall) (post : List UpCall)
    (h1 : s.2 = log0 ++ post) (h2 : s.1.blocks.map (fun b => b.ptr) = obtained post)
    (h3 : ∀ pre sz al a rest, post = pre ++ UpCall.allocate sz al (some a) :: rest →
      a ∉ returned rest) :
    ∃ post', (run_calls up s calls).2 = log0 ++ post' ∧
      (run_calls up s calls).1.blocks.map (fun b => b.ptr) = obtained post' ∧
      ∀ pre sz al a rest, post' = pre ++ UpCall.allocate sz al (some a) :: rest →
        a ∉ returned rest := by
  induction calls generalizing s post with
  | nil => exact ⟨post, h1, h2, h3⟩
  | cons c cs ih =>
    have step : ∀ x : UpCall, (∀ p b al, x = UpCall.deallocate p b al → p ∉ obtained post) →
        ∀ pre sz al a rest, post ++ [x] = pre ++ UpCall.allocate sz al (some a) :: rest →
          a ∉ returned rest := by
      intro x hx pre sz al a rest he
      rcases List.eq_nil_or_concat rest with hr | ⟨r0, y, hr⟩
      · subst hr; simp [returned]
      · subst hr
        simp only [List.concat_eq_append] at he ⊢
        have he' : post ++ [x] = (pre ++ UpCall.allocate sz al (some a) :: r0) ++ [y] := by
          simpa using he
        obtain ⟨hpost, hxy⟩ := List.append_inj' he' rfl
        simp only [List.cons.injEq, and_true] at hxy
        subst hxy
        have hno := h3 pre sz al a r0 hpost
        have hmem : a ∈ obtained post := by
          rw [hpost, obtained_append]
          simp [obtained]
        rw [returned_append]
        intro hin
        rcases List.mem_append.mp hin with hin | hin
        · exact hno hin
        · cases x with
          | allocate b2 al2 r2 => simp [returned] at hin
          | deallocate p b2 al2 =>
            simp only [returned, List.mem_singleton] at hin
            exact hx p b2 al2 rfl (hin ▸ hmem)
    cases c with
    | allocate bytes alignment =>
      simp only [run_calls, PoolCall.apply]
      cases hf : find_if (fun block => !block.used && decide (block.size ≥ bytes))
          s.1.blocks with
      | some ib =>
        apply ih _ post
        · simp only [do_allocate, hf]; exact h1
        · simp only [do_allocate, hf, set_used_ptrs]; exact h2
        · exact h3
      | none =>
        cases hup : up s.2 (actual_size bytes) alignment with
        | none =>
          apply ih _ (post ++ [UpCall.allocate (actual_size bytes) alignment none])
          · simp only [do_allocate, hf, hup]
            rw [h1, List.append_assoc]
          · simp only [do_allocate, hf, hup, h2, obtained_append]
            simp [obtained]
          · exact step _ (fun p b al hx => by simp at hx)
        | some a =>
          apply ih _ (post ++ [UpCall.allocate (actual_size bytes) alignment (some a)])
          · simp only [do_allocate, hf, hup]
            rw [h1, List.append_assoc]
          · simp only [do_allocate, hf, hup, obtained_append, List.map_append, h2]
            simp [obtained]
          · exact step _ (fun p b al hx => by simp at hx)
    | deallocate ptr bytes alignment =>
      simp only [run_calls, PoolCall.apply]
      cases hf : find_if (fun info => decide (info.ptr = ptr)) s.1.blocks with
      | some ib =>
        apply ih _ post
        · simp only [do_deallocate, hf]; exact h1
        · simp only [do_deallocate, hf, set_used_ptrs]; exact h2
        · exact h3
      | none =>
        apply ih _ (post ++ [UpCall.deallocate ptr bytes alignment])
        · simp only [do_deallocate, hf, h1, List.append_assoc]
        · simp only [do_deallocate, hf, h2, obtained_append]
          simp [obtained]
        · apply step
          intro p b al hx
          simp only [UpCall.deallocate.injEq] at hx
          rw [← hx.1, ← h2]
          intro hmem
          obtain ⟨blk, hblk, hptr⟩ := List.mem_map.mp hmem
          have := (find_if_none_iff _ _).mp hf blk hblk
          simp [hptr] at this

theorem run_calls_poolOK (up : Upstream) (hs : up.Sound)
    (s : cube_memory_resource × List UpCall) (calls : List PoolCall) (hp : PoolOK s.1 s.2) :
    PoolOK (run_calls up s calls).1 (run_calls up s calls).2 := by
  induction calls generalizing s with
  | nil => exact hp
  | cons c cs ih =>
    apply ih
    cases c with
    | allocate bytes alignment => exact poolOK_allocate up hs s.1 s.2 bytes alignment hp
    | deallocate ptr bytes alignment => exact poolOK_deallocate s.1 s.2 ptr bytes alignment hp

theorem run_calls_nonnull (up : Upstream) (hnn : ∀ log bytes alignment, up log bytes alignment ≠ some 0)
    (s : cube_memory_resource × List UpCall) (calls : List PoolCall)
    (h : ∀ p ∈ s.1.blocks.map (fun b => b.ptr), p ≠ 0) :
    ∀ p ∈ (run_calls up s calls).1.blocks.map (fun b => b.ptr), p ≠ 0 := by
  induction calls generalizing s with
  | nil => exact h
  | cons c cs ih =>
    apply ih
    cases c with
    | allocate bytes alignment =>
      simp only [PoolCall.apply]
      unfold do_allocate
      cases hf : find_if (fun block => !block.used && decide (block.size ≥ bytes))
          s.1.blocks with
      | some ib => simp only [set_used_ptrs]; exact h
      | none =>
        cases hup : up s.2 (actual_size bytes) alignment with
        | none => exact h
        | some a =>
          intro p hp
          simp only [List.map_append, List.map_cons, List.map_nil, List.mem_append,
            List.mem_singleton] at hp
          rcases hp with hp | hp
          · exact h p hp
          · rw [hp]
            intro h0
            exact hnn _ _ _ (h0 ▸ hup)
    | deallocate ptr bytes alignment =>
      simp only [PoolCall.apply, do_deallocate_ptrs]
      exact h

/-- C17 (destruction of a pool), with a sound upstream resource. For every pool
state that a sequence of `do_allocate` and `do_deallocate` calls reaches from a new
pool, the destructor leaves no record and issues exactly one upstream `deallocate`
call for every record, in insertion order, with the stored address, size and
alignment of the record, whatever its used flag (no record has a null address, so
the test `if (block.ptr)` skips none); the addresses of the records are the
addresses that the pool obtained from upstream, in order, and each of them is passed
to an upstream `deallocate` exactly once after it was obtained, namely by the
destructor. -/
theorem destructor_returns_blocks (up : Upstream) (hs : up.Sound) (log0 : List UpCall)
    (calls : List PoolCall) :
    (((run_calls up (cube_memory_resource.new, log0) calls).1.destructor
        (run_calls up (cube_memory_resource.new, log0) calls).2).1.blocks = []) ∧
    (((run_calls up (cube_memory_resource.new, log0) calls).1.destructor
        (run_calls up (cube_memory_resource.new, log0) calls).2).2
      = (run_calls up (cube_memory_resource.new, log0) calls).2 ++
        (run_calls up (cube_memory_resource.new, log0) calls).1.blocks.map
          (fun b => UpCall.deallocate b.ptr b.size b.alignment)) ∧
    ∃ post,
      (run_calls up (cube_memory_resource.new, log0) calls).2 = log0 ++ post ∧
      (run_calls up (cube_memory_resource.new, log0) calls).1.blocks.map (fun b => b.ptr)
        = obtained post ∧
      ((run_calls up (cube_memory_resource.new, log0) calls).1.destructor
        (run_calls up (cube_memory_resource.new, log0) calls).2).2
        = log0 ++ post ++
          (run_calls up (cube_memory_resource.new, log0) calls).1.blocks.map
            (fun b => UpCall.deallocate b.ptr b.size b.alignment) ∧
      ∀ pre sz al a rest, post = pre ++ UpCall.allocate sz al (some a) :: rest →
        (returned (rest ++
          (run_calls up (cube_memory_resource.new, log0) calls).1.blocks.map
            (fun b => UpCall.deallocate b.ptr b.size b.alignment))).count a = 1 := by
  have hnn : ∀ log bytes alignment, up log bytes alignment ≠ some 0 :=
    fun log bytes alignment h0 => (hs _ _ _ _ h0).1 rfl
  have hall : ((run_calls up (cube_memory_resource.new, log0) calls).1.destructor
        (run_calls up (cube_memory_resource.new, log0) calls).2).2
      = (run_calls up (cube_memory_resource.new, log0) calls).2 ++
        (run_calls up (cube_memory_resource.new, log0) calls).1.blocks.map
          (fun b => UpCall.deallocate b.ptr b.size b.alignment) := by
    have hz := run_calls_nonnull up hnn (cube_memory_resource.new, log0) calls
      (by simp [cube_memory_resource.new])
    have hd := destructor_fold (run_calls up (cube_memory_resource.new, log0) calls).1.blocks
      (run_calls up (cube_memory_resource.new, log0) calls).2
    rw [List.filter_eq_self.mpr] at hd
    · exact hd
    · intro b hb
      simpa using hz b.ptr (List.mem_map_of_mem _ hb)
  obtain ⟨post, h1, h2, h3⟩ := run_calls_log up log0 (cube_memory_resource.new, log0) calls []
    (by simp) (by simp [cube_memory_resource.new, obtained])
    (fun pre sz al a rest he => by simp at he)
  have hok := run_calls_poolOK up hs (cube_memory_resource.new, log0) calls (poolOK_new log0)
  refine ⟨rfl, hall, post, h1, h2, ?_, ?_⟩
  · rw [hall, h1]
  · intro pre sz al a rest he
    have hno := h3 pre sz al a rest he
    have hmem : a ∈ (run_calls up (cube_memory_resource.new, log0) calls).1.blocks.map
        (fun b => b.ptr) := by
      rw [h2, he, obtained_append]
      simp [obtained]
    rw [returned_append, returned_map_deallocate, List.count_append,
      List.count_eq_zero_of_not_mem hno, Nat.zero_add]
    exact List.count_eq_one_of_mem hok.1 hmem

/-- C17 for a pool with one free and one used record. -/
theorem destructor_returns_blocks_witness :
    bump_upstream.Sound ∧
    ((run_calls bump_upstream (cube_memory_resource.new, [])
        [PoolCall.allocate 16 8, PoolCall.allocate 100 8, PoolCall.deallocate 1 16 8]).1.blocks
      = [block_info.mk 1 64 8 false, block_info.mk 2 128 8 true]) ∧
    ((run_calls bump_upstream (cube_memory_resource.new, [])
        [PoolCall.allocate 16 8, PoolCall.allocate 100 8, PoolCall.deallocate 1 16 8]).1.destructor
      (run_calls bump_upstream (cube_memory_resource.new, [])
        [PoolCall.allocate 16 8, PoolCall.allocate 100 8, PoolCall.deallocate 1 16 8]).2).2
      = (run_calls bump_upstream (cube_memory_resource.new, [])
          [PoolCall.allocate 16 8, PoolCall.allocate 100 8, PoolCall.deallocate 1 16 8]).2 ++
        (run_calls bump_upstream (cube_memory_resource.new, [])
          [PoolCall.allocate 16 8, PoolCall.allocate 100 8,
           PoolCall.deallocate 1 16 8]).1.blocks.map
          (fun b => UpCall.deallocate b.ptr b.size b.alignment) :=
  ⟨bump_upstream_sound, by decide,
   (destructor_returns_blocks bump_upstream bump_upstream_sound []
    [PoolCall.allocate 16 8, PoolCall.allocate 100 8, PoolCall.deallocate 1 16 8]).2.1⟩

/-! ## Blocks in use and queue size; exception safety of `push` -/

theorem allocate_count (up : Upstream) (pool : cube_memory_resource) (log : List UpCall)
    (bytes alignment a : Nat) (hr : (do_allocate up pool log bytes alignment).ret = some a) :
    allocated_blocks (do_allocate up pool log bytes alignment).self
      = allocated_blocks pool + 1 := by
  unfold do_allocate at hr ⊢
  cases hf : find_if (fun block => !block.used && decide (block.size ≥ bytes)) pool.blocks with
  | some ib =>
    obtain ⟨i, b⟩ := ib
    obtain ⟨h1, h2, -⟩ := find_if_some _ _ _ _ hf
    simp only [Bool.and_eq_true, Bool.not_eq_true', decide_eq_true_eq] at h2
    exact countP_set_used_true pool.blocks i b h1 h2.1
  | none =>
    cases hup : up log (actual_size bytes) alignment with
    | none => simp [hf, hup] at hr
    | some x => simp [allocated_blocks, List.countP_append]

theorem allocate_none (up : Upstream) (pool : cube_memory_resource) (log : List UpCall)
    (bytes alignment : Nat) (hr : (do_allocate up pool log bytes alignment).ret = none) :
    (do_allocate up pool log bytes alignment).self = pool := by
  unfold do_allocate at hr ⊢
  cases hf : find_if (fun block => !block.used && decide (block.size ≥ bytes)) pool.blocks with
  | some ib => simp [hf] at hr
  | none =>
    cases hup : up log (actual_size bytes) alignment with
    | none => rfl
    | some x => simp [hf, hup] at hr

theorem owner_released (pool : cube_memory_resource) (log : List UpCall)
    (p bytes alignment : Nat) (b : block_info) (h : owner pool p = some b) :
    owner (do_deallocate pool log p bytes alignment).1 p = some { b with used := false } := by
  obtain ⟨j, hj, -⟩ := owner_set_used pool 0 false p b h
  obtain ⟨j', hj1, hj2⟩ := owner_set_used pool j false p b h
  rw [hj] at hj1
  simp only [Option.some.injEq, Prod.mk.injEq, and_true] at hj1
  subst hj1
  simp only [do_deallocate, hj]
  simpa using hj2

theorem resource_allocate_heap {T : Type} (up : Upstream) (w : World T)
    (mr bytes alignment : Nat) : (resource_allocate up w mr bytes alignment).2.heap = w.heap := by
  unfold resource_allocate
  split <;> rfl

theorem resource_deallocate_heap {T : Type} (w : World T) (mr ptr bytes alignment : Nat) :
    (resource_deallocate w mr ptr bytes alignment).heap = w.heap := by
  unfold resource_deallocate
  split <;> rfl

theorem push_alloc_fails {T : Type} (E : Env T) (q : pmr_queue) (w : World T) (v : T)
    (h : (resource_allocate E.upstream_allocate w q.m_allocator
      E.sizeof_Node E.alignof_Node).1 = none) :
    push E q w v = Outcome.throws Exception.upstream_failure
      (q, (resource_allocate E.upstream_allocate w q.m_allocator
        E.sizeof_Node E.alignof_Node).2) := by
  unfold push
  simp only [h]

theorem push_construct_fails {T : Type} (E : Env T) (q : pmr_queue) (w : World T) (v : T)
    (p : Nat)
    (h : (resource_allocate E.upstream_allocate w q.m_allocator
      E.sizeof_Node E.alignof_Node).1 = some p)
    (hp : p ≠ 0) (hc : E.construct_throws v = true) :
    push E q w v = Outcome.throws Exception.construct_failure
      (q, resource_deallocate
        (resource_allocate E.upstream_allocate w q.m_allocator
          E.sizeof_Node E.alignof_Node).2
        q.m_allocator p E.sizeof_Node E.alignof_Node) := by
  unfold push
  simp only [h, hp, hc, if_false, if_true]

theorem push_throws_cases {T : Type} (E : Env T) (q : pmr_queue) (w : World T) (v : T)
    (e : Exception) (s : pmr_queue × World T) (h : push E q w v = Outcome.throws e s) :
    ((resource_allocate E.upstream_allocate w q.m_allocator
        E.sizeof_Node E.alignof_Node).1 = none ∧ e = Exception.upstream_failure ∧
      s = (q, (resource_allocate E.upstream_allocate w q.m_allocator
        E.sizeof_Node E.alignof_Node).2)) ∨
    (∃ p, (resource_allocate E.upstream_allocate w q.m_allocator
        E.sizeof_Node E.alignof_Node).1 = some p ∧ p ≠ 0 ∧ E.construct_throws v = true ∧
      e = Exception.construct_failure ∧
      s = (q, resource_deallocate
        (resource_allocate E.upstream_allocate w q.m_allocator
          E.sizeof_Node E.alignof_Node).2
        q.m_allocator p E.sizeof_Node E.alignof_Node)) := by
  cases ha : (resource_allocate E.upstream_allocate w q.m_allocator
      E.sizeof_Node E.alignof_Node).1 with
  | none =>
    rw [push_alloc_fails E q w v ha] at h
    simp only [Outcome.throws.injEq] at h
    exact Or.inl ⟨rfl, h.1.symm, h.2.symm⟩
  | some p =>
    right
    by_cases hp : p = 0
    · unfold push at h
      simp [ha, hp] at h
    · by_cases hc : E.construct_throws v = true
      · rw [push_construct_fails E q w v p ha hp hc] at h
        simp only [Outcome.throws.injEq] at h
        exact ⟨p, rfl, hp, hc, h.1.symm, h.2.symm⟩
      · have hc' : E.construct_throws v = false := by simpa using hc
        unfold push at h
        simp only [ha, hp, hc', if_false, Bool.false_eq_true] at h
        split at h
        · split at h <;> simp at h
        · simp at h

theorem resource_allocate_pool {T : Type} (up : Upstream) (w : World T)
    (mr bytes alignment : Nat) (hr : mr ≠ DEFAULT_RESOURCE) :
    (resource_allocate up w mr bytes alignment).1
      = (do_allocate up (w.pools mr) w.upstream bytes alignment).ret ∧
    (resource_allocate up w mr bytes alignment).2.pools mr
      = (do_allocate up (w.pools mr) w.upstream bytes alignment).self ∧
    (resource_allocate up w mr bytes alignment).2.upstream
      = (do_allocate up (w.pools mr) w.upstream bytes alignment).upstream := by
  simp [resource_allocate, hr, World.set_pool]

theorem resource_deallocate_pool {T : Type} (w : World T) (mr ptr bytes alignment : Nat)
    (hr : mr ≠ DEFAULT_RESOURCE) :
    (resource_deallocate w mr ptr bytes alignment).pools mr
      = (do_deallocate (w.pools mr) w.upstream ptr bytes alignment).1 ∧
    (resource_deallocate w mr ptr bytes alignment).upstream
      = (do_deallocate (w.pools mr) w.upstream ptr bytes alignment).2 := by
  simp [resource_deallocate, hr, World.set_pool]

/-- A `push` that throws leaves the number of blocks in use in the bound pool as it
was; the block obtained for a node whose construction threw is free again. -/
theorem push_throws_count {T : Type} (E : Env T) (hs : E.upstream_allocate.Sound)
    (q : pmr_queue) (w : World T) (v : T) (e : Exception) (s : pmr_queue × World T)
    (hr : q.m_allocator ≠ DEFAULT_RESOURCE) (hp : PoolOK (w.pools q.m_allocator) w.upstream)
    (h : push E q w v = Outcome.throws e s) :
    allocated_blocks (s.2.pools q.m_allocator) = allocated_blocks (w.pools q.m_allocator) ∧
    ∀ p, (resource_allocate E.upstream_allocate w q.m_allocator
        E.sizeof_Node E.alignof_Node).1 = some p →
      ∃ c, owner (s.2.pools q.m_allocator) p = some c ∧ c.used = false := by
  obtain ⟨h1, h2, h3⟩ := resource_allocate_pool E.upstream_allocate w q.m_allocator
    E.sizeof_Node E.alignof_Node hr
  rcases push_throws_cases E q w v e s h with ⟨ha, -, hs'⟩ | ⟨p, ha, hp0, hc, -, hs'⟩
  · subst hs'
    simp only [h2]
    rw [h1] at ha
    rw [allocate_none _ _ _ _ _ ha]
    exact ⟨rfl, fun p hp' => by rw [h1, ha] at hp'; simp at hp'⟩
  · subst hs'
    obtain ⟨h4, -⟩ := resource_deallocate_pool
      (resource_allocate E.upstream_allocate w q.m_allocator E.sizeof_Node E.alignof_Node).2
      q.m_allocator p E.sizeof_Node E.alignof_Node hr
    simp only [h4, h2, h3]
    have ha' := ha
    rw [h1] at ha'
    obtain ⟨-, -, -, b, hb, hbu⟩ := allocate_fresh E.upstream_allocate hs
      (w.pools q.m_allocator) w.upstream E.sizeof_Node E.alignof_Node [] hp
      (fun _ hx => absurd hx (List.not_mem_nil _)) p ha'
    have hst := deallocate_stats _
      (do_allocate E.upstream_allocate (w.pools q.m_allocator) w.upstream
        E.sizeof_Node E.alignof_Node).upstream p E.sizeof_Node E.alignof_Node b hb hbu
    have hcnt := allocate_count E.upstream_allocate (w.pools q.m_allocator) w.upstream
      E.sizeof_Node E.alignof_Node p ha'
    refine ⟨by omega, ?_⟩
    intro p' hp'
    rw [ha] at hp'
    simp only [Option.some.injEq] at hp'
    subst hp'
    exact ⟨_, owner_released _ _ _ _ _ b hb, rfl⟩

theorem push_ok_count {T : Type} (E : Env T) (q q' : pmr_queue) (w w' : World T) (v : T)
    (hr : q.m_allocator ≠ DEFAULT_RESOURCE) (h : push E q w v = Outcome.ok () (q', w')) :
    allocated_blocks (w'.pools q.m_allocator)
      = allocated_blocks (w.pools q.m_allocator) + 1 := by
  obtain ⟨-, hpool, -⟩ := push_ok_pool E q q' w w' v hr h
  rw [hpool]
  exact allocate_count _ _ _ _ _ _ (push_ok_ret E q q' w w' v hr h)

theorem apply_inv_counted {T : Type} (E : Env T) (hs : E.upstream_allocate.Sound)
    (q : pmr_queue) (w : World T) (l : List Nat) (op : QueueOp T) (h : Inv q w l)
    (hc : allocated_blocks (w.pools q.m_allocator) = l.length) :
    ∃ q' w' l', (op.apply E q w).state? = some (q', w') ∧ Inv q' w' l' ∧
      allocated_blocks (w'.pools q'.m_allocator) = l'.length ∧
      q'.m_allocator = q.m_allocator := by
  have hp := h.2.2.2.2.1
  have hr := h.2.2.2.2.2.2
  cases op with
  | push v =>
    rcases push_inv E hs q w l v h with
      ⟨e, w1, hpush, -, hinv, -⟩ | ⟨a, q1, w1, hpush, hal, -, hinv, -⟩
    · refine ⟨q, w1, l, by simp [QueueOp.apply, hpush, Outcome.state?], hinv, ?_, rfl⟩
      have := (push_throws_count E hs q w v e (q, w1) hr hp hpush).1
      simp only at this
      rw [this, hc]
    · refine ⟨q1, w1, l ++ [a], by simp [QueueOp.apply, hpush, Outcome.state?], hinv, ?_, hal⟩
      rw [hal, push_ok_count E q q1 w w1 v hr hpush, hc]
      simp
  | pop =>
    cases l with
    | nil =>
      have he : q.empty = true := by simp [pmr_queue.empty, h.2.2.1]
      exact ⟨q, w, [], by simp [QueueOp.apply, pop, he, Outcome.state?], h, hc, rfl⟩
    | cons a rest =>
      obtain ⟨n, q1, w1, -, -, hpop, hal, hinv, -, hab, -⟩ := pop_inv E q w a rest h
      refine ⟨q1, w1, rest, by simp [QueueOp.apply, hpop, Outcome.state?], hinv, ?_, hal⟩
      rw [hal]
      simp only [List.length_cons] at hc
      omega
  | clear =>
    obtain ⟨q1, w1, hcl, hal, hinv, hab, -⟩ := clear_inv E q w l h
    refine ⟨q1, w1, [], by simp [QueueOp.apply, hcl, Outcome.state?], hinv, ?_, hal⟩
    rw [hal]
    simp only [List.length_nil]
    omega

theorem run_ops_inv_counted {T : Type} (E : Env T) (hs : E.upstream_allocate.Sound)
    (q : pmr_queue) (w : World T) (l : List Nat) (ops : List (QueueOp T)) (h : Inv q w l)
    (hc : allocated_blocks (w.pools q.m_allocator) = l.length) :
    ∃ q' w' l', run_ops E q w ops = some (q', w') ∧ Inv q' w' l' ∧
      allocated_blocks (w'.pools q'.m_allocator) = l'.length ∧
      q'.m_allocator = q.m_allocator := by
  induction ops generalizing q w l with
  | nil => exact ⟨q, w, l, rfl, h, hc, rfl⟩
  | cons op rest ih =>
    obtain ⟨q1, w1, l1, h1, hinv, hc1, hal⟩ := apply_inv_counted E hs q w l op h hc
    obtain ⟨q2, w2, l2, h2, hinv2, hc2, hal2⟩ := ih q1 w1 l1 hinv hc1
    exact ⟨q2, w2, l2, by simp [run_ops, h1, h2], hinv2, hc2, hal2.trans hal⟩

/-- C11 (blocks in use and queue size). For a new pool that one queue uses, with a
sound upstream resource: after every sequence of `push`, `pop` and `clear` calls on
the queue, throwing calls included, `allocated_blocks()` of the pool equals `size()`
of the queue; in particular it is 0 whenever the queue is empty. -/
theorem allocated_blocks_equals_size {T : Type} (E : Env T)
    (hs : E.upstream_allocate.Sound) (mr : Nat) (hr : mr ≠ DEFAULT_RESOURCE) (w : World T)
    (hfresh : w.pools mr = cube_memory_resource.new) (ops : List (QueueOp T)) :
    ∃ q' w', run_ops E (pmr_queue.new mr) w ops = some (q', w') ∧
      allocated_blocks (w'.pools mr) = q'.size ∧
      (q'.empty = true → allocated_blocks (w'.pools mr) = 0) := by
  have hp : PoolOK (w.pools mr) w.upstream := hfresh ▸ poolOK_new w.upstream
  obtain ⟨q', w', l', hrun, hinv, hc, hal⟩ := run_ops_inv_counted E hs (pmr_queue.new mr) w []
    ops (inv_new mr w hr hp) (by simp [pmr_queue.new, hfresh, allocated_blocks,
      cube_memory_resource.new])
  have hal' : q'.m_allocator = mr := hal
  rw [hal'] at hc
  have hsz : q'.size = l'.length := hinv.2.2.1
  refine ⟨q', w', hrun, by rw [hc, hsz], ?_⟩
  intro he
  have : q'.m_size = 0 := by simpa [pmr_queue.empty] using he
  have hsz0 : q'.size = 0 := this
  rw [hc, ← hsz, hsz0]

theorem allocated_blocks_equals_size_witness :
    demo_env.upstream_allocate.Sound ∧ 1 ≠ DEFAULT_RESOURCE ∧
    demo_world.pools 1 = cube_memory_resource.new ∧
    ∃ q' w', run_ops demo_env (pmr_queue.new 1) demo_world
        [QueueOp.push 1, QueueOp.push 2, QueueOp.pop, QueueOp.push 3] = some (q', w') ∧
      allocated_blocks (w'.pools 1) = q'.size ∧
      (q'.empty = true → allocated_blocks (w'.pools 1) = 0) :=
  ⟨bump_upstream_sound, by decide, rfl,
   allocated_blocks_equals_size demo_env bump_upstream_sound 1 (by decide) demo_world rfl
     [QueueOp.push 1, QueueOp.push 2, QueueOp.pop, QueueOp.push 3]⟩

/-- C15 (strong exception safety of `push`), for every queue state and value.
(1) When `allocate` of the bound memory resource throws, `push` throws that failure
and leaves the queue object, every node, the element sequence and the records of
every pool as they were. (2) When the allocation returns a block and the
construction of the element throws, `push` throws that failure after it has passed
the block to `deallocate` of the same memory resource, and leaves the queue object,
every node and the element sequence as they were. (3) In case (2), for a queue bound
to a pool that is consistent with a sound upstream resource, the record of the block
is free afterwards and `allocated_blocks()` of the pool equals its value before the
call. (4) With a sound upstream resource the address of the block in (2) is not
null. -/
theorem push_strong_exception_safety {T : Type} (E : Env T) (q : pmr_queue) (w : World T)
    (v : T) :
    ((resource_allocate E.upstream_allocate w q.m_allocator
        E.sizeof_Node E.alignof_Node).1 = none →
      ∃ w', push E q w v = Outcome.throws Exception.upstream_failure (q, w') ∧
        w'.heap = w.heap ∧ q.elements w' = q.elements w ∧
        ∀ r, (w'.pools r).blocks = (w.pools r).blocks) ∧
    (∀ p, (resource_allocate E.upstream_allocate w q.m_allocator
        E.sizeof_Node E.alignof_Node).1 = some p → p ≠ 0 → E.construct_throws v = true →
      push E q w v = Outcome.throws Exception.construct_failure
        (q, resource_deallocate
          (resource_allocate E.upstream_allocate w q.m_allocator
            E.sizeof_Node E.alignof_Node).2
          q.m_allocator p E.sizeof_Node E.alignof_Node) ∧
      (resource_deallocate
          (resource_allocate E.upstream_allocate w q.m_allocator
            E.sizeof_Node E.alignof_Node).2
          q.m_allocator p E.sizeof_Node E.alignof_Node).heap = w.heap ∧
      q.elements (resource_deallocate
          (resource_allocate E.upstream_allocate w q.m_allocator
            E.sizeof_Node E.alignof_Node).2
          q.m_allocator p E.sizeof_Node E.alignof_Node) = q.elements w) ∧
    (∀ p, (resource_allocate E.upstream_allocate w q.m_allocator
        E.sizeof_Node E.alignof_Node).1 = some p → E.construct_throws v = true →
      E.upstream_allocate.Sound → q.m_allocator ≠ DEFAULT_RESOURCE →
      PoolOK (w.pools q.m_allocator) w.upstream →
      ∃ w', push E q w v = Outcome.throws Exception.construct_failure (q, w') ∧
        allocated_blocks (w'.pools q.m_allocator)
          = allocated_blocks (w.pools q.m_allocator) ∧
        ∃ c, owner (w'.pools q.m_allocator) p = some c ∧ c.used = false) ∧
    (∀ p, (resource_allocate E.upstream_allocate w q.m_allocator
        E.sizeof_Node E.alignof_Node).1 = some p → E.upstream_allocate.Sound →
      (q.m_allocator ≠ DEFAULT_RESOURCE → PoolOK (w.pools q.m_allocator) w.upstream) →
      p ≠ 0) := by
  have hel : ∀ w' : World T, w'.heap = w.heap → q.elements w' = q.elements w := by
    intro w' hw
    simp only [pmr_queue.elements, pmr_queue.nodes, hw]
  have hnz : ∀ p, (resource_allocate E.upstream_allocate w q.m_allocator
        E.sizeof_Node E.alignof_Node).1 = some p → E.upstream_allocate.Sound →
      (q.m_allocator ≠ DEFAULT_RESOURCE → PoolOK (w.pools q.m_allocator) w.upstream) →
      p ≠ 0 := by
    intro p ha hs hp
    by_cases hr : q.m_allocator = DEFAULT_RESOURCE
    · simp only [resource_allocate, hr, if_true] at ha
      exact (hs _ _ _ _ ha).1
    · rw [(resource_allocate_pool _ w _ _ _ hr).1] at ha
      exact (allocate_fresh E.upstream_allocate hs (w.pools q.m_allocator) w.upstream
        E.sizeof_Node E.alignof_Node [] (hp hr)
        (fun _ hx => absurd hx (List.not_mem_nil _)) p ha).1
  refine ⟨?_, ?_, ?_, hnz⟩
  · intro ha
    refine ⟨_, push_alloc_fails E q w v ha, resource_allocate_heap _ _ _ _ _,
      hel _ (resource_allocate_heap _ _ _ _ _), ?_⟩
    intro r
    by_cases hr : q.m_allocator = DEFAULT_RESOURCE
    · simp [resource_allocate, hr]
    · rw [(resource_allocate_pool _ w _ _ _ hr).1] at ha
      have := allocate_none _ _ _ _ _ ha
      by_cases hrr : r = q.m_allocator
      · subst hrr
        rw [(resource_allocate_pool _ w _ _ _ hr).2.1, this]
      · simp [resource_allocate, hr, World.set_pool, hrr]
  · intro p ha hp hc
    have hh : (resource_deallocate
          (resource_allocate E.upstream_allocate w q.m_allocator
            E.sizeof_Node E.alignof_Node).2
          q.m_allocator p E.sizeof_Node E.alignof_Node).heap = w.heap := by
      rw [resource_deallocate_heap, resource_allocate_heap]
    exact ⟨push_construct_fails E q w v p ha hp hc, hh, hel _ hh⟩
  · intro p ha hc hs hr hp
    have hp0 := hnz p ha hs (fun _ => hp)
    have hpush := push_construct_fails E q w v p ha hp0 hc
    have hcnt := push_throws_count E hs q w v _ _ hr hp hpush
    exact ⟨_, hpush, hcnt.1, hcnt.2 p ha⟩

/-- C15 on a new queue bound to a new pool: with an upstream resource that has no
memory left `push(5)` throws the allocation failure, and with an element type whose
construction throws `push(13)` throws that failure and leaves no block in use. -/
theorem push_strong_exception_safety_witness :
    ((resource_allocate exhausted_env.upstream_allocate demo_world
        (pmr_queue.new 1).m_allocator exhausted_env.sizeof_Node
        exhausted_env.alignof_Node).1 = none ∧
      ∃ w', push exhausted_env (pmr_queue.new 1) demo_world 5
          = Outcome.throws Exception.upstream_failure (pmr_queue.new 1, w') ∧
        w'.heap = demo_world.heap ∧
        (pmr_queue.new 1).elements w' = (pmr_queue.new 1).elements demo_world ∧
        ∀ r, (w'.pools r).blocks = (demo_world.pools r).blocks) ∧
    ((resource_allocate throwing_env.upstream_allocate demo_world
        (pmr_queue.new 1).m_allocator throwing_env.sizeof_Node
        throwing_env.alignof_Node).1 = some 1 ∧
      throwing_env.construct_throws 13 = true ∧
      ∃ w', push throwing_env (pmr_queue.new 1) demo_world 13
          = Outcome.throws Exception.construct_failure (pmr_queue.new 1, w') ∧
        allocated_blocks (w'.pools (pmr_queue.new 1).m_allocator)
          = allocated_blocks (demo_world.pools (pmr_queue.new 1).m_allocator) ∧
        ∃ c, owner (w'.pools (pmr_queue.new 1).m_allocator) 1 = some c ∧ c.used = false) :=
  ⟨⟨by decide,
    (push_strong_exception_safety exhausted_env (pmr_queue.new 1) demo_world 5).1
      (by decide)⟩,
   ⟨by decide, by decide,
    (push_strong_exception_safety throwing_env (pmr_queue.new 1) demo_world 13).2.2.1 1
      (by decide) (by decide) bump_upstream_sound (by decide) (poolOK_new [])⟩⟩

/-! ## Links of a queue, whatever memory resource it is bound to -/

theorem isChain_unique {T : Type} (heap : Nat → Option (Node T)) (p : Nat) (l1 l2 : List Nat)
    (h1 : IsChain heap p l1) (h2 : IsChain heap p l2) : l1 = l2 := by
  induction l1 generalizing p l2 with
  | nil =>
    cases l2 with
    | nil => rfl
    | cons b r2 =>
      have hp : p = 0 := h1
      exact absurd (h2.1 ▸ hp) h2.2.1
  | cons a r1 ih =>
    cases l2 with
    | nil =>
      have hp : p = 0 := h2
      exact absurd (h1.1 ▸ hp) h1.2.1
    | cons b r2 =>
      obtain ⟨e1, -, n1, hn1, c1⟩ := h1
      obtain ⟨e2, -, n2, hn2, c2⟩ := h2
      have hab : a = b := e1.symm.trans e2
      subst hab
      rw [hn1] at hn2
      simp only [Option.some.injEq] at hn2
      subst hn2
      rw [ih _ _ c1 c2]

theorem isChain_suffix {T : Type} (heap : Nat → Option (Node T)) (p : Nat)
    (pre : List Nat) (x : Nat) (post : List Nat) (h : IsChain heap p (pre ++ x :: post)) :
    IsChain heap x (x :: post) := by
  induction pre generalizing p with
  | nil =>
    obtain ⟨-, h2, n, h3, h4⟩ := h
    exact ⟨rfl, h2, n, h3, h4⟩
  | cons a rest ih =>
    obtain ⟨-, -, n, -, h4⟩ := h
    exact ih _ h4

theorem isChain_nodup {T : Type} (heap : Nat → Option (Node T)) (p : Nat) (l : List Nat)
    (h : IsChain heap p l) : l.Nodup := by
  induction l generalizing p with
  | nil => exact List.nodup_nil
  | cons a rest ih =>
    have h' := h
    obtain ⟨e, ha0, n, hn, hc⟩ := h
    refine List.nodup_cons.mpr ⟨?_, ih _ hc⟩
    intro hmem
    obtain ⟨pre, post, hsplit⟩ := List.append_of_mem hmem
    have hsuf : IsChain heap a (a :: post) := by
      apply isChain_suffix heap n.next pre a post
      rw [← hsplit]
      exact hc
    have h'' : IsChain heap a (a :: rest) := ⟨rfl, ha0, n, hn, hc⟩
    have := isChain_unique heap a _ _ hsuf h''
    simp only [List.cons.injEq, true_and] at this
    have hlen := congrArg List.length hsplit
    rw [← this] at hlen
    simp at hlen
    omega

theorem linked_of_inv {T : Type} (q : pmr_queue) (w : World T) (l : List Nat)
    (h : Inv q w l) : Linked q w.heap l :=
  ⟨h.1, h.2.2.1, h.2.2.2.1, by
    rcases length_lt_of_nodup l (2 ^ 64) h.2.1 (inv_bounds q w l h) with h1 | h1
    · omega
    · subst h1; simp⟩

theorem linked_tail_zero {T : Type} (q : pmr_queue) (heap : Nat → Option (Node T))
    (l : List Nat) (h : Linked q heap l) : q.m_tail = 0 ↔ l = [] := by
  obtain ⟨hc, -, ht, -⟩ := h
  constructor
  · intro h0
    by_contra hl
    have hm := (isChain_last _ _ _ hc hl).1
    have := (isChain_mem _ _ _ hc _ hm).1
    exact this (ht ▸ h0)
  · intro hl
    subst hl
    exact ht

theorem linked_frame {T : Type} (q : pmr_queue) (heap heap' : Nat → Option (Node T))
    (l : List Nat) (h : Linked q heap l) (hf : ∀ a ∈ l, heap' a = heap a) :
    Linked q heap' l :=
  ⟨isChain_frame heap heap' _ l h.1 hf, h.2.1, h.2.2.1, h.2.2.2⟩

theorem linked_elements {T : Type} (q : pmr_queue) (w : World T) (l : List Nat)
    (h : Linked q w.heap l) : q.elements w = read_all w.heap l := by
  have := isChain_walk _ _ _ h.1
  simp [pmr_queue.elements, pmr_queue.nodes, h.2.1, this]

theorem linked_structural {T : Type} (q : pmr_queue) (w : World T) (l : List Nat)
    (h : Linked q w.heap l) : q.structural w := by
  have htz := linked_tail_zero q w.heap l h
  obtain ⟨hc, hsz, ht, -⟩ := h
  cases l with
  | nil =>
    have hh : q.m_head = 0 := hc
    have ht0 : q.m_tail = 0 := htz.mpr rfl
    refine ⟨by simp [hh, hsz], fun _ => ht0, fun hne => absurd ht0 hne, [], ?_,
      by simp [pmr_queue.size, hsz], by simp [ht0]⟩
    simp [pmr_queue.nodes, hsz, hh, walk]
  | cons a rest =>
    have hh : q.m_head = a := hc.1
    have ha0 : a ≠ 0 := hc.2.1
    have ht0 : q.m_tail ≠ 0 := fun e => by simpa using htz.mp e
    obtain ⟨hmem, n, hn, hn0⟩ := isChain_last _ _ _ hc (by simp)
    refine ⟨by simp [hh, ha0, hsz], fun e => by simp [hsz] at e, fun _ => ⟨n, ht ▸ hn, hn0⟩,
      a :: rest, ?_, by simp [pmr_queue.size, hsz], ?_⟩
    · have := isChain_walk _ _ _ hc
      simpa [pmr_queue.nodes, hsz] using this
    · have key : (a :: rest).getLast? = some q.m_tail := by
        rw [ht, List.getLast?_eq_getLast _ (by simp), List.getLastD_eq_getLast?,
          List.getLast?_eq_getLast _ (by simp)]
        rfl
      simp [key, ht0]

/-- What `pop()` does to a non-empty queue with nodes `a :: rest`. -/
theorem pop_linked {T : Type} (E : Env T) (q : pmr_queue) (w : World T) (a : Nat)
    (rest : List Nat) (h : Linked q w.heap (a :: rest)) :
    ∃ n q', w.heap a = some n ∧ q.m_head = a ∧
      pop E q w = Outcome.ok ()
        (q', resource_deallocate (w.store a none) q.m_allocator a
          E.sizeof_Node E.alignof_Node) ∧
      q'.m_allocator = q.m_allocator ∧
      Linked q' (w.store a none).heap rest ∧ a ∉ rest := by
  have hnd := isChain_nodup _ _ _ h.1
  obtain ⟨hc, hsz, ht, hlen⟩ := h
  obtain ⟨hh, ha0, n, hn, hc'⟩ := hc
  have hne : q.empty = false := by simp [pmr_queue.empty, hsz]
  have hn' : w.heap q.m_head = some n := hh ▸ hn
  have hanr : a ∉ rest := (List.nodup_cons.mp hnd).1
  unfold pop
  simp only [hne, Bool.false_eq_true, if_false, hn']
  rw [hh]
  refine ⟨n, _, hn, rfl, rfl, rfl, ⟨?_, ?_, ?_, ?_⟩, hanr⟩
  · apply isChain_frame w.heap _ _ _ hc'
    intro x hx
    have : x ≠ a := fun e => hanr (e ▸ hx)
    simp [World.store, this]
  · simp only [hsz, List.length_cons]
    simp only [List.length_cons] at hlen
    exact size_sub_one _ hlen
  · cases rest with
    | nil =>
      have : n.next = 0 := hc'
      simp [this]
    | cons y rest2 =>
      have : n.next ≠ 0 := hc'.1 ▸ hc'.2.1
      simp only [this, if_false, ht, List.getLastD_cons]
  · simp only [List.length_cons] at hlen
    omega

theorem structural_linked {T : Type} (q : pmr_queue) (w : World T) (h : q.structural w)
    (hlt : q.size < 2 ^ 64) : ∃ l, Linked q w.heap l ∧ l.length = q.size := by
  obtain ⟨-, -, -, l, hn, hlen, hlast⟩ := h
  refine ⟨l, ⟨walk_isChain _ _ _ _ hn, hlen.symm, ?_, hlen ▸ hlt⟩, hlen⟩
  by_cases ht : q.m_tail = 0
  · simp only [ht, if_true] at hlast
    have : l = [] := List.getLast?_eq_none_iff.mp hlast
    subst this
    simp [ht]
  · simp only [ht, if_false] at hlast
    rw [List.getLastD_eq_getLast?, hlast]
    rfl

theorem destroy_nodes_cons {T : Type} (E : Env T) (r a : Nat) (l : List Nat) (w : World T) :
    destroy_nodes E r (a :: l) w
      = destroy_nodes E r l
          (resource_deallocate (w.store a none) r a E.sizeof_Node E.alignof_Node) := rfl

theorem destroy_nodes_heap {T : Type} (E : Env T) (r : Nat) (l : List Nat) (w : World T)
    (x : Nat) : (destroy_nodes E r l w).heap x = if x ∈ l then none else w.heap x := by
  induction l generalizing w with
  | nil => simp [destroy_nodes]
  | cons a rest ih =>
    rw [destroy_nodes_cons, ih, resource_deallocate_heap]
    by_cases hx : x ∈ rest
    · simp [hx]
    · by_cases hxa : x = a
      · simp [hxa, World.store]
      · simp [hx, hxa, World.store]

/-- The first `k` of the pops that empty a queue with nodes `l`. -/
theorem pop_times_linked {T : Type} (E : Env T) (k : Nat) (q : pmr_queue) (w : World T)
    (l : List Nat) (h : Linked q w.heap l) (hk : k ≤ l.length) :
    ∃ qk, pop_times E k q w
        = Outcome.ok () (qk, destroy_nodes E q.m_allocator (l.take k) w) ∧
      qk.m_allocator = q.m_allocator ∧
      Linked qk (destroy_nodes E q.m_allocator (l.take k) w).heap (l.drop k) := by
  induction k generalizing q w l with
  | zero => exact ⟨q, rfl, rfl, h⟩
  | succ k ih =>
    cases l with
    | nil => simp at hk
    | cons a rest =>
      obtain ⟨n, q1, -, -, hpop, hal, hl1, -⟩ := pop_linked E q w a rest h
      have hl1' : Linked q1 (resource_deallocate (w.store a none) q.m_allocator a
          E.sizeof_Node E.alignof_Node).heap rest := by
        rw [resource_deallocate_heap]
        exact hl1
      obtain ⟨qk, h1, h2, h3⟩ := ih q1 _ rest hl1' (by simpa using hk)
      rw [hal] at h1 h2 h3
      refine ⟨qk, ?_, h2, ?_⟩
      · simp only [pop_times, hpop, List.take_succ_cons, destroy_nodes_cons]
        exact h1
      · simp only [List.take_succ_cons, List.drop_succ_cons, destroy_nodes_cons]
        exact h3

theorem clear_loop_linked {T : Type} (E : Env T) (fuel : Nat) (q : pmr_queue) (w : World T)
    (l : List Nat) (h : Linked q w.heap l) (hf : l.length ≤ fuel) :
    clear_loop E fuel q w = pop_times E l.length q w := by
  induction fuel generalizing q w l with
  | zero =>
    have hl : l = [] := List.length_eq_zero.mp (Nat.le_zero.mp hf)
    subst hl
    have he : q.empty = true := by simp [pmr_queue.empty, h.2.1]
    simp [clear_loop, he, pop_times]
  | succ k ih =>
    cases l with
    | nil =>
      have he : q.empty = true := by simp [pmr_queue.empty, h.2.1]
      simp [clear_loop, he, pop_times]
    | cons a rest =>
      have he : q.empty = false := by simp [pmr_queue.empty, h.2.1]
      obtain ⟨n, q1, -, -, hpop, hal, hl1, -⟩ := pop_linked E q w a rest h
      have hl1' : Linked q1 (resource_deallocate (w.store a none) q.m_allocator a
          E.sizeof_Node E.alignof_Node).heap rest := by
        rw [resource_deallocate_heap]
        exact hl1
      have := ih q1 _ rest hl1' (by simpa using hf)
      simp only [clear_loop, he, Bool.false_eq_true, if_false, hpop, List.length_cons,
        pop_times]
      exact this

/-- What `clear()` does to a queue with nodes `l`. -/
theorem clear_linked {T : Type} (E : Env T) (q : pmr_queue) (w : World T)
    (l : List Nat) (h : Linked q w.heap l) :
    clear E q w = pop_times E l.length q w ∧
    clear E q w = Outcome.ok ()
      ({ q with m_head := 0, m_tail := 0, m_size := 0 }, destroy_nodes E q.m_allocator l w) := by
  have h1 : clear E q w = pop_times E l.length q w :=
    clear_loop_linked E q.m_size q w l h (le_of_eq h.2.1.symm)
  refine ⟨h1, ?_⟩
  obtain ⟨qk, h2, h3, h4⟩ := pop_times_linked E l.length q w l h (le_refl _)
  simp only [List.take_length, List.drop_length] at h2 h4
  rw [h1, h2]
  obtain ⟨hc, hsz, ht, -⟩ := h4
  have hh : qk.m_head = 0 := hc
  have hs0 : qk.m_size = 0 := hsz
  have ht0 : qk.m_tail = 0 := ht
  cases qk
  simp only at hh hs0 ht0 h3
  subst hh hs0 ht0 h3
  rfl

/-- C12 (`clear()`). For every queue that satisfies the structural invariant, with
`n = size()` elements: `clear()` returns, and it is exactly `n` calls of `pop()`:
after `k < n` of them the queue has `n - k` elements and is not empty, so that the
loop goes on, and after `n` of them it is empty, so that the loop ends. Afterwards
`empty()` is true, `size()` is 0, `m_head` and `m_tail` are null and every former
node is destroyed. When, moreover, the nodes occupy blocks of the bound pool and
the pool has no other block in use (`allocated_blocks()` was `n`),
`allocated_blocks()` is 0 afterwards and `total_blocks()` is what it was. -/
theorem clear_pops_all {T : Type} (E : Env T) (q : pmr_queue) (w : World T)
    (h : q.structural w) (hlt : q.size < 2 ^ 64) :
    ∃ q' w', clear E q w = Outcome.ok () (q', w') ∧
      pop_times E q.size q w = Outcome.ok () (q', w') ∧
      (∀ k, k < q.size → ∃ qk wk, pop_times E k q w = Outcome.ok () (qk, wk) ∧
        qk.size = q.size - k ∧ qk.empty = false) ∧
      q'.empty = true ∧ q'.size = 0 ∧ q'.m_head = 0 ∧ q'.m_tail = 0 ∧
      q'.m_allocator = q.m_allocator ∧
      (∀ l, q.nodes w = some l → ∀ x ∈ l, w'.heap x = none) ∧
      (∀ l, Inv q w l → allocated_blocks (w.pools q.m_allocator) = q.size →
        allocated_blocks (w'.pools q.m_allocator) = 0 ∧
        total_blocks (w'.pools q.m_allocator) = total_blocks (w.pools q.m_allocator)) := by
  obtain ⟨l, hl, hlen⟩ := structural_linked q w h hlt
  obtain ⟨h1, h2⟩ := clear_linked E q w l hl
  refine ⟨_, _, h2, ?_, ?_, rfl, rfl, rfl, rfl, rfl, ?_, ?_⟩
  · rw [← hlen, ← h1, h2]
  · intro k hk
    obtain ⟨qk, hk1, -, hk3⟩ := pop_times_linked E k q w l hl (by omega)
    refine ⟨qk, _, hk1, ?_, ?_⟩
    · have : qk.size = (l.drop k).length := hk3.2.1
      rw [this, List.length_drop, hlen]
    · have : qk.m_size = (l.drop k).length := hk3.2.1
      simp only [pmr_queue.empty, this, List.length_drop, hlen, decide_eq_false_iff_not]
      omega
  · intro l' hl' x hx
    have hwalk := isChain_walk _ _ _ hl.1
    have : l' = l := by
      have h3 : q.nodes w = some l := by
        simp only [pmr_queue.nodes, hl.2.1]
        exact hwalk
      rw [h3] at hl'
      exact (Option.some.inj hl').symm
    subst this
    rw [destroy_nodes_heap]
    simp [hx]
  · intro l' hinv hcount
    obtain ⟨q1, w1, hcl, -, -, hab, htb⟩ := clear_inv E q w l' hinv
    rw [h2] at hcl
    simp only [Outcome.ok.injEq, Prod.mk.injEq, true_and] at hcl
    rw [hcl.2]
    have hsz : q.size = l'.length := hinv.2.2.1
    refine ⟨by omega, htb⟩

/-- C12 on the queue with the elements 1 and 2, which is the only user of pool 1. -/
theorem clear_pops_all_witness :
    demo_two.1.structural demo_two.2 ∧ demo_two.1.size < 2 ^ 64 ∧
    ∃ q' w', clear demo_env demo_two.1 demo_two.2 = Outcome.ok () (q', w') ∧
      pop_times demo_env demo_two.1.size demo_two.1 demo_two.2 = Outcome.ok () (q', w') ∧
      (∀ k, k < demo_two.1.size → ∃ qk wk,
        pop_times demo_env k demo_two.1 demo_two.2 = Outcome.ok () (qk, wk) ∧
        qk.size = demo_two.1.size - k ∧ qk.empty = false) ∧
      q'.empty = true ∧ q'.size = 0 ∧ q'.m_head = 0 ∧ q'.m_tail = 0 ∧
      q'.m_allocator = demo_two.1.m_allocator ∧
      (∀ l, demo_two.1.nodes demo_two.2 = some l → ∀ x ∈ l, w'.heap x = none) ∧
      (∀ l, Inv demo_two.1 demo_two.2 l →
        allocated_blocks (demo_two.2.pools demo_two.1.m_allocator) = demo_two.1.size →
        allocated_blocks (w'.pools demo_two.1.m_allocator) = 0 ∧
        total_blocks (w'.pools demo_two.1.m_allocator)
          = total_blocks (demo_two.2.pools demo_two.1.m_allocator)) :=
  ⟨by unfold pmr_queue.structural; decide, by decide,
   clear_pops_all demo_env demo_two.1 demo_two.2 (by unfold pmr_queue.structural; decide)
     (by decide)⟩

/-! ## Moving a queue -/

theorem linked_nodes {T : Type} (q : pmr_queue) (w : World T) (l : List Nat)
    (h : Linked q w.heap l) : q.nodes w = some l := by
  simp only [pmr_queue.nodes, h.2.1]
  exact isChain_walk _ _ _ h.1

/-- C14 (move construction and move assignment). For every source queue that
satisfies the structural invariant, with element sequence `s`: the move constructor
gives a queue with the element sequence `s` and `size() == |s|`, bound to the memory
resource of the source, and leaves the source with `m_head` and `m_tail` null,
`size() == 0` and `empty() == true`, without touching a node. For every target
queue that satisfies the structural invariant and shares no node with the source,
the move assignment returns; it first runs `clear()` on the target, which pops all
its elements, so that every former node of the target is destroyed and its block
passed to `deallocate`; afterwards the target has the element sequence `s` and
`size() == |s|` and is still bound to its own memory resource, and the source has
`m_head` and `m_tail` null, `size() == 0` and `empty() == true`. -/
theorem move_transfers_elements {T : Type} (E : Env T) (self other : pmr_queue)
    (w : World T) (s : List T) (hs : other.structural w) (hslt : other.size < 2 ^ 64)
    (helem : other.elements w = some s) :
    ((move_construct other).1.elements w = some s ∧
      (move_construct other).1.size = s.length ∧
      (move_construct other).1.m_allocator = other.m_allocator ∧
      (move_construct other).2.m_head = 0 ∧ (move_construct other).2.m_tail = 0 ∧
      (move_construct other).2.size = 0 ∧ (move_construct other).2.empty = true) ∧
    (self.structural w → self.size < 2 ^ 64 →
      (∀ lt ls, self.nodes w = some lt → other.nodes w = some ls → ∀ x ∈ lt, x ∉ ls) →
      ∃ self' other' w' qc, move_assign E self other w = Outcome.ok () ((self', other'), w') ∧
        clear E self w = Outcome.ok () (qc, w') ∧
        pop_times E self.size self w = Outcome.ok () (qc, w') ∧
        (∀ lt, self.nodes w = some lt →
          w' = destroy_nodes E self.m_allocator lt w ∧ ∀ x ∈ lt, w'.heap x = none) ∧
        self'.elements w' = some s ∧ self'.size = s.length ∧
        self'.m_allocator = self.m_allocator ∧
        other'.m_head = 0 ∧ other'.m_tail = 0 ∧ other'.size = 0 ∧ other'.empty = true) := by
  obtain ⟨ls, hls, hlens⟩ := structural_linked other w hs hslt
  have hrd : read_all w.heap ls = some s := by
    rw [← linked_elements other w ls hls]
    exact helem
  have hslen : s.length = ls.length := by
    obtain ⟨xs, hx1, hx2⟩ := isChain_read_all _ _ _ hls.1
    rw [hrd] at hx1
    rw [Option.some.inj hx1, hx2]
  have hsize : other.size = s.length := by rw [hslen, hlens]
  refine ⟨⟨helem, hsize, rfl, rfl, rfl, rfl, rfl⟩, ?_⟩
  intro ht htlt hdis
  obtain ⟨lt, hlt, hlent⟩ := structural_linked self w ht htlt
  obtain ⟨h1, h2⟩ := clear_linked E self w lt hlt
  have hd := hdis lt ls (linked_nodes self w lt hlt) (linked_nodes other w ls hls)
  have hframe : ∀ x ∈ ls, (destroy_nodes E self.m_allocator lt w).heap x = w.heap x := by
    intro x hx
    rw [destroy_nodes_heap]
    have : x ∉ lt := fun hx' => hd x hx' hx
    simp [this]
  refine ⟨{ m_head := other.m_head, m_tail := other.m_tail, m_size := other.m_size,
            m_allocator := self.m_allocator },
    { other with m_head := 0, m_tail := 0, m_size := 0 },
    destroy_nodes E self.m_allocator lt w,
    { self with m_head := 0, m_tail := 0, m_size := 0 },
    by simp only [move_assign, h2], h2, ?_, ?_, ?_, hsize, rfl, rfl, rfl, rfl, rfl⟩
  · rw [← hlent, ← h1, h2]
  · intro lt' hlt'
    rw [linked_nodes self w lt hlt] at hlt'
    have := Option.some.inj hlt'
    subst this
    refine ⟨rfl, fun x hx => ?_⟩
    rw [destroy_nodes_heap]
    simp [hx]
  · have hl' : Linked
        { m_head := other.m_head, m_tail := other.m_tail, m_size := other.m_size,
          m_allocator := self.m_allocator : pmr_queue }
        (destroy_nodes E self.m_allocator lt w).heap ls :=
      ⟨isChain_frame _ _ _ _ hls.1 hframe, hls.2.1, hls.2.2.1, hls.2.2.2⟩
    rw [linked_elements _ _ ls hl']
    rw [← hrd]
    exact read_all_congr _ _ _ (fun x hx => by rw [hframe x hx])

/-- C14 for the queue `b` with the element 7 moved into the queue `a` that holds 1
and 2. -/
theorem move_transfers_elements_witness :
    two_queues.1.2.structural two_queues.2 ∧ two_queues.1.2.size < 2 ^ 64 ∧
    two_queues.1.2.elements two_queues.2 = some [7] ∧
    two_queues.1.1.structural two_queues.2 ∧ two_queues.1.1.size < 2 ^ 64 ∧
    two_queues.1.1.elements two_queues.2 = some [1, 2] ∧
    ∃ self' other' w' qc,
      move_assign demo_env two_queues.1.1 two_queues.1.2 two_queues.2
        = Outcome.ok () ((self', other'), w') ∧
      clear demo_env two_queues.1.1 two_queues.2 = Outcome.ok () (qc, w') ∧
      pop_times demo_env two_queues.1.1.size two_queues.1.1 two_queues.2
        = Outcome.ok () (qc, w') ∧
      (∀ lt, two_queues.1.1.nodes two_queues.2 = some lt →
        w' = destroy_nodes demo_env two_queues.1.1.m_allocator lt two_queues.2 ∧
        ∀ x ∈ lt, w'.heap x = none) ∧
      self'.elements w' = some [7] ∧ self'.size = [7].length ∧
      self'.m_allocator = two_queues.1.1.m_allocator ∧
      other'.m_head = 0 ∧ other'.m_tail = 0 ∧ other'.size = 0 ∧ other'.empty = true :=
  ⟨by unfold pmr_queue.structural; decide, by decide, by decide,
   by unfold pmr_queue.structural; decide, by decide, by decide,
   (move_transfers_elements demo_env two_queues.1.1 two_queues.1.2 two_queues.2 [7]
     (by unfold pmr_queue.structural; decide) (by decide) (by decide)).2
     (by unfold pmr_queue.structural; decide) (by decide)
     (fun lt ls h1 h2 x hx => by
       have e1 : two_queues.1.1.nodes two_queues.2 = some [1, 2] := by decide
       have e2 : two_queues.1.2.nodes two_queues.2 = some [3] := by decide
       rw [e1] at h1
       rw [e2] at h2
       obtain rfl := Option.some.inj h1
       obtain rfl := Option.some.inj h2
       simp only [List.mem_cons, List.mem_singleton, List.not_mem_nil, or_false] at hx ⊢
       omega)⟩

/-! ## Iterators -/

theorem advance_to_end {T : Type} (heap : Nat → Option (Node T)) (p : Nat) (l : List Nat)
    (h : IsChain heap p l) : advance heap l.length ⟨p⟩ = some ⟨0⟩ := by
  induction l generalizing p with
  | nil =>
    have hp : p = 0 := h
    simp [advance, hp]
  | cons a rest ih =>
    obtain ⟨h1, h2, n, h3, h4⟩ := h
    subst h1
    simp only [List.length_cons, advance, queue_iterator.increment, ne_eq, h2,
      not_false_eq_true, if_true, h3]
    exact ih _ h4

theorem advance_within {T : Type} (heap : Nat → Option (Node T)) (p : Nat) (l : List Nat)
    (s : List T) (k : Nat) (h : IsChain heap p l) (hr : read_all heap l = some s)
    (hk : k < l.length) :
    ∃ it, advance heap k ⟨p⟩ = some it ∧ it.m_current ≠ 0 ∧ l[k]? = some it.m_current ∧
      ∃ x, it.deref heap = some x ∧ s[k]? = some x := by
  induction l generalizing p s k with
  | nil => simp at hk
  | cons a rest ih =>
    obtain ⟨h1, h2, n, h3, h4⟩ := h
    subst h1
    obtain ⟨m, ys, hm, hs, hys⟩ := read_all_cons heap p rest s hr
    rw [h3] at hm
    obtain rfl := Option.some.inj hm
    subst hs
    cases k with
    | zero =>
      exact ⟨⟨p⟩, rfl, h2, by simp, n.data, by simp [queue_iterator.deref, h2, h3], by simp⟩
    | succ k =>
      obtain ⟨it, hit, h0, hidx, x, hx, hsx⟩ := ih n.next ys k h4 hys (by simpa using hk)
      refine ⟨it, ?_, h0, by simpa using hidx, x, hx, by simpa using hsx⟩
      simp only [advance, queue_iterator.increment, ne_eq, h2, not_false_eq_true, if_true, h3]
      exact hit

theorem traverse_chain {T : Type} (heap : Nat → Option (Node T)) (p : Nat) (l : List Nat)
    (s : List T) (fuel : Nat) (h : IsChain heap p l) (hr : read_all heap l = some s)
    (hf : l.length ≤ fuel) : traverse heap fuel ⟨p⟩ ⟨0⟩ = some s := by
  induction l generalizing p s fuel with
  | nil =>
    have hp : p = 0 := h
    simp only [read_all, Option.some.injEq] at hr
    subst hr hp
    cases fuel <;> simp [traverse, queue_iterator.ne]
  | cons a rest ih =>
    obtain ⟨h1, h2, n, h3, h4⟩ := h
    subst h1
    obtain ⟨m, ys, hm, hs, hys⟩ := read_all_cons heap p rest s hr
    rw [h3] at hm
    obtain rfl := Option.some.inj hm
    subst hs
    cases fuel with
    | zero => simp at hf
    | succ fuel =>
      have := ih n.next ys fuel h4 hys (by simpa using hf)
      simp [traverse, queue_iterator.ne, h2, queue_iterator.deref, queue_iterator.increment,
        h3, this]

theorem advance_succ {T : Type} (heap : Nat → Option (Node T)) (k : Nat)
    (it : queue_iterator) :
    advance heap (k + 1) it
      = match advance heap k it with
        | some it1 => it1.increment heap
        | none => none := by
  induction k generalizing it with
  | zero =>
    simp only [advance]
    cases it.increment heap <;> rfl
  | succ k ih =>
    rw [advance]
    cases hi : it.increment heap with
    | none => simp [advance, hi]
    | some it1 =>
      simp only [ih it1]
      rw [advance, hi]

theorem advance_post_eq {T : Type} (heap : Nat → Option (Node T)) (k : Nat)
    (it : queue_iterator) : advance_post heap k it = advance heap k it := by
  induction k generalizing it with
  | zero => rfl
  | succ k ih =>
    simp only [advance_post, advance, queue_iterator.post_increment]
    cases hi : it.increment heap with
    | none => rfl
    | some it1 => exact ih it1

/-- C16 (iteration). For every queue that satisfies the structural invariant, with
element sequence `s` of length `n = size()`: for `k < n`, the iterator reached from
`begin()` by `k` increments is not `end()` and dereferences to `s[k]`; the iterator
reached by `n` increments is `end()`; `begin() == end()` exactly when the queue is
empty; incrementing an iterator that equals `end()` leaves it as it is; two
iterators are equal exactly when they hold the same node address, which is the null
address for both when both are at the end, and `!=` is the negation of `==`; the
loop from `begin()` to `end()` and the loop from `cbegin()` to `cend()` both end
within `n` iterations, however many more are allowed, and read `s`; for `k < n`,
`it++` on the iterator reached by `k` increments returns that iterator and leaves
the one reached by `k + 1` increments; `it++` on an iterator that equals `end()`
returns it and leaves it as it is; `k` statements `it++` from `begin()` reach the
iterator that `k` statements `++it` reach, which is `end()` for `k = n`. -/
theorem iteration_yields_elements {T : Type} (q : pmr_queue) (w : World T) (s : List T)
    (h : q.structural w) (hlt : q.size < 2 ^ 64) (helem : q.elements w = some s) :
    s.length = q.size ∧
    (∀ k, k < q.size → ∃ it x, advance w.heap k q.begin = some it ∧
      it.ne q.end_ = true ∧ it.eq q.end_ = false ∧
      it.deref w.heap = some x ∧ s[k]? = some x) ∧
    advance w.heap q.size q.begin = some q.end_ ∧
    (q.begin.eq q.end_ = true ↔ q.empty = true) ∧
    (∀ it : queue_iterator, it.eq q.end_ = true → it.increment w.heap = some it) ∧
    (∀ a b : queue_iterator,
      (a.eq b = true ↔ a.m_current = b.m_current) ∧ a.ne b = !a.eq b ∧
      (a.eq q.end_ = true → b.eq q.end_ = true → a.eq b = true)) ∧
    (∀ fuel, q.size ≤ fuel →
      traverse w.heap fuel q.begin q.end_ = some s ∧
      traverse w.heap fuel q.cbegin q.cend = some s) ∧
    (∀ k, k < q.size → ∃ it it1, advance w.heap k q.begin = some it ∧
      advance w.heap (k + 1) q.begin = some it1 ∧
      it.post_increment w.heap = some (it, it1)) ∧
    (∀ it : queue_iterator, it.eq q.end_ = true →
      it.post_increment w.heap = some (it, it)) ∧
    (∀ k, advance_post w.heap k q.begin = advance w.heap k q.begin) ∧
    advance_post w.heap q.size q.begin = some q.end_ := by
  obtain ⟨l, hl, hlen⟩ := structural_linked q w h hlt
  have hrd : read_all w.heap l = some s := by
    rw [← linked_elements q w l hl]
    exact helem
  have hslen : s.length = l.length := by
    obtain ⟨xs, hx1, hx2⟩ := isChain_read_all _ _ _ hl.1
    rw [hrd] at hx1
    rw [Option.some.inj hx1, hx2]
  have hend : advance w.heap q.size q.begin = some q.end_ := by
    rw [← hlen]
    exact advance_to_end w.heap q.m_head l hl.1
  refine ⟨by rw [hslen, hlen], ?_, ?_, ?_, ?_, ?_, ?_, ?_, ?_, ?_, ?_⟩
  · intro k hk
    obtain ⟨it, hit, h0, -, x, hx, hsx⟩ := advance_within w.heap q.m_head l s k hl.1 hrd
      (by omega)
    exact ⟨it, x, hit, by simp [queue_iterator.ne, pmr_queue.end_, h0],
      by simp [queue_iterator.eq, pmr_queue.end_, h0], hx, hsx⟩
  · rw [← hlen]
    exact advance_to_end w.heap q.m_head l hl.1
  · simp only [queue_iterator.eq, pmr_queue.begin, pmr_queue.end_, pmr_queue.empty,
      decide_eq_true_eq]
    exact h.1
  · intro it hit
    simp only [queue_iterator.eq, pmr_queue.end_, decide_eq_true_eq] at hit
    simp [queue_iterator.increment, hit]
  · intro a b
    refine ⟨by simp [queue_iterator.eq], by simp [queue_iterator.eq, queue_iterator.ne], ?_⟩
    intro ha hb
    simp only [queue_iterator.eq, pmr_queue.end_, decide_eq_true_eq] at ha hb ⊢
    rw [ha, hb]
  · intro fuel hf
    have := traverse_chain w.heap q.m_head l s fuel hl.1 hrd (by omega)
    exact ⟨this, this⟩
  · intro k hk
    obtain ⟨it, hit, -, -, -, -, -⟩ := advance_within w.heap q.m_head l s k hl.1 hrd
      (by omega)
    have hit' : advance w.heap k q.begin = some it := hit
    have hsucc := advance_succ w.heap k q.begin
    rw [hit'] at hsucc
    have hex : ∃ it1, advance w.heap (k + 1) q.begin = some it1 := by
      by_cases hk1 : k + 1 < l.length
      · obtain ⟨it1, h1, -⟩ := advance_within w.heap q.m_head l s (k + 1) hl.1 hrd hk1
        exact ⟨it1, h1⟩
      · have hk2 : k + 1 = q.size := by omega
        rw [hk2]
        exact ⟨_, hend⟩
    obtain ⟨it1, h1⟩ := hex
    refine ⟨it, it1, hit', h1, ?_⟩
    rw [h1] at hsucc
    have hinc : it.increment w.heap = some it1 := hsucc.symm
    simp only [queue_iterator.post_increment, hinc]
  · intro it hit
    simp only [queue_iterator.eq, pmr_queue.end_, decide_eq_true_eq] at hit
    simp [queue_iterator.post_increment, queue_iterator.increment, hit]
  · intro k
    exact advance_post_eq w.heap k q.begin
  · rw [advance_post_eq]
    exact hend

/-- C16 for the queue with the elements 1 and 2. -/
theorem iteration_yields_elements_witness :
    demo_two.1.structural demo_two.2 ∧ demo_two.1.size < 2 ^ 64 ∧
    demo_two.1.elements demo_two.2 = some [1, 2] ∧
    advance demo_two.2.heap demo_two.1.size demo_two.1.begin = some demo_two.1.end_ ∧
    (∀ fuel, demo_two.1.size ≤ fuel →
      traverse demo_two.2.heap fuel demo_two.1.begin demo_two.1.end_ = some [1, 2] ∧
      traverse demo_two.2.heap fuel demo_two.1.cbegin demo_two.1.cend = some [1, 2]) ∧
    demo_two.1.begin.post_increment demo_two.2.heap
      = some (demo_two.1.begin, queue_iterator.mk 2) ∧
    advance_post demo_two.2.heap demo_two.1.size demo_two.1.begin = some demo_two.1.end_ :=
  ⟨by unfold pmr_queue.structural; decide, by decide, by decide,
   (iteration_yields_elements demo_two.1 demo_two.2 [1, 2]
     (by unfold pmr_queue.structural; decide) (by decide) (by decide)).2.2.1,
   (iteration_yields_elements demo_two.1 demo_two.2 [1, 2]
     (by unfold pmr_queue.structural; decide) (by decide) (by decide)).2.2.2.2.2.2.1,
   by decide,
   (iteration_yields_elements demo_two.1 demo_two.2 [1, 2]
     (by unfold pmr_queue.structural; decide) (by decide) (by decide)).2.2.2.2.2.2.2.2.2.2⟩

/-! ## Ownership of the nodes across pools -/

/-- C18 (node ownership), evaluated on two queues bound to two pools: `a` on pool 1
holds 1 and 2, `b` on pool 2 holds 7 in the node at address 3, whose block pool 2
records as in use. After `a = std::move(b)` the queue `a` is still bound to pool 1
and its only node is the one at address 3, for which pool 1 has no record: the node
does not occupy a block of the pool bound to the queue. The following `a.pop()`
returns; pool 1 forwards the address 3 to the upstream resource, with the size of a
node, while pool 2 still records the block as in use, so that the destructor of
pool 2 passes the address 3 to the upstream resource a second time. -/
theorem move_assign_breaks_ownership :
    (two_queues.1.1.m_allocator = 1 ∧ two_queues.1.2.m_allocator = 2 ∧
      two_queues.1.1.nodes two_queues.2 = some [1, 2] ∧
      two_queues.1.2.nodes two_queues.2 = some [3] ∧
      owner (two_queues.2.pools 1) 1 = some (block_info.mk 1 64 8 true) ∧
      owner (two_queues.2.pools 1) 2 = some (block_info.mk 2 64 8 true) ∧
      owner (two_queues.2.pools 2) 3 = some (block_info.mk 3 64 8 true)) ∧
    ((move_assign demo_env two_queues.1.1 two_queues.1.2 two_queues.2).returns = true ∧
      crossed_moved.1.1.m_allocator = 1 ∧
      crossed_moved.1.1.nodes crossed_moved.2 = some [3] ∧
      crossed_moved.1.1.elements crossed_moved.2 = some [7] ∧
      owner (crossed_moved.2.pools 1) 3 = none ∧
      owner (crossed_moved.2.pools 2) 3 = some (block_info.mk 3 64 8 true) ∧
      ¬ Owned (crossed_moved.2.pools crossed_moved.1.1.m_allocator) [3]) ∧
    ((pop demo_env crossed_moved.1.1 crossed_moved.2).returns = true ∧
      crossed_moved.2.upstream
        = [UpCall.allocate 64 8 (some 1), UpCall.allocate 64 8 (some 2),
           UpCall.allocate 64 8 (some 3)] ∧
      crossed_popped.2.upstream
        = [UpCall.allocate 64 8 (some 1), UpCall.allocate 64 8 (some 2),
           UpCall.allocate 64 8 (some 3), UpCall.deallocate 3 16 8] ∧
      owner (crossed_popped.2.pools 2) 3 = some (block_info.mk 3 64 8 true) ∧
      allocated_blocks (crossed_popped.2.pools 2) = 1 ∧
      ((crossed_popped.2.pools 2).destructor crossed_popped.2.upstream).2
        = [UpCall.allocate 64 8 (some 1), UpCall.allocate 64 8 (some 2),
           UpCall.allocate 64 8 (some 3), UpCall.deallocate 3 16 8,
           UpCall.deallocate 3 64 8]) := by
  refine ⟨by decide, ⟨by decide, by decide, by decide, by decide, by decide, by decide, ?_⟩,
    by decide⟩
  intro h
  obtain ⟨b, hb, -⟩ := h 3 (List.mem_singleton.mpr rfl)
  have hn : owner (crossed_moved.2.pools crossed_moved.1.1.m_allocator) 3 = none := by decide
  rw [hn] at hb
  exact Option.noConfusion hb

/-! ## Several queues and several pools in one world -/

theorem poolOK_log_allocate (pool : cube_memory_resource) (log : List UpCall)
    (bytes alignment : Nat) (r : Option Nat) (h : PoolOK pool log) :
    PoolOK pool (log ++ [UpCall.allocate bytes alignment r]) := by
  refine ⟨h.1, fun p hp => ?_⟩
  obtain ⟨h1, h2, h3⟩ := h.2 p hp
  refine ⟨h1, h2, ?_⟩
  rw [live_append]
  cases r with
  | none => exact h3
  | some a => exact List.mem_cons_of_mem _ h3

theorem poolOK_log_deallocate (pool : cube_memory_resource) (log : List UpCall)
    (p bytes alignment : Nat) (h : PoolOK pool log)
    (hp : p ∉ pool.blocks.map (fun b => b.ptr)) :
    PoolOK pool (log ++ [UpCall.deallocate p bytes alignment]) := by
  refine ⟨h.1, fun x hx => ?_⟩
  obtain ⟨h1, h2, h3⟩ := h.2 x hx
  refine ⟨h1, h2, ?_⟩
  rw [live_append]
  have hne : x ≠ p := fun e => hp (e ▸ hx)
  exact (List.mem_erase_of_ne hne).mpr h3

theorem do_allocate_cases (up : Upstream) (pool : cube_memory_resource) (log : List UpCall)
    (bytes alignment : Nat) :
    ((do_allocate up pool log bytes alignment).upstream = log ∧
      (do_allocate up pool log bytes alignment).self.blocks.map (fun b => b.ptr)
        = pool.blocks.map (fun b => b.ptr) ∧
      ∃ a, (do_allocate up pool log bytes alignment).ret = some a ∧
        a ∈ pool.blocks.map (fun b => b.ptr)) ∨
    (∃ a, up log (actual_size bytes) alignment = some a ∧
      (do_allocate up pool log bytes alignment).ret = some a ∧
      (do_allocate up pool log bytes alignment).upstream
        = log ++ [UpCall.allocate (actual_size bytes) alignment (some a)] ∧
      (do_allocate up pool log bytes alignment).self.blocks.map (fun b => b.ptr)
        = pool.blocks.map (fun b => b.ptr) ++ [a]) ∨
    ((do_allocate up pool log bytes alignment).ret = none ∧
      (do_allocate up pool log bytes alignment).self = pool ∧
      (do_allocate up pool log bytes alignment).upstream
        = log ++ [UpCall.allocate (actual_size bytes) alignment none]) := by
  unfold do_allocate
  cases hf : find_if (fun block => !block.used && decide (block.size ≥ bytes)) pool.blocks with
  | some ib =>
    obtain ⟨i, b⟩ := ib
    left
    obtain ⟨h1, -, -⟩ := find_if_some _ _ _ _ hf
    exact ⟨rfl, set_used_ptrs _ _ _, b.ptr, rfl,
      List.mem_map.mpr ⟨b, List.getElem?_mem h1, rfl⟩⟩
  | none =>
    cases hup : up log (actual_size bytes) alignment with
    | none => exact Or.inr (Or.inr ⟨rfl, rfl, rfl⟩)
    | some a => exact Or.inr (Or.inl ⟨a, rfl, rfl, rfl, by simp⟩)

theorem do_deallocate_cases (pool : cube_memory_resource) (log : List UpCall)
    (p bytes alignment : Nat) :
    ((do_deallocate pool log p bytes alignment).2 = log ∧
      p ∈ pool.blocks.map (fun b => b.ptr)) ∨
    (do_deallocate pool log p bytes alignment
        = (pool, log ++ [UpCall.deallocate p bytes alignment]) ∧
      p ∉ pool.blocks.map (fun b => b.ptr)) := by
  unfold do_deallocate
  cases hf : find_if (fun info => decide (info.ptr = p)) pool.blocks with
  | some ib =>
    obtain ⟨i, b⟩ := ib
    left
    obtain ⟨h1, h2, -⟩ := find_if_some _ _ _ _ hf
    simp only [decide_eq_true_eq] at h2
    exact ⟨rfl, List.mem_map.mpr ⟨b, List.getElem?_mem h1, h2⟩⟩
  | none =>
    right
    refine ⟨rfl, fun hm => ?_⟩
    obtain ⟨b, hb, hbp⟩ := List.mem_map.mp hm
    have := (find_if_none_iff _ _).mp hf b hb
    simp [hbp] at this

theorem hosted_store {T : Type} (w : World T) (a : Nat) (n : Option (Node T)) (r : Nat)
    (l : List Nat) : Hosted (w.store a n) r l ↔ Hosted w r l := Iff.rfl

theorem worldOK_store {T : Type} (w : World T) (a : Nat) (n : Option (Node T)) :
    WorldOK (w.store a n) ↔ WorldOK w := Iff.rfl

theorem hosted_subset {T : Type} (w : World T) (r : Nat) (l l' : List Nat)
    (h : Hosted w r l) (hs : ∀ x ∈ l', x ∈ l) : Hosted w r l' := by
  unfold Hosted at h ⊢
  split
  · rename_i hr
    simp only [hr, if_true] at h
    exact fun a ha => h a (hs a ha)
  · rename_i hr
    simp only [hr, if_false] at h
    exact fun a ha => h a (hs a ha)

theorem hosted_append {T : Type} (w : World T) (r : Nat) (l1 l2 : List Nat)
    (h1 : Hosted w r l1) (h2 : Hosted w r l2) : Hosted w r (l1 ++ l2) := by
  unfold Hosted at h1 h2 ⊢
  split
  · rename_i hr
    simp only [hr, if_true] at h1 h2
    intro a ha
    rcases List.mem_append.mp ha with ha | ha
    · exact h1 a ha
    · exact h2 a ha
  · rename_i hr
    simp only [hr, if_false] at h1 h2
    intro a ha
    rcases List.mem_append.mp ha with ha | ha
    · exact h1 a ha
    · exact h2 a ha

theorem hosted_nil {T : Type} (w : World T) (r : Nat) : Hosted w r [] := by
  unfold Hosted
  split <;> exact fun a ha => absurd ha (List.not_mem_nil _)

/-- What hosting means for one address. -/
theorem hosted_mem {T : Type} (w : World T) (hw : WorldOK w) (r : Nat) (l : List Nat)
    (h : Hosted w r l) (a : Nat) (ha : a ∈ l) :
    a ≠ 0 ∧ a < 2 ^ 64 ∧ a ∈ live w.upstream ∧
    (r = DEFAULT_RESOURCE →
      ∀ k, k ≠ DEFAULT_RESOURCE → a ∉ (w.pools k).blocks.map (fun b => b.ptr)) ∧
    (r ≠ DEFAULT_RESOURCE →
      (∃ b, owner (w.pools r) a = some b ∧ b.used = true) ∧
      a ∈ (w.pools r).blocks.map (fun b => b.ptr) ∧
      ∀ k, k ≠ DEFAULT_RESOURCE → k ≠ r → a ∉ (w.pools k).blocks.map (fun b => b.ptr)) := by
  unfold Hosted at h
  by_cases hr : r = DEFAULT_RESOURCE
  · simp only [hr, if_true] at h
    obtain ⟨h1, h2, h3, h4⟩ := h a ha
    exact ⟨h1, h2, h3, fun _ => h4, fun hne => absurd hr hne⟩
  · simp only [hr, if_false] at h
    obtain ⟨b, hb, hu⟩ := h a ha
    obtain ⟨hb1, hb2⟩ := owner_mem _ _ _ hb
    have hmem : a ∈ (w.pools r).blocks.map (fun b => b.ptr) := List.mem_map.mpr ⟨b, hb1, hb2⟩
    obtain ⟨h1, h2, h3⟩ := (hw.1 r hr).2 a hmem
    exact ⟨h1, h2, h3, fun e => absurd e hr,
      fun _ => ⟨⟨b, hb, hu⟩, hmem, fun k hk hkr => hw.2 r k hr hk (Ne.symm hkr) a hmem⟩⟩

theorem resource_allocate_default {T : Type} (up : Upstream) (w : World T)
    (bytes alignment : Nat) :
    (resource_allocate up w DEFAULT_RESOURCE bytes alignment).1 = up w.upstream bytes alignment ∧
    (resource_allocate up w DEFAULT_RESOURCE bytes alignment).2.pools = w.pools ∧
    (resource_allocate up w DEFAULT_RESOURCE bytes alignment).2.upstream
      = w.upstream ++ [UpCall.allocate bytes alignment (up w.upstream bytes alignment)] := by
  simp [resource_allocate]

theorem resource_allocate_other {T : Type} (up : Upstream) (w : World T)
    (mr bytes alignment k : Nat) (hk : k ≠ mr) :
    (resource_allocate up w mr bytes alignment).2.pools k = w.pools k := by
  unfold resource_allocate
  split
  · rfl
  · simp [World.set_pool, hk]

theorem resource_deallocate_default {T : Type} (w : World T) (ptr bytes alignment : Nat) :
    (resource_deallocate w DEFAULT_RESOURCE ptr bytes alignment).pools = w.pools ∧
    (resource_deallocate w DEFAULT_RESOURCE ptr bytes alignment).upstream
      = w.upstream ++ [UpCall.deallocate ptr bytes alignment] := by
  simp [resource_deallocate]

theorem resource_deallocate_other {T : Type} (w : World T) (mr ptr bytes alignment k : Nat)
    (hk : k ≠ mr) : (resource_deallocate w mr ptr bytes alignment).pools k = w.pools k := by
  unfold resource_deallocate
  split
  · rfl
  · simp [World.set_pool, hk]

/-- The upstream log after an allocation on any memory resource: the log before,
or the log before and one more `allocate` call. -/
theorem resource_allocate_log {T : Type} (up : Upstream) (w : World T)
    (mr bytes alignment : Nat) :
    (resource_allocate up w mr bytes alignment).2.upstream = w.upstream ∨
    ∃ b r, (resource_allocate up w mr bytes alignment).2.upstream
      = w.upstream ++ [UpCall.allocate b alignment r] := by
  by_cases hr : mr = DEFAULT_RESOURCE
  · subst hr
    exact Or.inr ⟨_, _, (resource_allocate_default up w bytes alignment).2.2⟩
  · rw [(resource_allocate_pool up w mr bytes alignment hr).2.2]
    rcases do_allocate_cases up (w.pools mr) w.upstream bytes alignment with
      h | ⟨a, -, -, h, -⟩ | ⟨-, -, h⟩
    · exact Or.inl h.1
    · exact Or.inr ⟨_, _, h⟩
    · exact Or.inr ⟨_, _, h⟩

theorem live_allocate_mono {T : Type} (up : Upstream) (w : World T)
    (mr bytes alignment x : Nat) (h : x ∈ live w.upstream) :
    x ∈ live (resource_allocate up w mr bytes alignment).2.upstream := by
  rcases resource_allocate_log up w mr bytes alignment with h1 | ⟨b, r, h1⟩
  · rw [h1]; exact h
  · rw [h1, live_append]
    cases r with
    | none => exact h
    | some a => exact List.mem_cons_of_mem _ h

/-- The record addresses of a pool after an allocation on any memory resource: those
before, and possibly one more, which the upstream resource did not have handed
out. -/
theorem resource_allocate_ptrs {T : Type} (up : Upstream) (hs : up.Sound) (w : World T)
    (mr bytes alignment k : Nat) :
    ∀ p ∈ ((resource_allocate up w mr bytes alignment).2.pools k).blocks.map (fun b => b.ptr),
      p ∈ (w.pools k).blocks.map (fun b => b.ptr) ∨
      (k = mr ∧ p ∉ live w.upstream ∧
        (resource_allocate up w mr bytes alignment).1 = some p) := by
  intro p hp
  by_cases hk : k = mr
  · subst hk
    by_cases hr : k = DEFAULT_RESOURCE
    · subst hr
      rw [(resource_allocate_default up w bytes alignment).2.1] at hp
      exact Or.inl hp
    · obtain ⟨h1, h2, -⟩ := resource_allocate_pool up w k bytes alignment hr
      rw [h2] at hp
      rcases do_allocate_cases up (w.pools k) w.upstream bytes alignment with
        ⟨-, h, -⟩ | ⟨a, hup, hret, -, h⟩ | ⟨-, h, -⟩
      · rw [h] at hp; exact Or.inl hp
      · rw [h] at hp
        rcases List.mem_append.mp hp with hp | hp
        · exact Or.inl hp
        · simp only [List.mem_singleton] at hp
          subst hp
          exact Or.inr ⟨rfl, (hs _ _ _ _ hup).2.2, h1 ▸ hret⟩
      · rw [h] at hp; exact Or.inl hp
  · rw [resource_allocate_other up w mr bytes alignment k hk] at hp
    exact Or.inl hp

theorem worldOK_allocate {T : Type} (up : Upstream) (hs : up.Sound) (w : World T)
    (mr bytes alignment : Nat) (hw : WorldOK w) :
    WorldOK (resource_allocate up w mr bytes alignment).2 := by
  constructor
  · intro k hk
    by_cases hkr : k = mr
    · subst hkr
      obtain ⟨-, h2, h3⟩ := resource_allocate_pool up w k bytes alignment hk
      rw [h2, h3]
      exact poolOK_allocate up hs _ _ _ _ (hw.1 k hk)
    · rw [resource_allocate_other up w mr bytes alignment k hkr]
      rcases resource_allocate_log up w mr bytes alignment with h1 | ⟨b, r, h1⟩
      · rw [h1]; exact hw.1 k hk
      · rw [h1]; exact poolOK_log_allocate _ _ _ _ _ (hw.1 k hk)
  · intro r1 r2 h1 h2 h12 p hp hp2
    rcases resource_allocate_ptrs up hs w mr bytes alignment r1 p hp with
      hq | ⟨e1, hl1, -⟩ <;>
    rcases resource_allocate_ptrs up hs w mr bytes alignment r2 p hp2 with
      hq2 | ⟨e2, hl2, -⟩
    · exact hw.2 r1 r2 h1 h2 h12 p hq hq2
    · exact hl2 ((hw.1 r1 h1).2 p hq).2.2
    · exact hl1 ((hw.1 r2 h2).2 p hq2).2.2
    · exact h12 (e1.trans e2.symm)

theorem hosted_allocate {T : Type} (up : Upstream) (hs : up.Sound) (w : World T)
    (mr bytes alignment : Nat) (hw : WorldOK w) (r : Nat) (l : List Nat)
    (h : Hosted w r l) : Hosted (resource_allocate up w mr bytes alignment).2 r l := by
  have hm := hosted_mem w hw r l h
  unfold Hosted
  split
  · rename_i hr
    intro a ha
    obtain ⟨h1, h2, h3, h4, -⟩ := hm a ha
    refine ⟨h1, h2, live_allocate_mono up w mr bytes alignment a h3, ?_⟩
    intro k hk hmem
    rcases resource_allocate_ptrs up hs w mr bytes alignment k a hmem with hq | ⟨-, hl, -⟩
    · exact h4 hr k hk hq
    · exact hl h3
  · rename_i hr
    unfold Hosted at h
    simp only [hr, if_false] at h
    by_cases hrm : r = mr
    · subst hrm
      rw [(resource_allocate_pool up w r bytes alignment hr).2.1]
      exact owned_allocate up _ _ _ _ l h
    · rw [resource_allocate_other up w mr bytes alignment r hrm]
      exact h

/-- The address that an allocation returns is not null, fits a pointer, is the
address of no block that any memory resource has handed out, and is handed out by
the memory resource afterwards. -/
theorem allocate_outside {T : Type} (up : Upstream) (hs : up.Sound) (w : World T)
    (mr bytes alignment a : Nat) (hw : WorldOK w)
    (ha : (resource_allocate up w mr bytes alignment).1 = some a) :
    a ≠ 0 ∧ a < 2 ^ 64 ∧ (∀ r l, Hosted w r l → a ∉ l) ∧
    Hosted (resource_allocate up w mr bytes alignment).2 mr [a] := by
  by_cases hr : mr = DEFAULT_RESOURCE
  · subst hr
    obtain ⟨h1, h2, h3⟩ := resource_allocate_default up w bytes alignment
    rw [h1] at ha
    obtain ⟨ha0, halt, hal⟩ := hs _ _ _ _ ha
    refine ⟨ha0, halt, ?_, ?_⟩
    · intro r l hl hmem
      exact hal (hosted_mem w hw r l hl a hmem).2.2.1
    · unfold Hosted
      simp only [if_true, List.mem_singleton]
      intro x hx
      subst hx
      refine ⟨ha0, halt, ?_, ?_⟩
      · rw [h3, live_append, ha]
        exact List.mem_cons_self _ _
      · intro k hk hmem
        rw [h2] at hmem
        exact hal ((hw.1 k hk).2 x hmem).2.2
  · obtain ⟨h1, h2, h3⟩ := resource_allocate_pool up w mr bytes alignment hr
    rw [h1] at ha
    obtain ⟨ha0, halt, -, b, hb, hbu⟩ := allocate_fresh up hs (w.pools mr) w.upstream
      bytes alignment [] (hw.1 mr hr) (fun _ hx => absurd hx (List.not_mem_nil _)) a ha
    refine ⟨ha0, halt, ?_, ?_⟩
    · intro r l hl hmem
      obtain ⟨-, -, hlive, hdef, hpool⟩ := hosted_mem w hw r l hl a hmem
      by_cases hrm : r = mr
      · subst hrm
        unfold Hosted at hl
        simp only [hr, if_false] at hl
        exact (allocate_fresh up hs (w.pools r) w.upstream bytes alignment l
          (hw.1 r hr) hl a ha).2.2.1 hmem
      · have hnot : a ∉ (w.pools mr).blocks.map (fun b => b.ptr) := by
          by_cases hrd : r = DEFAULT_RESOURCE
          · exact hdef hrd mr hr
          · exact (hpool hrd).2.2 mr hr (Ne.symm hrm)
        rcases do_allocate_cases up (w.pools mr) w.upstream bytes alignment with
          ⟨-, -, x, hx, hxm⟩ | ⟨x, hup, hx, -, -⟩ | ⟨hx, -, -⟩
        · rw [ha] at hx
          obtain rfl := Option.some.inj hx
          exact hnot hxm
        · rw [ha] at hx
          obtain rfl := Option.some.inj hx
          exact (hs _ _ _ _ hup).2.2 hlive
        · rw [ha] at hx
          exact Option.noConfusion hx
    · unfold Hosted
      simp only [hr, if_false, h2]
      intro x hx
      simp only [List.mem_singleton] at hx
      subst hx
      exact ⟨b, hb, hbu⟩

theorem worldOK_deallocate {T : Type} (w : World T) (mr p bytes alignment : Nat)
    (hw : WorldOK w) (hp : Hosted w mr [p]) :
    WorldOK (resource_deallocate w mr p bytes alignment) := by
  obtain ⟨-, -, -, hdef, hpool⟩ := hosted_mem w hw mr [p] hp p (List.mem_singleton.mpr rfl)
  by_cases hr : mr = DEFAULT_RESOURCE
  · subst hr
    obtain ⟨h1, h2⟩ := resource_deallocate_default w p bytes alignment
    constructor
    · intro k hk
      rw [h1, h2]
      exact poolOK_log_deallocate _ _ _ _ _ (hw.1 k hk) (hdef rfl k hk)
    · rw [h1]
      exact hw.2
  · obtain ⟨h1, h2⟩ := resource_deallocate_pool w mr p bytes alignment hr
    have hlog : (do_deallocate (w.pools mr) w.upstream p bytes alignment).2 = w.upstream := by
      rcases do_deallocate_cases (w.pools mr) w.upstream p bytes alignment with h | h
      · exact h.1
      · exact absurd (hpool hr).2.1 h.2
    have hptrs : ∀ k, ((resource_deallocate w mr p bytes alignment).pools k).blocks.map
        (fun b => b.ptr) = (w.pools k).blocks.map (fun b => b.ptr) := by
      intro k
      by_cases hk : k = mr
      · subst hk
        rw [h1, do_deallocate_ptrs]
      · rw [resource_deallocate_other w mr p bytes alignment k hk]
    constructor
    · intro k hk
      by_cases hkr : k = mr
      · subst hkr
        rw [h1, h2]
        exact poolOK_deallocate _ _ _ _ _ (hw.1 k hk)
      · rw [resource_deallocate_other w mr p bytes alignment k hkr, h2, hlog]
        exact hw.1 k hk
    · intro r1 r2 hr1 hr2 h12 x hx
      rw [hptrs] at hx ⊢
      exact hw.2 r1 r2 hr1 hr2 h12 x hx

theorem hosted_deallocate {T : Type} (w : World T) (mr p bytes alignment : Nat)
    (hw : WorldOK w) (hp : Hosted w mr [p]) (r : Nat) (l : List Nat) (h : Hosted w r l)
    (hpl : p ∉ l) : Hosted (resource_deallocate w mr p bytes alignment) r l := by
  have hm := hosted_mem w hw r l h
  obtain ⟨-, -, -, hdef, hpool⟩ := hosted_mem w hw mr [p] hp p (List.mem_singleton.mpr rfl)
  have hptrs : ∀ k, ((resource_deallocate w mr p bytes alignment).pools k).blocks.map
      (fun b => b.ptr) = (w.pools k).blocks.map (fun b => b.ptr) := by
    intro k
    by_cases hk : k = mr
    · subst hk
      by_cases hr : k = DEFAULT_RESOURCE
      · subst hr
        rw [(resource_deallocate_default w p bytes alignment).1]
      · rw [(resource_deallocate_pool w k p bytes alignment hr).1, do_deallocate_ptrs]
    · rw [resource_deallocate_other w mr p bytes alignment k hk]
  have hlive : ∀ x, x ≠ p → x ∈ live w.upstream →
      x ∈ live (resource_deallocate w mr p bytes alignment).upstream := by
    intro x hxp hx
    by_cases hr : mr = DEFAULT_RESOURCE
    · subst hr
      rw [(resource_deallocate_default w p bytes alignment).2, live_append]
      exact (List.mem_erase_of_ne hxp).mpr hx
    · rw [(resource_deallocate_pool w mr p bytes alignment hr).2]
      rcases do_deallocate_cases (w.pools mr) w.upstream p bytes alignment with h1 | h1
      · rw [h1.1]; exact hx
      · exact absurd (hpool hr).2.1 h1.2
  unfold Hosted
  split
  · rename_i hr
    intro a ha
    obtain ⟨h1, h2, h3, h4, -⟩ := hm a ha
    refine ⟨h1, h2, hlive a (fun e => hpl (e ▸ ha)) h3, ?_⟩
    intro k hk
    rw [hptrs]
    exact h4 hr k hk
  · rename_i hr
    unfold Hosted at h
    simp only [hr, if_false] at h
    by_cases hrm : r = mr
    · subst hrm
      rw [(resource_deallocate_pool w r p bytes alignment hr).1]
      exact owned_deallocate _ _ _ _ _ l h hpl
    · rw [resource_deallocate_other w mr p bytes alignment r hrm]
      exact h

theorem destroy_nodes_ok {T : Type} (E : Env T) (mr : Nat) (l : List Nat) (w : World T)
    (hw : WorldOK w) (hl : Hosted w mr l) (hnd : l.Nodup) :
    WorldOK (destroy_nodes E mr l w) ∧
    ∀ r l', Hosted w r l' → (∀ x ∈ l, x ∉ l') → Hosted (destroy_nodes E mr l w) r l' := by
  induction l generalizing w with
  | nil => exact ⟨hw, fun r l' h _ => h⟩
  | cons a rest ih =>
    rw [destroy_nodes_cons]
    have ha : Hosted (w.store a none) mr [a] :=
      (hosted_store w a none mr [a]).mpr
        (hosted_subset w mr _ [a] hl (fun x hx => by
          simp only [List.mem_singleton] at hx
          subst hx
          exact List.mem_cons_self _ _))
    have hw1 : WorldOK (w.store a none) := (worldOK_store w a none).mpr hw
    have hnr : a ∉ rest := (List.nodup_cons.mp hnd).1
    have hrest : Hosted (w.store a none) mr rest :=
      (hosted_store w a none mr rest).mpr
        (hosted_subset w mr _ rest hl (fun x hx => List.mem_cons_of_mem _ hx))
    have hw2 := worldOK_deallocate (w.store a none) mr a E.sizeof_Node E.alignof_Node hw1 ha
    have hrest2 := hosted_deallocate (w.store a none) mr a E.sizeof_Node E.alignof_Node
      hw1 ha mr rest hrest hnr
    obtain ⟨h1, h2⟩ := ih _ hw2 hrest2 (List.nodup_cons.mp hnd).2
    refine ⟨h1, fun r l' h hd => ?_⟩
    apply h2 r l'
    · exact hosted_deallocate (w.store a none) mr a E.sizeof_Node E.alignof_Node hw1 ha r l'
        ((hosted_store w a none r l').mpr h) (hd a (List.mem_cons_self _ _))
    · exact fun x hx => hd x (List.mem_cons_of_mem _ hx)

theorem hosted_congr {T : Type} (w w' : World T) (hp : w'.pools = w.pools)
    (hu : w'.upstream = w.upstream) (r : Nat) (l : List Nat) :
    Hosted w' r l ↔ Hosted w r l := by
  unfold Hosted
  rw [hp, hu]

theorem worldOK_congr {T : Type} (w w' : World T) (hp : w'.pools = w.pools)
    (hu : w'.upstream = w.upstream) : WorldOK w' ↔ WorldOK w := by
  unfold WorldOK
  rw [hp, hu]

/-- What `push(v)` does to a queue with nodes `l` when the allocation returns the
address `a` of a block that is not a node of the queue, and the construction of the
element does not throw. -/
theorem push_linked {T : Type} (E : Env T) (q : pmr_queue) (w : World T) (l : List Nat)
    (v : T) (a : Nat) (h : Linked q w.heap l)
    (ha : (resource_allocate E.upstream_allocate w q.m_allocator
      E.sizeof_Node E.alignof_Node).1 = some a)
    (ha0 : a ≠ 0) (hal : a ∉ l) (hlen : l.length + 1 < 2 ^ 64)
    (hct : E.construct_throws v = false) :
    ∃ q' w', push E q w v = Outcome.ok () (q', w') ∧ q'.m_allocator = q.m_allocator ∧
      w'.pools = (resource_allocate E.upstream_allocate w q.m_allocator
        E.sizeof_Node E.alignof_Node).2.pools ∧
      w'.upstream = (resource_allocate E.upstream_allocate w q.m_allocator
        E.sizeof_Node E.alignof_Node).2.upstream ∧
      Linked q' w'.heap (l ++ [a]) ∧
      (∀ x, x ∉ l → x ≠ a → w'.heap x = w.heap x) ∧
      (∀ xs, read_all w.heap l = some xs →
        read_all w'.heap (l ++ [a]) = some (xs ++ [v])) := by
  have hnd := isChain_nodup _ _ _ h.1
  have htz := linked_tail_zero q w.heap l h
  obtain ⟨hc, hsz, ht, -⟩ := h
  have hheap := resource_allocate_heap E.upstream_allocate w q.m_allocator
    E.sizeof_Node E.alignof_Node
  unfold push
  simp only [ha]
  generalize (resource_allocate E.upstream_allocate w q.m_allocator
    E.sizeof_Node E.alignof_Node).2 = w1 at hheap ⊢
  have hlen' : (l ++ [a]).length < 2 ^ 64 := by
    simp only [List.length_append, List.length_singleton]
    exact hlen
  by_cases htail : q.m_tail = 0
  · have hl : l = [] := htz.mp htail
    subst hl
    have hhead : q.m_head = 0 := hc
    simp only [ha0, hct, htail, if_false, ne_eq, not_true_eq_false, Bool.false_eq_true]
    refine ⟨_, _, rfl, rfl, rfl, rfl, ⟨?_, ?_, by simp, hlen'⟩, ?_, ?_⟩
    · exact ⟨rfl, ha0, ⟨v, 0⟩, by simp [World.store], rfl⟩
    · simp only [List.nil_append, List.length_singleton]
      rw [hsz]
      exact size_add_one 0 (by norm_num)
    · intro x _ hxa
      simp [World.store, hxa, hheap]
    · intro xs hxs
      simp only [read_all, Option.some.injEq] at hxs
      subst hxs
      simp [read_all, World.store]
  · have hl : l ≠ [] := fun e => htail (htz.mpr e)
    obtain ⟨hmem, t, hth, -⟩ := isChain_last _ _ _ hc hl
    rw [← ht] at hmem hth
    have hta : q.m_tail ≠ a := fun e => hal (e ▸ hmem)
    have hw2 : (w1.store a (some ⟨v, 0⟩)).heap q.m_tail = some t := by
      simp [World.store, hta, hth, hheap]
    simp only [ha0, hct, htail, if_false, ne_eq, not_false_eq_true, if_true, hw2,
      Bool.false_eq_true]
    refine ⟨_, _, rfl, rfl, rfl, rfl, ⟨?_, ?_, by simp, hlen'⟩, ?_, ?_⟩
    · apply isChain_snoc w.heap _ q.m_head l a v t hc hnd hl hal ha0 (ht ▸ hth)
      · simp [World.store, Ne.symm hta]
      · rw [← ht]
        simp [World.store]
      · intro x hxa hxt
        rw [← ht] at hxt
        simp [World.store, hxa, hxt, hheap]
    · simp only [List.length_append, List.length_singleton]
      rw [hsz]
      exact size_add_one _ hlen
    · intro x hxl hxa
      have hxt : x ≠ q.m_tail := fun e => hxl (e ▸ hmem)
      simp [World.store, hxa, hxt, hheap]
    · intro xs hxs
      refine read_all_snoc _ l a xs ⟨v, 0⟩ ?_ ?_
      · rw [← hxs]
        apply read_all_congr
        intro x hx
        have hxa : x ≠ a := fun e => hal (e ▸ hx)
        by_cases hxt : x = q.m_tail
        · subst hxt
          simp [World.store, hth]
        · simp [World.store, hxa, hxt, hheap]
      · simp [World.store, Ne.symm hta]

theorem queueOK_bounds {T : Type} (q : pmr_queue) (w : World T) (l : List Nat)
    (hw : WorldOK w) (h : QueueOK q w l) : ∀ a ∈ l, a ≠ 0 ∧ a < 2 ^ 64 := by
  intro a ha
  obtain ⟨h1, h2, -⟩ := hosted_mem w hw q.m_allocator l h.2 a ha
  exact ⟨h1, h2⟩

theorem queueOK_new {T : Type} (mr : Nat) (w : World T) : QueueOK (pmr_queue.new mr) w [] :=
  ⟨⟨rfl, rfl, rfl, by simp⟩, hosted_nil w mr⟩

/-- What `push(v)` does to a queue in a consistent state, in a world with other
queues and pools. -/
theorem push_general {T : Type} (E : Env T) (hs : E.upstream_allocate.Sound)
    (q : pmr_queue) (w : World T) (l : List Nat) (v : T) (hw : WorldOK w)
    (hq : QueueOK q w l) :
    (∃ e w', push E q w v = Outcome.throws e (q, w') ∧ w'.heap = w.heap ∧ WorldOK w' ∧
      (∀ r l', Hosted w r l' → Hosted w' r l')) ∨
    (∃ a q' w', push E q w v = Outcome.ok () (q', w') ∧ q'.m_allocator = q.m_allocator ∧
      WorldOK w' ∧ QueueOK q' w' (l ++ [a]) ∧ a ∉ l ∧
      (∀ r l', Hosted w r l' → Hosted w' r l' ∧ a ∉ l') ∧
      (∀ x, x ∉ l → x ≠ a → w'.heap x = w.heap x) ∧
      (∀ xs, read_all w.heap l = some xs →
        read_all w'.heap (l ++ [a]) = some (xs ++ [v]))) := by
  have hW := worldOK_allocate E.upstream_allocate hs w q.m_allocator
    E.sizeof_Node E.alignof_Node hw
  have hH := hosted_allocate E.upstream_allocate hs w q.m_allocator
    E.sizeof_Node E.alignof_Node hw
  cases ha : (resource_allocate E.upstream_allocate w q.m_allocator
      E.sizeof_Node E.alignof_Node).1 with
  | none =>
    left
    exact ⟨_, _, push_alloc_fails E q w v ha, resource_allocate_heap _ _ _ _ _, hW, hH⟩
  | some a =>
    obtain ⟨ha0, halt, hout, hself⟩ := allocate_outside E.upstream_allocate hs w q.m_allocator
      E.sizeof_Node E.alignof_Node a hw ha
    by_cases hct : E.construct_throws v = true
    · left
      refine ⟨_, _, push_construct_fails E q w v a ha ha0 hct, ?_, ?_, ?_⟩
      · rw [resource_deallocate_heap, resource_allocate_heap]
      · exact worldOK_deallocate _ _ _ _ _ hW hself
      · intro r l' h
        exact hosted_deallocate _ _ _ _ _ hW hself r l' (hH r l' h) (hout r l' h)
    · right
      have hct' : E.construct_throws v = false := by simpa using hct
      have hal : a ∉ l := hout _ _ hq.2
      have hnd' : (l ++ [a]).Nodup := by
        rw [List.nodup_append]
        refine ⟨isChain_nodup _ _ _ hq.1.1, by simp, ?_⟩
        intro x hx hx'
        simp only [List.mem_singleton] at hx'
        exact hal (hx' ▸ hx)
      have hbnd : ∀ x ∈ l ++ [a], x ≠ 0 ∧ x < 2 ^ 64 := by
        intro x hx
        rcases List.mem_append.mp hx with hx | hx
        · exact queueOK_bounds q w l hw hq x hx
        · simp only [List.mem_singleton] at hx
          subst hx
          exact ⟨ha0, halt⟩
      have hlen : l.length + 1 < 2 ^ 64 := by
        rcases length_lt_of_nodup (l ++ [a]) (2 ^ 64) hnd' hbnd with h1 | h1
        · simp only [List.length_append, List.length_singleton] at h1
          omega
        · simp at h1
      obtain ⟨q', w', hpush, hal', hp, hu, hlk, hfr, hrd⟩ :=
        push_linked E q w l v a hq.1 ha ha0 hal hlen hct'
      refine ⟨a, q', w', hpush, hal', (worldOK_congr _ w' hp hu).mpr hW, ⟨hlk, ?_⟩, hal, ?_,
        hfr, hrd⟩
      · rw [hal']
        exact (hosted_congr _ w' hp hu _ _).mpr
          (hosted_append _ _ _ _ (hH _ _ hq.2) hself)
      · intro r l' h
        exact ⟨(hosted_congr _ w' hp hu _ _).mpr (hH r l' h), hout r l' h⟩

/-- What `pop()` does to a non-empty queue in a consistent state, in a world with
other queues and pools. -/
theorem pop_general {T : Type} (E : Env T) (q : pmr_queue) (w : World T) (a : Nat)
    (rest : List Nat) (hw : WorldOK w) (hq : QueueOK q w (a :: rest)) :
    ∃ q' w', pop E q w = Outcome.ok () (q', w') ∧ q'.m_allocator = q.m_allocator ∧
      WorldOK w' ∧ QueueOK q' w' rest ∧
      (∀ r l', Hosted w r l' → a ∉ l' → Hosted w' r l') ∧
      (∀ x, x ≠ a → w'.heap x = w.heap x) := by
  obtain ⟨n, q', -, -, hpop, hal, hlk, hanr⟩ := pop_linked E q w a rest hq.1
  have ha : Hosted (w.store a none) q.m_allocator [a] :=
    (hosted_store w a none _ [a]).mpr
      (hosted_subset w _ _ [a] hq.2 (fun x hx => by
        simp only [List.mem_singleton] at hx
        subst hx
        exact List.mem_cons_self _ _))
  have hw1 : WorldOK (w.store a none) := (worldOK_store w a none).mpr hw
  refine ⟨q', _, hpop, hal, worldOK_deallocate _ _ _ _ _ hw1 ha, ⟨?_, ?_⟩, ?_, ?_⟩
  · rw [resource_deallocate_heap]
    exact hlk
  · rw [hal]
    apply hosted_deallocate _ _ _ _ _ hw1 ha _ _ _ hanr
    exact (hosted_store w a none _ rest).mpr
      (hosted_subset w _ _ rest hq.2 (fun x hx => List.mem_cons_of_mem _ hx))
  · intro r l' h hal'
    exact hosted_deallocate _ _ _ _ _ hw1 ha r l' ((hosted_store w a none r l').mpr h) hal'
  · intro x hx
    rw [resource_deallocate_heap]
    simp [World.store, hx]

/-- What `clear()` does to a queue in a consistent state, in a world with other
queues and pools. -/
theorem clear_general {T : Type} (E : Env T) (q : pmr_queue) (w : World T)
    (l : List Nat) (hw : WorldOK w) (hq : QueueOK q w l) :
    ∃ q' w', clear E q w = Outcome.ok () (q', w') ∧ q'.m_allocator = q.m_allocator ∧
      WorldOK w' ∧ QueueOK q' w' [] ∧
      (∀ r l', Hosted w r l' → (∀ x ∈ l, x ∉ l') → Hosted w' r l') ∧
      (∀ x, x ∉ l → w'.heap x = w.heap x) := by
  obtain ⟨-, h2⟩ := clear_linked E q w l hq.1
  obtain ⟨h3, h4⟩ := destroy_nodes_ok E q.m_allocator l w hw hq.2 (isChain_nodup _ _ _ hq.1.1)
  refine ⟨_, _, h2, rfl, h3, ⟨⟨rfl, rfl, rfl, by simp⟩, hosted_nil _ _⟩, h4, ?_⟩
  intro x hx
  rw [destroy_nodes_heap]
  simp [hx]

theorem front_back_frame {T : Type} (q : pmr_queue) (w w' : World T) (l : List Nat)
    (h : Linked q w.heap l) (hf : ∀ x ∈ l, w'.heap x = w.heap x) :
    (front q w').value? = (front q w).value? ∧ (back q w').value? = (back q w).value? := by
  by_cases he : q.empty = true
  · simp [front, back, he, Outcome.value?]
  · have he' : q.empty = false := by simpa using he
    have hl : l ≠ [] := by
      intro e
      subst e
      simp [pmr_queue.empty, h.2.1] at he
    obtain ⟨hmem, -⟩ := isChain_last _ _ _ h.1 hl
    have hhead : q.m_head ∈ l := by
      cases l with
      | nil => exact absurd rfl hl
      | cons a rest =>
        have : q.m_head = a := h.1.1
        rw [this]
        exact List.mem_cons_self _ _
    rw [← h.2.2.1] at hmem
    simp only [front, back, he', Bool.false_eq_true, if_false, hf _ hhead, hf _ hmem]
    constructor
    · cases w.heap q.m_head <;> rfl
    · cases w.heap q.m_tail <;> rfl

/-- One call on the queue `a` in a world with another queue `b` that shares no node
with it: the call does not misbehave, both queues stay in a consistent state without
a common node, and no node of `b` changes. -/
theorem apply_frame {T : Type} (E : Env T) (hs : E.upstream_allocate.Sound)
    (a b : pmr_queue) (w : World T) (la lb : List Nat) (op : QueueOp T) (hw : WorldOK w)
    (ha : QueueOK a w la) (hb : QueueOK b w lb) (hd : ∀ x ∈ la, x ∉ lb) :
    ∃ a' w' la', (op.apply E a w).state? = some (a', w') ∧
      a'.m_allocator = a.m_allocator ∧ WorldOK w' ∧ QueueOK a' w' la' ∧ QueueOK b w' lb ∧
      (∀ x ∈ la', x ∉ lb) ∧ (∀ x ∈ lb, w'.heap x = w.heap x) := by
  cases op with
  | push v =>
    rcases push_general E hs a w la v hw ha with
      ⟨e, w1, hpush, hheap, hw1, hh⟩ | ⟨x, a1, w1, hpush, hal, hw1, ha1, -, hh, hfr, -⟩
    · have hf : ∀ y, w1.heap y = w.heap y := fun y => by rw [hheap]
      exact ⟨a, w1, la, by simp [QueueOp.apply, hpush, Outcome.state?], rfl, hw1,
        ⟨linked_frame a w.heap w1.heap la ha.1 (fun y _ => hf y), hh _ _ ha.2⟩,
        ⟨linked_frame b w.heap w1.heap lb hb.1 (fun y _ => hf y), hh _ _ hb.2⟩,
        hd, fun y _ => hf y⟩
    · have hxb : x ∉ lb := (hh _ _ hb.2).2
      have hf : ∀ y ∈ lb, w1.heap y = w.heap y := by
        intro y hy
        exact hfr y (fun hyl => hd y hyl hy) (fun e => hxb (e ▸ hy))
      refine ⟨a1, w1, la ++ [x], by simp [QueueOp.apply, hpush, Outcome.state?], hal, hw1,
        ha1, ⟨linked_frame b w.heap w1.heap lb hb.1 hf, (hh _ _ hb.2).1⟩, ?_, hf⟩
      intro y hy
      rcases List.mem_append.mp hy with hy | hy
      · exact hd y hy
      · simp only [List.mem_singleton] at hy
        exact hy ▸ hxb
  | pop =>
    cases la with
    | nil =>
      have he : a.empty = true := by simp [pmr_queue.empty, ha.1.2.1]
      exact ⟨a, w, [], by simp [QueueOp.apply, pop, he, Outcome.state?], rfl, hw, ha, hb,
        hd, fun _ _ => rfl⟩
    | cons x rest =>
      obtain ⟨a1, w1, hpop, hal, hw1, ha1, hh, hfr⟩ := pop_general E a w x rest hw ha
      have hxb : x ∉ lb := hd x (List.mem_cons_self _ _)
      have hf : ∀ y ∈ lb, w1.heap y = w.heap y :=
        fun y hy => hfr y (fun e => hxb (e ▸ hy))
      exact ⟨a1, w1, rest, by simp [QueueOp.apply, hpop, Outcome.state?], hal, hw1, ha1,
        ⟨linked_frame b w.heap w1.heap lb hb.1 hf, hh _ _ hb.2 hxb⟩,
        fun y hy => hd y (List.mem_cons_of_mem _ hy), hf⟩
  | clear =>
    obtain ⟨a1, w1, hcl, hal, hw1, ha1, hh, hfr⟩ := clear_general E a w la hw ha
    have hf : ∀ y ∈ lb, w1.heap y = w.heap y :=
      fun y hy => hfr y (fun hyl => hd y hyl hy)
    exact ⟨a1, w1, [], by simp [QueueOp.apply, hcl, Outcome.state?], hal, hw1, ha1,
      ⟨linked_frame b w.heap w1.heap lb hb.1 hf, hh _ _ hb.2 hd⟩,
      fun y hy => absurd hy (List.not_mem_nil _), hf⟩

/-- A queue whose nodes did not change reads as before. -/
theorem reads_frame {T : Type} (q : pmr_queue) (w w' : World T) (l : List Nat)
    (h : Linked q w.heap l) (hf : ∀ x ∈ l, w'.heap x = w.heap x) :
    q.elements w' = q.elements w ∧ (front q w').value? = (front q w).value? ∧
    (back q w').value? = (back q w).value? := by
  refine ⟨?_, front_back_frame q w w' l h hf⟩
  rw [linked_elements q w l h, linked_elements q w' l (linked_frame q w.heap w'.heap l h hf)]
  exact read_all_congr _ _ _ (fun x hx => by rw [hf x hx])

theorem copy_loop_fuel {T : Type} (E : Env T) (fuel k current : Nat) (q : pmr_queue)
    (w : World T) (h : copy_loop E fuel current q w ≠ Outcome.undefined) :
    copy_loop E (fuel + k) current q w = copy_loop E fuel current q w := by
  induction fuel generalizing current q w with
  | zero =>
    by_cases hc : current = 0
    · cases k <;> simp [copy_loop, hc]
    · simp [copy_loop, hc] at h
  | succ n ih =>
    have e : n + 1 + k = (n + k) + 1 := by omega
    rw [e]
    by_cases hc : current = 0
    · simp [copy_loop, hc]
    · simp only [copy_loop, hc, if_false] at h ⊢
      cases hn : w.heap current with
      | none => rfl
      | some node =>
        simp only [hn] at h ⊢
        cases hp : push E q w node.data with
        | undefined => rfl
        | throws e s => rfl
        | ok u s =>
          simp only [hp] at h ⊢
          cases hn1 : s.2.heap current with
          | none => rfl
          | some node1 =>
            simp only [hn1] at h ⊢
            exact ih _ _ _ h

/-- The copy loop, from the node `current` of a chain `rest` of nodes of another
queue, on the queue `t` being filled: it ends, by an exception of a `push` or
normally, and then `t` holds its former elements followed by the elements of
`rest`; the nodes `lo` of the other queue are unchanged. -/
theorem copy_loop_general {T : Type} (E : Env T) (hs : E.upstream_allocate.Sound)
    (ro : Nat) (lo : List Nat) (rest : List Nat) :
    ∀ (fuel current : Nat) (vs : List T) (t : pmr_queue) (w : World T) (lt : List Nat)
      (xt : List T), WorldOK w → QueueOK t w lt → read_all w.heap lt = some xt →
      Hosted w ro lo → (∀ x ∈ lt, x ∉ lo) → IsChain w.heap current rest →
      (∀ x ∈ rest, x ∈ lo) → read_all w.heap rest = some vs → rest.length ≤ fuel →
      ∃ t' w' lt', (copy_loop E fuel current t w).state? = some (t', w') ∧
        WorldOK w' ∧ QueueOK t' w' lt' ∧ t'.m_allocator = t.m_allocator ∧
        Hosted w' ro lo ∧ (∀ x ∈ lt', x ∉ lo) ∧ (∀ x ∈ lo, w'.heap x = w.heap x) ∧
        ((copy_loop E fuel current t w).returns = true →
          read_all w'.heap lt' = some (xt ++ vs)) := by
  induction rest with
  | nil =>
    intro fuel current vs t w lt xt hw ht hxt ho hd hc _ hvs _
    have hc0 : current = 0 := hc
    simp only [read_all, Option.some.injEq] at hvs
    subst hvs
    have hcl : copy_loop E fuel current t w = Outcome.ok () (t, w) := by
      cases fuel <;> simp [copy_loop, hc0]
    exact ⟨t, w, lt, by simp [hcl, Outcome.state?], hw, ht, rfl, ho, hd, fun _ _ => rfl,
      fun _ => by simpa using hxt⟩
  | cons c rest' ih =>
    intro fuel current vs t w lt xt hw ht hxt ho hd hc hsub hvs hf
    obtain ⟨hcc, hc0, node, hnode, hc'⟩ := hc
    subst hcc
    obtain ⟨m, ys, hm, hvs1, hys⟩ := read_all_cons w.heap current rest' vs hvs
    rw [hnode] at hm
    obtain rfl := Option.some.inj hm
    subst hvs1
    cases fuel with
    | zero => simp at hf
    | succ fuel =>
      have hclo : current ∈ lo := hsub current (List.mem_cons_self _ _)
      rcases push_general E hs t w lt node.data hw ht with
        ⟨e, w1, hpush, hheap, hw1, hh⟩ | ⟨a, t1, w1, hpush, hal, hw1, ht1, -, hh, hfr, hrd⟩
      · have hf' : ∀ y, w1.heap y = w.heap y := fun y => by rw [hheap]
        have hcl : copy_loop E (fuel + 1) current t w = Outcome.throws e (t, w1) := by
          simp only [copy_loop, hc0, if_false, hnode, hpush]
        refine ⟨t, w1, lt, by simp [hcl, Outcome.state?], hw1,
          ⟨linked_frame t w.heap w1.heap lt ht.1 (fun y _ => hf' y), hh _ _ ht.2⟩, rfl,
          hh _ _ ho, hd, fun y _ => hf' y, ?_⟩
        intro hret
        simp [hcl, Outcome.returns] at hret
      · have halo : a ∉ lo := (hh _ _ ho).2
        have hfo : ∀ y ∈ lo, w1.heap y = w.heap y := by
          intro y hy
          exact hfr y (fun hyl => hd y hyl hy) (fun e => halo (e ▸ hy))
        have hnode1 : w1.heap current = some node := by
          rw [hfo current hclo]
          exact hnode
        have hsub' : ∀ x ∈ rest', x ∈ lo := fun x hx => hsub x (List.mem_cons_of_mem _ hx)
        have hd1 : ∀ x ∈ lt ++ [a], x ∉ lo := by
          intro x hx
          rcases List.mem_append.mp hx with hx | hx
          · exact hd x hx
          · simp only [List.mem_singleton] at hx
            exact hx ▸ halo
        obtain ⟨t2, w2, lt2, hst, hw2, ht2, hal2, ho2, hd2, hfo2, hrd2⟩ :=
          ih fuel node.next ys t1 w1 (lt ++ [a]) (xt ++ [node.data]) hw1 ht1 (hrd xt hxt)
            (hh _ _ ho).1 hd1
            (isChain_frame w.heap w1.heap _ rest' hc' (fun y hy => hfo y (hsub' y hy)))
            hsub'
            (by
              rw [← hys]
              exact read_all_congr _ _ _ (fun y hy => by rw [hfo y (hsub' y hy)]))
            (by simpa using hf)
        have hcl : copy_loop E (fuel + 1) current t w = copy_loop E fuel node.next t1 w1 := by
          simp only [copy_loop, hc0, if_false, hnode, hpush, hnode1]
        refine ⟨t2, w2, lt2, by rw [hcl]; exact hst, hw2, ht2, hal2.trans hal, ho2, hd2,
          fun y hy => (hfo2 y hy).trans (hfo y hy), ?_⟩
        intro hret
        rw [hcl] at hret
        have := hrd2 hret
        simpa using this

theorem reads_values {T : Type} (q : pmr_queue) (w : World T) (l : List Nat) (s : List T)
    (h : Linked q w.heap l) (hr : read_all w.heap l = some s) :
    q.elements w = some s ∧ q.size = s.length ∧
    (front q w).value? = s.head? ∧ (back q w).value? = s.getLast? := by
  have hlen : s.length = l.length := by
    obtain ⟨xs, hx1, hx2⟩ := isChain_read_all _ _ _ h.1
    rw [hr] at hx1
    rw [Option.some.inj hx1, hx2]
  refine ⟨by rw [linked_elements q w l h, hr], by rw [hlen]; exact h.2.1, ?_⟩
  cases l with
  | nil =>
    simp only [read_all, Option.some.injEq] at hr
    subst hr
    have he : q.empty = true := by simp [pmr_queue.empty, h.2.1]
    simp [front, back, he, Outcome.value?]
  | cons a rest =>
    have he : q.empty = false := by simp [pmr_queue.empty, h.2.1]
    obtain ⟨n, ys, hn, hs, -⟩ := read_all_cons _ _ _ _ hr
    obtain ⟨t, ht1, ht2⟩ := read_all_getLast _ _ _ hr (by simp)
    have hh : q.m_head = a := h.1.1
    rw [← h.2.2.1] at ht1
    subst hs
    simp only [front, back, he, Bool.false_eq_true, if_false, hh, hn, ht1, Outcome.value?,
      ht2, List.head?_cons]
    exact ⟨trivial, trivial⟩

theorem outcome_of_state {σ α : Type} (o : Outcome σ α) (s : σ) (h : o.state? = some s) :
    (∃ u, o = Outcome.ok u s) ∨ (∃ e, o = Outcome.throws e s) := by
  cases o with
  | ok u s' =>
    simp only [Outcome.state?, Option.some.injEq] at h
    exact Or.inl ⟨u, by rw [h]⟩
  | throws e s' =>
    simp only [Outcome.state?, Option.some.injEq] at h
    exact Or.inr ⟨e, by rw [h]⟩
  | undefined => simp [Outcome.state?] at h

/-- The copy loop that fills the queue `t`, empty at the start, from the queue
`src`. -/
theorem copy_fill {T : Type} (E : Env T) (hs : E.upstream_allocate.Sound) (w : World T)
    (hw : WorldOK w) (src t : pmr_queue) (ls : List Nat) (s : List T)
    (hsrc : QueueOK src w ls) (hrd : read_all w.heap ls = some s) (ht : QueueOK t w []) :
    ∃ t' w' lt', (copy_loop E src.m_size src.m_head t w).state? = some (t', w') ∧
      t'.m_allocator = t.m_allocator ∧ WorldOK w' ∧ QueueOK t' w' lt' ∧ QueueOK src w' ls ∧
      (∀ x ∈ lt', x ∉ ls) ∧ (∀ x ∈ ls, w'.heap x = w.heap x) ∧
      ((copy_loop E src.m_size src.m_head t w).returns = true →
        read_all w'.heap lt' = some s) := by
  obtain ⟨t', w', lt', h1, h2, h3, h4, h5, h6, h7, h8⟩ :=
    copy_loop_general E hs src.m_allocator ls ls src.m_size src.m_head s t w [] [] hw ht rfl
      hsrc.2 (fun _ hx => absurd hx (List.not_mem_nil _)) hsrc.1.1 (fun _ hx => hx) hrd
      (le_of_eq hsrc.1.2.1.symm)
  exact ⟨t', w', lt', h1, h4, h2, h3, ⟨linked_frame src w.heap w'.heap ls hsrc.1 h7, h5⟩,
    h6, h7, fun hret => by simpa using h8 hret⟩

/-! ## Copying a queue -/

theorem worldOK_demo : WorldOK demo_world :=
  ⟨fun _ _ => poolOK_new [], fun _ _ _ _ _ p hp => absurd hp (List.not_mem_nil p)⟩

/-- The queue `b` that holds 7 on pool 2 is in a consistent state. -/
theorem foreign_source_ok :
    WorldOK foreign_source.2 ∧ QueueOK foreign_source.1 foreign_source.2 [1] := by
  rcases push_general demo_env bump_upstream_sound (pmr_queue.new 2) demo_world [] 7
      worldOK_demo (queueOK_new 2 demo_world) with
    ⟨e, w', hpush, -⟩ | ⟨a, q', w', hpush, -, hw', hq', -⟩
  · have : (push demo_env (pmr_queue.new 2) demo_world 7).returns = true := by decide
    simp [hpush, Outcome.returns] at this
  · have e : foreign_source = (q', w') := by
      simp [foreign_source, hpush, Outcome.stateD, Outcome.state?]
    have ht : foreign_source.1.m_tail = 1 := by decide
    have ha : a = 1 := by
      have h1 : q'.m_tail = a := by
        rw [hq'.1.2.2.1]
        simp
      rw [← h1, ← ht, e]
    subst ha
    rw [e]
    exact ⟨hw', hq'⟩

/-- C13 (copies are deep, order-preserving and independent), in a world with any
number of pools that is consistent with a sound upstream resource, for every source
queue `src` in a consistent state with element sequence `s`. (1) The copy
constructor does not misbehave; it leaves the source object, its nodes, its element
sequence, `front()` and `back()` as they were, and when it returns, the new queue,
which is bound to the default resource, has the element sequence `s`, the `size()`
of the source, and its `front()` and `back()`, in nodes of its own. (2) The same
holds for the copy assignment to a distinct queue in a consistent state that shares
no node with the source; the target keeps its memory resource. (3) The copy
assignment of a queue to itself changes nothing. (4) For two queues in consistent
states without a common node, as the copy and the source are, a `push`, `pop` or
`clear` on one of them does not misbehave, leaves the element sequence, `front()`
and `back()` of the other as they were (its `size()` is a member the call cannot
reach), and leaves the two queues in consistent states without a common node, so
that the same holds for every later call on either of them. -/
theorem copy_is_deep {T : Type} (E : Env T) (hs : E.upstream_allocate.Sound) (w : World T)
    (hw : WorldOK w) (src : pmr_queue) (ls : List Nat) (s : List T)
    (hsrc : QueueOK src w ls) (helem : src.elements w = some s) :
    (∃ c w' lc, (copy_construct E src w).state? = some (c, w') ∧
      c.m_allocator = DEFAULT_RESOURCE ∧ WorldOK w' ∧ QueueOK c w' lc ∧ QueueOK src w' ls ∧
      (∀ x ∈ lc, x ∉ ls) ∧ (∀ x ∈ ls, x ∉ lc) ∧
      src.elements w' = some s ∧ (front src w').value? = (front src w).value? ∧
      (back src w').value? = (back src w).value? ∧
      ((copy_construct E src w).returns = true →
        c.elements w' = some s ∧ c.size = src.size ∧
        (front c w').value? = (front src w).value? ∧
        (back c w').value? = (back src w).value?)) ∧
    (∀ (this that : Nat) (self : pmr_queue) (lt : List Nat), this ≠ that →
      QueueOK self w lt → (∀ x ∈ lt, x ∉ ls) →
      ∃ t' w' lt', (copy_assign E this that self src w).state? = some ((t', src), w') ∧
        t'.m_allocator = self.m_allocator ∧ WorldOK w' ∧ QueueOK t' w' lt' ∧
        QueueOK src w' ls ∧ (∀ x ∈ lt', x ∉ ls) ∧ (∀ x ∈ ls, x ∉ lt') ∧
        src.elements w' = some s ∧ (front src w').value? = (front src w).value? ∧
        (back src w').value? = (back src w).value? ∧
        ((copy_assign E this that self src w).returns = true →
          t'.elements w' = some s ∧ t'.size = src.size ∧
          (front t' w').value? = (front src w).value? ∧
          (back t' w').value? = (back src w).value?)) ∧
    (∀ this : Nat, copy_assign E this this src src w = Outcome.ok () ((src, src), w)) ∧
    (∀ (a b : pmr_queue) (w1 : World T) (la lb : List Nat) (op : QueueOp T),
      WorldOK w1 → QueueOK a w1 la → QueueOK b w1 lb → (∀ x ∈ la, x ∉ lb) →
      ∃ a' w2 la', (op.apply E a w1).state? = some (a', w2) ∧
        WorldOK w2 ∧ QueueOK a' w2 la' ∧ QueueOK b w2 lb ∧
        (∀ x ∈ la', x ∉ lb) ∧ (∀ x ∈ lb, x ∉ la') ∧
        b.elements w2 = b.elements w1 ∧ (front b w2).value? = (front b w1).value? ∧
        (back b w2).value? = (back b w1).value?) := by
  have hrd : read_all w.heap ls = some s := by
    rw [← linked_elements src w ls hsrc.1]
    exact helem
  have hv := reads_values src w ls s hsrc.1 hrd
  refine ⟨?_, ?_, ?_, ?_⟩
  · obtain ⟨c, w', lc, h1, h2, h3, h4, h5, h6, h7, h8⟩ :=
      copy_fill E hs w hw src (pmr_queue.new DEFAULT_RESOURCE) ls s hsrc hrd
        (queueOK_new DEFAULT_RESOURCE w)
    have hf := reads_frame src w w' ls hsrc.1 h7
    refine ⟨c, w', lc, h1, h2, h3, h4, h5, h6, fun x hx hx' => h6 x hx' hx,
      hf.1.trans helem, hf.2.1, hf.2.2, ?_⟩
    intro hret
    have hc := reads_values c w' lc s h4.1 (h8 hret)
    exact ⟨hc.1, hc.2.1.trans hv.2.1.symm, hc.2.2.1.trans hv.2.2.1.symm,
      hc.2.2.2.trans hv.2.2.2.symm⟩
  · intro this that self lt hne hself hdis
    obtain ⟨q0, w0, hcl, hal0, hw0, hq0, hh0, hfr0⟩ := clear_general E self w lt hw hself
    have hf0 : ∀ x ∈ ls, w0.heap x = w.heap x :=
      fun x hx => hfr0 x (fun hxl => hdis x hxl hx)
    have hsrc0 : QueueOK src w0 ls :=
      ⟨linked_frame src w.heap w0.heap ls hsrc.1 hf0, hh0 _ _ hsrc.2 hdis⟩
    have hrd0 : read_all w0.heap ls = some s := by
      rw [← hrd]
      exact read_all_congr _ _ _ (fun x hx => by rw [hf0 x hx])
    obtain ⟨t', w', lt', h1, h2, h3, h4, h5, h6, h7, h8⟩ :=
      copy_fill E hs w0 hw0 src q0 ls s hsrc0 hrd0 hq0
    have hf : ∀ x ∈ ls, w'.heap x = w.heap x :=
      fun x hx => (h7 x hx).trans (hf0 x hx)
    have hfr := reads_frame src w w' ls hsrc.1 hf
    have hca : (copy_assign E this that self src w).state? = some ((t', src), w') ∧
        ((copy_assign E this that self src w).returns = true →
          (copy_loop E src.m_size src.m_head q0 w0).returns = true) := by
      rcases outcome_of_state _ _ h1 with ⟨u, ho⟩ | ⟨e, ho⟩
      · simp [copy_assign, hne, hcl, ho, Outcome.state?, Outcome.returns]
      · simp [copy_assign, hne, hcl, ho, Outcome.state?, Outcome.returns]
    refine ⟨t', w', lt', hca.1, h2.trans hal0, h3, h4, h5, h6, fun x hx hx' => h6 x hx' hx,
      hfr.1.trans helem, hfr.2.1, hfr.2.2, ?_⟩
    · intro hret
      have hret' := hca.2 hret
      have hc := reads_values t' w' lt' s h4.1 (h8 hret')
      exact ⟨hc.1, hc.2.1.trans hv.2.1.symm, hc.2.2.1.trans hv.2.2.1.symm,
        hc.2.2.2.trans hv.2.2.2.symm⟩
  · intro this
    simp [copy_assign]
  · intro a b w1 la lb op hw1 ha hb hd
    obtain ⟨a', w2, la', h1, -, h3, h4, h5, h6, h7⟩ :=
      apply_frame E hs a b w1 la lb op hw1 ha hb hd
    have hf := reads_frame b w1 w2 lb hb.1 h7
    exact ⟨a', w2, la', h1, h3, h4, h5, h6, fun x hx hx' => h6 x hx' hx, hf.1, hf.2.1,
      hf.2.2⟩

/-- C13 for the queue `b` that holds 7 on pool 2: its copy, and the copy assignment
of it to a new queue on pool 1. -/
theorem copy_is_deep_witness :
    demo_env.upstream_allocate.Sound ∧ WorldOK foreign_source.2 ∧
    QueueOK foreign_source.1 foreign_source.2 [1] ∧
    foreign_source.1.elements foreign_source.2 = some [7] ∧
    (copy_construct demo_env foreign_source.1 foreign_source.2).returns = true ∧
    (copy_assign demo_env 10 20 (pmr_queue.new 1) foreign_source.1
      foreign_source.2).returns = true ∧
    (∃ c w' lc, (copy_construct demo_env foreign_source.1 foreign_source.2).state?
        = some (c, w') ∧
      c.m_allocator = DEFAULT_RESOURCE ∧ WorldOK w' ∧ QueueOK c w' lc ∧
      QueueOK foreign_source.1 w' [1] ∧
      (∀ x ∈ lc, x ∉ [1]) ∧ (∀ x ∈ [1], x ∉ lc) ∧
      foreign_source.1.elements w' = some [7] ∧
      (front foreign_source.1 w').value? = (front foreign_source.1 foreign_source.2).value? ∧
      (back foreign_source.1 w').value? = (back foreign_source.1 foreign_source.2).value? ∧
      ((copy_construct demo_env foreign_source.1 foreign_source.2).returns = true →
        c.elements w' = some [7] ∧ c.size = foreign_source.1.size ∧
        (front c w').value? = (front foreign_source.1 foreign_source.2).value? ∧
        (back c w').value? = (back foreign_source.1 foreign_source.2).value?)) ∧
    ∃ t' w' lt', (copy_assign demo_env 10 20 (pmr_queue.new 1) foreign_source.1
        foreign_source.2).state? = some ((t', foreign_source.1), w') ∧
      t'.m_allocator = (pmr_queue.new 1).m_allocator ∧ WorldOK w' ∧ QueueOK t' w' lt' ∧
      QueueOK foreign_source.1 w' [1] ∧ (∀ x ∈ lt', x ∉ [1]) ∧ (∀ x ∈ [1], x ∉ lt') ∧
      foreign_source.1.elements w' = some [7] ∧
      (front foreign_source.1 w').value? = (front foreign_source.1 foreign_source.2).value? ∧
      (back foreign_source.1 w').value? = (back foreign_source.1 foreign_source.2).value? ∧
      ((copy_assign demo_env 10 20 (pmr_queue.new 1) foreign_source.1
          foreign_source.2).returns = true →
        t'.elements w' = some [7] ∧ t'.size = foreign_source.1.size ∧
        (front t' w').value? = (front foreign_source.1 foreign_source.2).value? ∧
        (back t' w').value? = (back foreign_source.1 foreign_source.2).value?) :=
  ⟨bump_upstream_sound, foreign_source_ok.1, foreign_source_ok.2, by decide, by decide,
   by decide,
   (copy_is_deep demo_env bump_upstream_sound foreign_source.2 foreign_source_ok.1
     foreign_source.1 [1] [7] foreign_source_ok.2 (by decide)).1,
   (copy_is_deep demo_env bump_upstream_sound foreign_source.2 foreign_source_ok.1
     foreign_source.1 [1] [7] foreign_source_ok.2 (by decide)).2.1 10 20 (pmr_queue.new 1) []
     (by decide) (queueOK_new 1 foreign_source.2)
     (fun _ hx => absurd hx (List.not_mem_nil _))⟩

/-! ## One queue on any memory resource: FIFO order and structure -/

theorem bound_of_inv {T : Type} (q : pmr_queue) (w : World T) (l : List Nat)
    (h : Inv q w l) : Bound q w l := by
  refine ⟨linked_of_inv q w l h, ?_⟩
  simp only [h.2.2.2.2.2.2, if_false]
  exact ⟨h.2.2.2.2.1, h.2.2.2.2.2.1⟩

theorem inv_of_bound {T : Type} (q : pmr_queue) (w : World T) (l : List Nat)
    (h : Bound q w l) (hr : q.m_allocator ≠ DEFAULT_RESOURCE) : Inv q w l := by
  obtain ⟨hl, hb⟩ := h
  simp only [hr, if_false] at hb
  exact ⟨hl.1, isChain_nodup _ _ _ hl.1, hl.2.1, hl.2.2.1, hb.1, hb.2, hr⟩

theorem bound_new {T : Type} (mr : Nat) (w : World T)
    (hp : mr ≠ DEFAULT_RESOURCE → PoolOK (w.pools mr) w.upstream) :
    Bound (pmr_queue.new mr) w [] := by
  refine ⟨⟨rfl, rfl, rfl, by simp⟩, ?_⟩
  split
  · exact fun a ha => absurd ha (List.not_mem_nil _)
  · rename_i hr
    exact ⟨hp hr, fun a ha => absurd ha (List.not_mem_nil _)⟩

theorem bound_push {T : Type} (E : Env T) (hs : E.upstream_allocate.Sound) (q : pmr_queue)
    (w : World T) (l : List Nat) (v : T) (h : Bound q w l) :
    (∃ e w', push E q w v = Outcome.throws e (q, w') ∧ w'.heap = w.heap ∧ Bound q w' l ∧
      (E.construct_throws v = false → e = Exception.upstream_failure)) ∨
    (∃ a q' w', push E q w v = Outcome.ok () (q', w') ∧ q'.m_allocator = q.m_allocator ∧
      E.construct_throws v = false ∧ Bound q' w' (l ++ [a]) ∧
      ∀ xs, read_all w.heap l = some xs → read_all w'.heap (l ++ [a]) = some (xs ++ [v])) := by
  by_cases hr : q.m_allocator = DEFAULT_RESOURCE
  · obtain ⟨hl, hb⟩ := h
    simp only [hr, if_true] at hb
    obtain ⟨h1, h2, h3⟩ := resource_allocate_default E.upstream_allocate w
      E.sizeof_Node E.alignof_Node
    rw [← hr] at h1 h2 h3
    have hheap := resource_allocate_heap E.upstream_allocate w q.m_allocator
      E.sizeof_Node E.alignof_Node
    cases hup : E.upstream_allocate w.upstream E.sizeof_Node E.alignof_Node with
    | none =>
      left
      rw [hup] at h1 h3
      refine ⟨_, _, push_alloc_fails E q w v h1, hheap, ⟨?_, ?_⟩, fun _ => rfl⟩
      · rw [hheap]; exact hl
      · simp only [hr, if_true]
        intro a ha
        obtain ⟨b1, b2, b3⟩ := hb a ha
        refine ⟨b1, b2, ?_⟩
        rw [← hr, h3, live_append]
        exact b3
    | some a =>
      rw [hup] at h1 h3
      obtain ⟨ha0, halt, hal⟩ := hs _ _ _ _ hup
      have hanl : a ∉ l := fun hm => hal (hb a hm).2.2
      by_cases hct : E.construct_throws v = true
      · left
        refine ⟨_, _, push_construct_fails E q w v a h1 ha0 hct, ?_, ⟨?_, ?_⟩,
          fun hf => absurd hf (by simp [hct])⟩
        · rw [resource_deallocate_heap, hheap]
        · rw [resource_deallocate_heap, hheap]; exact hl
        · simp only [hr, if_true]
          intro x hx
          obtain ⟨b1, b2, b3⟩ := hb x hx
          refine ⟨b1, b2, ?_⟩
          rw [(resource_deallocate_default _ a E.sizeof_Node E.alignof_Node).2, ← hr, h3,
            live_append, live_append]
          simp only [live_step, List.erase_cons_head]
          exact b3
      · right
        have hct' : E.construct_throws v = false := by simpa using hct
        have hnd' : (l ++ [a]).Nodup := by
          rw [List.nodup_append]
          refine ⟨isChain_nodup _ _ _ hl.1, by simp, ?_⟩
          intro x hx hx'
          simp only [List.mem_singleton] at hx'
          exact hanl (hx' ▸ hx)
        have hbnd : ∀ x ∈ l ++ [a], x ≠ 0 ∧ x < 2 ^ 64 := by
          intro x hx
          rcases List.mem_append.mp hx with hx | hx
          · exact ⟨(hb x hx).1, (hb x hx).2.1⟩
          · simp only [List.mem_singleton] at hx
            subst hx
            exact ⟨ha0, halt⟩
        have hlen : l.length + 1 < 2 ^ 64 := by
          rcases length_lt_of_nodup (l ++ [a]) (2 ^ 64) hnd' hbnd with h1 | h1
          · simp only [List.length_append, List.length_singleton] at h1
            omega
          · simp at h1
        obtain ⟨q', w', hpush, hal', -, hu, hlk, -, hrd⟩ :=
          push_linked E q w l v a hl h1 ha0 hanl hlen hct'
        refine ⟨a, q', w', hpush, hal', hct', ⟨hlk, ?_⟩, hrd⟩
        simp only [hal', hr, if_true]
        intro x hx
        refine ⟨(hbnd x hx).1, (hbnd x hx).2, ?_⟩
        rw [hu, h3, live_append]
        rcases List.mem_append.mp hx with hx | hx
        · exact List.mem_cons_of_mem _ (hb x hx).2.2
        · simp only [List.mem_singleton] at hx
          subst hx
          exact List.mem_cons_self _ _
  · rcases push_inv E hs q w l v (inv_of_bound q w l h hr) with
      ⟨e, w', h1, h2, h3, h4⟩ | ⟨a, q', w', h1, h2, h3, h4, h5⟩
    · exact Or.inl ⟨e, w', h1, h2, bound_of_inv q w' l h3, h4⟩
    · exact Or.inr ⟨a, q', w', h1, h2, h3, bound_of_inv q' w' _ h4, h5⟩

theorem bound_pop {T : Type} (E : Env T) (q : pmr_queue) (w : World T) (a : Nat)
    (rest : List Nat) (h : Bound q w (a :: rest)) :
    ∃ n q' w', w.heap a = some n ∧ q.m_head = a ∧ pop E q w = Outcome.ok () (q', w') ∧
      q'.m_allocator = q.m_allocator ∧ Bound q' w' rest ∧
      (∀ x, x ≠ a → w'.heap x = w.heap x) := by
  by_cases hr : q.m_allocator = DEFAULT_RESOURCE
  · obtain ⟨hl, hb⟩ := h
    simp only [hr, if_true] at hb
    obtain ⟨n, q', hn, hh, hpop, hal, hlk, hanr⟩ := pop_linked E q w a rest hl
    refine ⟨n, q', _, hn, hh, hpop, hal, ⟨?_, ?_⟩, ?_⟩
    · rw [resource_deallocate_heap]; exact hlk
    · simp only [hal, hr, if_true]
      intro x hx
      obtain ⟨b1, b2, b3⟩ := hb x (List.mem_cons_of_mem _ hx)
      refine ⟨b1, b2, ?_⟩
      rw [(resource_deallocate_default _ a E.sizeof_Node E.alignof_Node).2, live_append]
      have hxa : x ≠ a := fun e => hanr (e ▸ hx)
      exact (List.mem_erase_of_ne hxa).mpr b3
    · intro x hx
      rw [resource_deallocate_heap]
      simp [World.store, hx]
  · obtain ⟨n, q', w', h1, h2, h3, h4, h5, h6, -, -⟩ :=
      pop_inv E q w a rest (inv_of_bound q w _ h hr)
    exact ⟨n, q', w', h1, h2, h3, h4, bound_of_inv q' w' rest h5, h6⟩

theorem bound_clear {T : Type} (E : Env T) (q : pmr_queue) (w : World T) (l : List Nat)
    (h : Bound q w l) :
    ∃ q' w', clear E q w = Outcome.ok () (q', w') ∧ q'.m_allocator = q.m_allocator ∧
      Bound q' w' [] := by
  by_cases hr : q.m_allocator = DEFAULT_RESOURCE
  · obtain ⟨-, h2⟩ := clear_linked E q w l h.1
    refine ⟨_, _, h2, rfl, ⟨⟨rfl, rfl, rfl, by simp⟩, ?_⟩⟩
    simp only [hr, if_true]
    exact fun a ha => absurd ha (List.not_mem_nil _)
  · obtain ⟨q', w', h1, h2, h3, -, -⟩ := clear_inv E q w l (inv_of_bound q w l h hr)
    exact ⟨q', w', h1, h2, bound_of_inv q' w' [] h3⟩

theorem linked_front {T : Type} (q : pmr_queue) (w : World T) (a : Nat) (rest : List Nat)
    (x : T) (xs : List T) (h : Linked q w.heap (a :: rest))
    (hx : read_all w.heap (a :: rest) = some (x :: xs)) :
    front q w = Outcome.ok x (q, w) := by
  obtain ⟨hc, hsz, -, -⟩ := h
  obtain ⟨hh, -, n, hn, -⟩ := hc
  obtain ⟨m, ys, h1, h2, -⟩ := read_all_cons _ _ _ _ hx
  rw [hn] at h1
  simp only [Option.some.injEq] at h1
  subst h1
  simp only [List.cons.injEq] at h2
  have hne : q.empty = false := by simp [pmr_queue.empty, hsz]
  simp [front, hne, hh, hn, h2.1]

theorem linked_nil_queue {T : Type} (q : pmr_queue) (heap : Nat → Option (Node T))
    (h : Linked q heap []) : q = pmr_queue.new q.m_allocator := by
  obtain ⟨hc, hsz, ht, -⟩ := h
  have hh : q.m_head = 0 := hc
  cases q
  simp_all [pmr_queue.new]

theorem bound_drain {T : Type} (E : Env T) (q : pmr_queue) (w : World T) (l : List Nat)
    (xs : List T) (h : Bound q w l) (hx : read_all w.heap l = some xs) :
    ∃ w', drain E l.length q w = Outcome.ok xs (pmr_queue.new q.m_allocator, w') ∧
      Bound (pmr_queue.new q.m_allocator) w' [] := by
  induction l generalizing q w xs with
  | nil =>
    simp only [read_all, Option.some.injEq] at hx
    subst hx
    have := linked_nil_queue q w.heap h.1
    refine ⟨w, ?_, this ▸ h⟩
    simp only [List.length_nil, drain]
    rw [← this]
  | cons a rest ih =>
    obtain ⟨m, ys, h1, h2, h3⟩ := read_all_cons _ _ _ _ hx
    subst h2
    have hfront := linked_front q w a rest m.data ys h.1 hx
    have hanr : a ∉ rest := (List.nodup_cons.mp (isChain_nodup _ _ _ h.1.1)).1
    obtain ⟨n, q1, w1, -, -, hpop, hal, hinv, hframe⟩ := bound_pop E q w a rest h
    have hrest : read_all w1.heap rest = some ys := by
      rw [← h3]
      apply read_all_congr
      intro x hx'
      have : x ≠ a := fun e => hanr (e ▸ hx')
      rw [hframe x this]
    obtain ⟨w2, hd, hinv2⟩ := ih q1 w1 ys hinv hrest
    rw [hal] at hd hinv2
    exact ⟨w2, by simp [drain, hfront, hpop, hd], hinv2⟩

theorem bound_push_all {T : Type} (E : Env T) (hs : E.upstream_allocate.Sound)
    (q : pmr_queue) (w : World T) (l : List Nat) (vs xs : List T) (h : Bound q w l)
    (hx : read_all w.heap l = some xs) (q' : pmr_queue) (w' : World T)
    (hp : push_all E q w vs = Outcome.ok () (q', w')) :
    ∃ l', Bound q' w' l' ∧ l'.length = l.length + vs.length ∧
      read_all w'.heap l' = some (xs ++ vs) ∧ q'.m_allocator = q.m_allocator := by
  induction vs generalizing q w l xs with
  | nil =>
    simp only [push_all, Outcome.ok.injEq, Prod.mk.injEq, true_and] at hp
    obtain ⟨rfl, rfl⟩ := hp
    exact ⟨l, h, by simp, by simpa using hx, rfl⟩
  | cons v rest ih =>
    rcases bound_push E hs q w l v h with
      ⟨e, w1, hpush, -, -, -⟩ | ⟨a, q1, w1, hpush, hal, -, hinv, hread⟩
    · simp [push_all, hpush] at hp
    · simp only [push_all, hpush] at hp
      obtain ⟨l', h1, h2, h3, h4⟩ := ih q1 w1 (l ++ [a]) (xs ++ [v]) hinv (hread xs hx) hp
      refine ⟨l', h1, ?_, by simpa using h3, h4.trans hal⟩
      simp only [List.length_append, List.length_singleton, List.length_cons,
        List.length_nil] at h2 ⊢
      omega

theorem bound_apply {T : Type} (E : Env T) (hs : E.upstream_allocate.Sound) (q : pmr_queue)
    (w : World T) (l : List Nat) (op : QueueOp T) (h : Bound q w l) :
    ∃ q' w' l', (op.apply E q w).state? = some (q', w') ∧ Bound q' w' l' ∧
      q'.m_allocator = q.m_allocator := by
  cases op with
  | push v =>
    rcases bound_push E hs q w l v h with
      ⟨e, w1, hpush, -, hinv, -⟩ | ⟨a, q1, w1, hpush, hal, -, hinv, -⟩
    · exact ⟨q, w1, l, by simp [QueueOp.apply, hpush, Outcome.state?], hinv, rfl⟩
    · exact ⟨q1, w1, l ++ [a], by simp [QueueOp.apply, hpush, Outcome.state?], hinv, hal⟩
  | pop =>
    cases l with
    | nil =>
      have he : q.empty = true := by simp [pmr_queue.empty, h.1.2.1]
      exact ⟨q, w, [], by simp [QueueOp.apply, pop, he, Outcome.state?], h, rfl⟩
    | cons a rest =>
      obtain ⟨n, q1, w1, -, -, hpop, hal, hinv, -⟩ := bound_pop E q w a rest h
      exact ⟨q1, w1, rest, by simp [QueueOp.apply, hpop, Outcome.state?], hinv, hal⟩
  | clear =>
    obtain ⟨q1, w1, hcl, hal, hinv⟩ := bound_clear E q w l h
    exact ⟨q1, w1, [], by simp [QueueOp.apply, hcl, Outcome.state?], hinv, hal⟩

theorem bound_run_ops {T : Type} (E : Env T) (hs : E.upstream_allocate.Sound)
    (q : pmr_queue) (w : World T) (l : List Nat) (ops : List (QueueOp T))
    (h : Bound q w l) :
    ∃ q' w' l', run_ops E q w ops = some (q', w') ∧ Bound q' w' l' ∧
      q'.m_allocator = q.m_allocator := by
  induction ops generalizing q w l with
  | nil => exact ⟨q, w, l, rfl, h, rfl⟩
  | cons op rest ih =>
    obtain ⟨q1, w1, l1, h1, hinv, hal⟩ := bound_apply E hs q w l op h
    obtain ⟨q2, w2, l2, h2, hinv2, hal2⟩ := ih q1 w1 l1 hinv
    exact ⟨q2, w2, l2, by simp [run_ops, h1, h2], hinv2, hal2.trans hal⟩

/-- C1 (FIFO law). On a newly constructed queue, bound to the default resource or
to a pool that is consistent with the upstream log, with a sound upstream resource:
when the calls `push(v1)`, ..., `push(vn)` all return, the queue holds `n` elements,
and `n` rounds of `front()` then `pop()` all return, read exactly `v1`, ..., `vn` in
that order, and leave the queue as a newly constructed one (`m_head` and `m_tail`
null, `m_size` 0). -/
theorem fifo_law {T : Type} (E : Env T) (hs : E.upstream_allocate.Sound) (mr : Nat)
    (w : World T) (hp : mr ≠ DEFAULT_RESOURCE → PoolOK (w.pools mr) w.upstream)
    (vs : List T)
    (hpush : (push_all E (pmr_queue.new mr) w vs).returns = true) :
    ∃ q1 w1 w2, push_all E (pmr_queue.new mr) w vs = Outcome.ok () (q1, w1) ∧
      q1.size = vs.length ∧ q1.elements w1 = some vs ∧
      drain E vs.length q1 w1 = Outcome.ok vs (pmr_queue.new mr, w2) := by
  cases hpa : push_all E (pmr_queue.new mr) w vs with
  | throws e s => simp [hpa, Outcome.returns] at hpush
  | undefined => simp [hpa, Outcome.returns] at hpush
  | ok u s =>
    obtain ⟨q1, w1⟩ := s
    obtain ⟨l, hinv, hlen, hread, hal⟩ :=
      bound_push_all E hs (pmr_queue.new mr) w [] vs [] (bound_new mr w hp) rfl q1 w1 hpa
    simp only [List.length_nil, Nat.zero_add, List.nil_append] at hlen hread
    obtain ⟨w2, hd, -⟩ := bound_drain E q1 w1 l vs hinv hread
    rw [hlen, hal] at hd
    exact ⟨q1, w1, w2, rfl, by rw [pmr_queue.size, hinv.1.2.1, hlen],
      (linked_elements q1 w1 l hinv.1).trans hread, hd⟩

/-- C1 for the values 1, 2, 3 pushed on a new queue bound to a new pool, and on a
new queue bound to the default resource. -/
theorem fifo_law_witness :
    demo_env.upstream_allocate.Sound ∧
    (1 ≠ DEFAULT_RESOURCE → PoolOK (demo_world.pools 1) demo_world.upstream) ∧
    (push_all demo_env (pmr_queue.new 1) demo_world [1, 2, 3]).returns = true ∧
    (push_all demo_env (pmr_queue.new DEFAULT_RESOURCE) demo_world [1, 2, 3]).returns = true ∧
    (∃ q1 w1 w2, push_all demo_env (pmr_queue.new 1) demo_world [1, 2, 3]
        = Outcome.ok () (q1, w1) ∧
      q1.size = [1, 2, 3].length ∧ q1.elements w1 = some [1, 2, 3] ∧
      drain demo_env [1, 2, 3].length q1 w1
        = Outcome.ok [1, 2, 3] (pmr_queue.new 1, w2)) ∧
    ∃ q1 w1 w2, push_all demo_env (pmr_queue.new DEFAULT_RESOURCE) demo_world [1, 2, 3]
        = Outcome.ok () (q1, w1) ∧
      q1.size = [1, 2, 3].length ∧ q1.elements w1 = some [1, 2, 3] ∧
      drain demo_env [1, 2, 3].length q1 w1
        = Outcome.ok [1, 2, 3] (pmr_queue.new DEFAULT_RESOURCE, w2) :=
  ⟨bump_upstream_sound, fun _ => poolOK_new [], by decide, by decide,
   fifo_law demo_env bump_upstream_sound 1 demo_world (fun _ => poolOK_new []) [1, 2, 3]
     (by decide),
   fifo_law demo_env bump_upstream_sound DEFAULT_RESOURCE demo_world
     (fun h => absurd rfl h) [1, 2, 3] (by decide)⟩

/-- C3 (structural invariant). From a newly constructed queue, bound to the default
resource or to a pool that is consistent with the upstream log, with a sound
upstream resource: every sequence of `push`, `pop` and `clear` calls (those that
throw included) runs without undefined behaviour and ends in a state where `m_head`
is null iff `m_size` is 0, `m_tail` is then null too, the link of the tail node is
null, and following the links from `m_head` visits exactly `size()` nodes, the last
of which is `m_tail`. -/
theorem structural_invariant {T : Type} (E : Env T) (hs : E.upstream_allocate.Sound)
    (mr : Nat) (w : World T)
    (hp : mr ≠ DEFAULT_RESOURCE → PoolOK (w.pools mr) w.upstream)
    (ops : List (QueueOp T)) :
    ∃ q' w', run_ops E (pmr_queue.new mr) w ops = some (q', w') ∧ q'.structural w' := by
  obtain ⟨q', w', l, h1, h2, -⟩ :=
    bound_run_ops E hs (pmr_queue.new mr) w [] ops (bound_new mr w hp)
  exact ⟨q', w', h1, linked_structural q' w' l h2.1⟩

/-- C3 for a run that pushes, pops, clears, pops the empty queue and pushes again,
on a new pool and on the default resource. -/
theorem structural_invariant_witness :
    demo_env.upstream_allocate.Sound ∧
    (1 ≠ DEFAULT_RESOURCE → PoolOK (demo_world.pools 1) demo_world.upstream) ∧
    (∃ q' w', run_ops demo_env (pmr_queue.new 1) demo_world
        [QueueOp.push 1, QueueOp.push 2, QueueOp.pop, QueueOp.push 3, QueueOp.clear,
         QueueOp.pop, QueueOp.push 5] = some (q', w') ∧ q'.structural w') ∧
    ∃ q' w', run_ops demo_env (pmr_queue.new DEFAULT_RESOURCE) demo_world
        [QueueOp.push 1, QueueOp.push 2, QueueOp.pop, QueueOp.push 3, QueueOp.clear,
         QueueOp.pop, QueueOp.push 5] = some (q', w') ∧ q'.structural w' :=
  ⟨bump_upstream_sound, fun _ => poolOK_new [],
   structural_invariant demo_env bump_upstream_sound 1 demo_world (fun _ => poolOK_new []) _,
   structural_invariant demo_env bump_upstream_sound DEFAULT_RESOURCE demo_world
     (fun h => absurd rfl h) _⟩

/-! ## The high-water mark of a pool under one queue -/

theorem uniform_new (sz : Nat) : Uniform cube_memory_resource.new sz :=
  fun _ hb => absurd hb (List.not_mem_nil _)

theorem uniform_of_sizes (l l' : List block_info) (sz : Nat)
    (h : l'.map block_info.size = l.map block_info.size) (hu : ∀ b ∈ l, b.size = sz) :
    ∀ b ∈ l', b.size = sz := by
  intro b hb
  have : b.size ∈ l.map block_info.size := h ▸ List.mem_map_of_mem _ hb
  obtain ⟨c, hc, hcs⟩ := List.mem_map.mp this
  rw [← hcs]
  exact hu c hc

theorem uniform_deallocate (pool : cube_memory_resource) (log : List UpCall)
    (p bytes alignment sz : Nat) (h : Uniform pool sz) :
    Uniform (do_deallocate pool log p bytes alignment).1 sz := by
  unfold do_deallocate
  cases hf : find_if (fun info => decide (info.ptr = p)) pool.blocks with
  | some ib => exact uniform_of_sizes _ _ sz (set_used_sizes _ _ _) h
  | none => exact h

theorem total_blocks_deallocate (pool : cube_memory_resource) (log : List UpCall)
    (p bytes alignment : Nat) :
    total_blocks (do_deallocate pool log p bytes alignment).1 = total_blocks pool := by
  have := congrArg List.length (do_deallocate_triple pool log p bytes alignment)
  simpa [total_blocks] using this

theorem uniform_allocate (up : Upstream) (pool : cube_memory_resource) (log : List UpCall)
    (bytes alignment : Nat) (h : Uniform pool (actual_size bytes)) :
    Uniform (do_allocate up pool log bytes alignment).self (actual_size bytes) := by
  unfold do_allocate
  cases hf : find_if (fun block => !block.used && decide (block.size ≥ bytes)) pool.blocks with
  | some ib => exact uniform_of_sizes _ _ _ (set_used_sizes _ _ _) h
  | none =>
    cases hup : up log (actual_size bytes) alignment with
    | none => exact h
    | some a =>
      intro b hb
      rcases List.mem_append.mp hb with hb | hb
      · exact h b hb
      · simp only [List.mem_singleton] at hb
        rw [hb]

theorem uniform_total_memory (pool : cube_memory_resource) (sz : Nat) (h : Uniform pool sz) :
    total_memory pool = size_mul (total_blocks pool) sz := by
  rw [total_memory_eq]
  have hsum : (pool.blocks.map block_info.size).sum = pool.blocks.length * sz := by
    have : ∀ l : List block_info, (∀ b ∈ l, b.size = sz) →
        (l.map block_info.size).sum = l.length * sz := by
      intro l
      induction l with
      | nil => simp
      | cons a rest ih =>
        intro hl
        simp only [List.map_cons, List.sum_cons, List.length_cons]
        rw [ih (fun b hb => hl b (List.mem_cons_of_mem _ hb)), hl a (List.mem_cons_self _ _)]
        ring
    exact this _ h
  rw [hsum]
  rfl

/-- Growth of a pool whose records all have the rounded size of the request: the
pool grows by one record when all records are in use and the upstream resource
returns a block, and not at all otherwise. -/
theorem allocate_growth (up : Upstream) (pool : cube_memory_resource) (log : List UpCall)
    (bytes alignment : Nat) (h : Uniform pool (actual_size bytes))
    (hb : bytes ≤ actual_size bytes) :
    allocated_blocks pool ≤ total_blocks pool ∧
    (allocated_blocks pool < total_blocks pool →
      total_blocks (do_allocate up pool log bytes alignment).self = total_blocks pool ∧
      (do_allocate up pool log bytes alignment).ret ≠ none) ∧
    (allocated_blocks pool = total_blocks pool →
      ((do_allocate up pool log bytes alignment).ret = none →
        total_blocks (do_allocate up pool log bytes alignment).self = total_blocks pool) ∧
      ((do_allocate up pool log bytes alignment).ret ≠ none →
        total_blocks (do_allocate up pool log bytes alignment).self
          = total_blocks pool + 1)) := by
  have hle : allocated_blocks pool ≤ total_blocks pool := List.countP_le_length _
  refine ⟨hle, ?_, ?_⟩
  · intro hlt
    have hex : ∃ b ∈ pool.blocks, b.used = false ∧ bytes ≤ b.size := by
      by_contra hno
      have hall : ∀ b ∈ pool.blocks, b.used = true := by
        intro b hbm
        by_contra hu
        exact hno ⟨b, hbm, by simpa using hu, by rw [h b hbm]; exact hb⟩
      have : allocated_blocks pool = total_blocks pool :=
        List.countP_eq_length.mpr (fun b hbm => by simpa using hall b hbm)
      omega
    obtain ⟨-, h2, -, -, b, -, hret⟩ := allocate_reuse_stats up pool log bytes alignment hex
    exact ⟨h2, by rw [hret]; simp⟩
  · intro heq
    have hall : ∀ b ∈ pool.blocks, b.used = true := by
      intro b hbm
      have := (List.countP_eq_length.mp heq) b hbm
      simpa using this
    have hno : ∀ b ∈ pool.blocks, ¬ (b.used = false ∧ bytes ≤ b.size) := by
      intro b hbm hc
      rw [hall b hbm] at hc
      exact Bool.noConfusion hc.1
    obtain ⟨-, h2, h3⟩ := do_allocate_no_fit up pool log bytes alignment hno
    cases hup : up log (actual_size bytes) alignment with
    | none =>
      obtain ⟨h4, h5⟩ := h3 hup
      exact ⟨fun _ => by rw [h5], fun hne => absurd h4 hne⟩
    | some a =>
      obtain ⟨h4, h5⟩ := h2 a hup
      refine ⟨fun hn => by rw [h4] at hn; exact Option.noConfusion hn, fun _ => ?_⟩
      simp [total_blocks, h5]

theorem destroy_nodes_uniform {T : Type} (E : Env T) (r : Nat) (hr : r ≠ DEFAULT_RESOURCE)
    (l : List Nat) (w : World T) (sz : Nat) (h : Uniform (w.pools r) sz) :
    Uniform ((destroy_nodes E r l w).pools r) sz := by
  induction l generalizing w with
  | nil => exact h
  | cons a rest ih =>
    rw [destroy_nodes_cons]
    apply ih
    rw [(resource_deallocate_pool (w.store a none) r a E.sizeof_Node E.alignof_Node hr).1]
    exact uniform_deallocate _ _ _ _ _ _ h

/-- What one `push(v)` does to the pool under a queue that is its only user: the
invariant, the number of blocks in use and the uniform record size are kept, and
the pool grows by one record exactly when the allocation returns and `size()` was
`total_blocks()`. -/
theorem push_tracked {T : Type} (E : Env T) (hs : E.upstream_allocate.Sound)
    (hsz : E.sizeof_Node ≤ 2 ^ 64 - 64) (q : pmr_queue) (w : World T) (l : List Nat) (v : T)
    (h : Inv q w l) (hc : allocated_blocks (w.pools q.m_allocator) = l.length)
    (hu : Uniform (w.pools q.m_allocator) (actual_size E.sizeof_Node)) :
    ∃ q1 w1 l1, (push E q w v).state? = some (q1, w1) ∧ Inv q1 w1 l1 ∧
      allocated_blocks (w1.pools q.m_allocator) = l1.length ∧
      Uniform (w1.pools q.m_allocator) (actual_size E.sizeof_Node) ∧
      q1.m_allocator = q.m_allocator ∧
      max (total_blocks (w.pools q.m_allocator)) q1.size
        ≤ total_blocks (w1.pools q.m_allocator) ∧
      (E.construct_throws v = false →
        total_blocks (w1.pools q.m_allocator)
          = max (total_blocks (w.pools q.m_allocator)) q1.size) ∧
      ((resource_allocate E.upstream_allocate w q.m_allocator
          E.sizeof_Node E.alignof_Node).1 = none →
        total_blocks (w1.pools q.m_allocator) = total_blocks (w.pools q.m_allocator)) ∧
      ((resource_allocate E.upstream_allocate w q.m_allocator
          E.sizeof_Node E.alignof_Node).1 ≠ none →
        (total_blocks (w1.pools q.m_allocator) = total_blocks (w.pools q.m_allocator) + 1
          ↔ q.size = total_blocks (w.pools q.m_allocator)) ∧
        (q.size ≠ total_blocks (w.pools q.m_allocator) →
          total_blocks (w1.pools q.m_allocator) = total_blocks (w.pools q.m_allocator))) := by
  have hp := h.2.2.2.2.1
  have hr := h.2.2.2.2.2.2
  have hsize : q.size = l.length := h.2.2.1
  obtain ⟨r1, r2, r3⟩ := resource_allocate_pool E.upstream_allocate w q.m_allocator
    E.sizeof_Node E.alignof_Node hr
  have hUA := uniform_allocate E.upstream_allocate (w.pools q.m_allocator) w.upstream
    E.sizeof_Node E.alignof_Node hu
  obtain ⟨g0, g1, g2⟩ := allocate_growth E.upstream_allocate (w.pools q.m_allocator)
    w.upstream E.sizeof_Node E.alignof_Node hu (actual_size_ge _ hsz)
  rw [r1]
  rw [hc] at g0 g1 g2
  -- the pool after the call has the records of the pool after the allocation
  have key : ∀ (q1 : pmr_queue) (w1 : World T) (l1 : List Nat),
      (push E q w v).state? = some (q1, w1) → Inv q1 w1 l1 →
      allocated_blocks (w1.pools q.m_allocator) = l1.length →
      q1.m_allocator = q.m_allocator →
      total_blocks (w1.pools q.m_allocator)
        = total_blocks (do_allocate E.upstream_allocate (w.pools q.m_allocator) w.upstream
            E.sizeof_Node E.alignof_Node).self →
      Uniform (w1.pools q.m_allocator) (actual_size E.sizeof_Node) →
      (q1.size = q.size ∨
        (q1.size = q.size + 1 ∧
          (do_allocate E.upstream_allocate (w.pools q.m_allocator) w.upstream
            E.sizeof_Node E.alignof_Node).ret ≠ none)) →
      (E.construct_throws v = false → q1.size = q.size →
        (do_allocate E.upstream_allocate (w.pools q.m_allocator) w.upstream
            E.sizeof_Node E.alignof_Node).ret = none) →
      ∃ q1 w1 l1, (push E q w v).state? = some (q1, w1) ∧ Inv q1 w1 l1 ∧
        allocated_blocks (w1.pools q.m_allocator) = l1.length ∧
        Uniform (w1.pools q.m_allocator) (actual_size E.sizeof_Node) ∧
        q1.m_allocator = q.m_allocator ∧
        max (total_blocks (w.pools q.m_allocator)) q1.size
          ≤ total_blocks (w1.pools q.m_allocator) ∧
        (E.construct_throws v = false →
          total_blocks (w1.pools q.m_allocator)
            = max (total_blocks (w.pools q.m_allocator)) q1.size) ∧
        ((do_allocate E.upstream_allocate (w.pools q.m_allocator) w.upstream
            E.sizeof_Node E.alignof_Node).ret = none →
          total_blocks (w1.pools q.m_allocator) = total_blocks (w.pools q.m_allocator)) ∧
        ((do_allocate E.upstream_allocate (w.pools q.m_allocator) w.upstream
            E.sizeof_Node E.alignof_Node).ret ≠ none →
          (total_blocks (w1.pools q.m_allocator) = total_blocks (w.pools q.m_allocator) + 1
            ↔ q.size = total_blocks (w.pools q.m_allocator)) ∧
          (q.size ≠ total_blocks (w.pools q.m_allocator) →
            total_blocks (w1.pools q.m_allocator)
              = total_blocks (w.pools q.m_allocator))) := by
    intro q1 w1 l1 hst hinv hcnt hal htb hun hq1 hnt
    refine ⟨q1, w1, l1, hst, hinv, hcnt, hun, hal, ?_, ?_, ?_, ?_⟩
    · rw [htb]
      by_cases hlt : l.length < total_blocks (w.pools q.m_allocator)
      · rw [(g1 hlt).1]
        rcases hq1 with e | ⟨e, -⟩ <;> omega
      · have heq : l.length = total_blocks (w.pools q.m_allocator) := by omega
        rcases hq1 with e | ⟨e, hne⟩
        · by_cases hn : (do_allocate E.upstream_allocate (w.pools q.m_allocator) w.upstream
              E.sizeof_Node E.alignof_Node).ret = none
          · rw [(g2 heq).1 hn]; omega
          · rw [(g2 heq).2 hn]; omega
        · rw [(g2 heq).2 hne]; omega
    · intro hct
      rw [htb]
      by_cases hlt : l.length < total_blocks (w.pools q.m_allocator)
      · rw [(g1 hlt).1]
        rcases hq1 with e | ⟨e, -⟩
        · exact absurd (hnt hct e) (g1 hlt).2
        · omega
      · have heq : l.length = total_blocks (w.pools q.m_allocator) := by omega
        rcases hq1 with e | ⟨e, hne⟩
        · rw [(g2 heq).1 (hnt hct e)]; omega
        · rw [(g2 heq).2 hne]; omega
    · intro hn
      rw [htb]
      by_cases hlt : l.length < total_blocks (w.pools q.m_allocator)
      · exact (g1 hlt).1
      · exact (g2 (by omega)).1 hn
    · intro hne
      rw [htb]
      by_cases hlt : l.length < total_blocks (w.pools q.m_allocator)
      · rw [(g1 hlt).1]
        exact ⟨by constructor <;> intro e <;> omega, fun _ => rfl⟩
      · have heq : l.length = total_blocks (w.pools q.m_allocator) := by omega
        rw [(g2 heq).2 hne]
        exact ⟨by constructor <;> intro e <;> omega, fun e => by omega⟩
  rcases push_inv E hs q w l v h with
    ⟨e, w1, hpush, -, hinv, hup⟩ | ⟨a, q1, w1, hpush, hal, hct, hinv, -⟩
  · have hcnt := (push_throws_count E hs q w v e (q, w1) hr hp hpush).1
    simp only at hcnt
    rcases push_throws_cases E q w v e (q, w1) hpush with ⟨ha, -, hs'⟩ | ⟨p, ha, -, hcth, -, hs'⟩
    · have hw1 : w1 = (resource_allocate E.upstream_allocate w q.m_allocator
          E.sizeof_Node E.alignof_Node).2 := (Prod.mk.inj hs').2
      rw [r1] at ha
      have hpool : w1.pools q.m_allocator
          = (do_allocate E.upstream_allocate (w.pools q.m_allocator) w.upstream
            E.sizeof_Node E.alignof_Node).self := by rw [hw1, r2]
      exact key q w1 l (by simp [hpush, Outcome.state?]) hinv (hcnt.trans hc) rfl
        (by rw [hpool]) (by rw [hpool]; exact hUA) (Or.inl rfl) (fun _ _ => ha)
    · have hw1 : w1 = resource_deallocate
          (resource_allocate E.upstream_allocate w q.m_allocator
            E.sizeof_Node E.alignof_Node).2
          q.m_allocator p E.sizeof_Node E.alignof_Node := (Prod.mk.inj hs').2
      have hpool : w1.pools q.m_allocator
          = (do_deallocate
              (do_allocate E.upstream_allocate (w.pools q.m_allocator) w.upstream
                E.sizeof_Node E.alignof_Node).self
              (do_allocate E.upstream_allocate (w.pools q.m_allocator) w.upstream
                E.sizeof_Node E.alignof_Node).upstream p E.sizeof_Node E.alignof_Node).1 := by
        rw [hw1, (resource_deallocate_pool _ q.m_allocator p _ _ hr).1, r2, r3]
      exact key q w1 l (by simp [hpush, Outcome.state?]) hinv (hcnt.trans hc) rfl
        (by rw [hpool, total_blocks_deallocate])
        (by rw [hpool]; exact uniform_deallocate _ _ _ _ _ _ hUA) (Or.inl rfl)
        (fun hf _ => by rw [hcth] at hf; exact Bool.noConfusion hf)
  · obtain ⟨-, hpool, -⟩ := push_ok_pool E q q1 w w1 v hr hpush
    have hret := push_ok_ret E q q1 w w1 v hr hpush
    have hcnt := push_ok_count E q q1 w w1 v hr hpush
    have hq1 : q1.size = q.size + 1 := by
      have : q1.size = (l ++ [a]).length := hinv.2.2.1
      rw [this, hsize]
      simp
    exact key q1 w1 (l ++ [a]) (by simp [hpush, Outcome.state?]) hinv
      (by rw [hcnt, hc]; simp) hal (by rw [hpool]) (by rw [hpool]; exact hUA)
      (Or.inr ⟨hq1, by rw [hret]; simp⟩) (fun _ e => by omega)

theorem high_water_ge {T : Type} (E : Env T) (q : pmr_queue) (w : World T)
    (ops : List (QueueOp T)) (m : Nat) (h : high_water E q w ops = some m) : q.size ≤ m := by
  cases ops with
  | nil =>
    simp only [high_water, Option.some.injEq] at h
    omega
  | cons op rest =>
    simp only [high_water] at h
    split at h
    · split at h
      · simp only [Option.some.injEq] at h
        omega
      · exact Option.noConfusion h
    · exact Option.noConfusion h

/-- One call on a queue that is the only user of its pool. -/
theorem apply_tracked {T : Type} (E : Env T) (hs : E.upstream_allocate.Sound)
    (hsz : E.sizeof_Node ≤ 2 ^ 64 - 64) (q : pmr_queue) (w : World T) (l : List Nat)
    (op : QueueOp T) (h : Inv q w l)
    (hc : allocated_blocks (w.pools q.m_allocator) = l.length)
    (hu : Uniform (w.pools q.m_allocator) (actual_size E.sizeof_Node)) :
    ∃ q1 w1 l1, (op.apply E q w).state? = some (q1, w1) ∧ Inv q1 w1 l1 ∧
      allocated_blocks (w1.pools q.m_allocator) = l1.length ∧
      Uniform (w1.pools q.m_allocator) (actual_size E.sizeof_Node) ∧
      q1.m_allocator = q.m_allocator ∧
      max (total_blocks (w.pools q.m_allocator)) q1.size
        ≤ total_blocks (w1.pools q.m_allocator) ∧
      ((∀ v, op = QueueOp.push v → E.construct_throws v = false) →
        total_blocks (w1.pools q.m_allocator)
          = max (total_blocks (w.pools q.m_allocator)) q1.size) := by
  have hr := h.2.2.2.2.2.2
  have hsize : q.size = l.length := h.2.2.1
  have hle : allocated_blocks (w.pools q.m_allocator) ≤ total_blocks (w.pools q.m_allocator) :=
    List.countP_le_length _
  cases op with
  | push v =>
    obtain ⟨q1, w1, l1, h1, h2, h3, h4, h5, h6, h7, -, -⟩ :=
      push_tracked E hs hsz q w l v h hc hu
    exact ⟨q1, w1, l1, h1, h2, h3, h4, h5, h6, fun hnt => h7 (hnt v rfl)⟩
  | pop =>
    cases l with
    | nil =>
      have he : q.empty = true := by simp [pmr_queue.empty, h.2.2.1]
      have hmax : max (total_blocks (w.pools q.m_allocator)) q.size
          = total_blocks (w.pools q.m_allocator) := by
        rw [hsize]; simp
      exact ⟨q, w, [], by simp [QueueOp.apply, pop, he, Outcome.state?], h, hc, hu, rfl,
        le_of_eq hmax, fun _ => hmax.symm⟩
    | cons a rest =>
      obtain ⟨n, q1, w1, -, hh, hpop, hal, hinv, -, hab, htb⟩ := pop_inv E q w a rest h
      obtain ⟨-, hpool, -⟩ := pop_ok_pool E q q1 w w1 hr hpop
      have hq1 : q1.size = rest.length := hinv.2.2.1
      have hmax : max (total_blocks (w.pools q.m_allocator)) q1.size
          = total_blocks (w.pools q.m_allocator) := by
        simp only [List.length_cons] at hc
        rw [hq1]
        exact max_eq_left (by omega)
      refine ⟨q1, w1, rest, by simp [QueueOp.apply, hpop, Outcome.state?], hinv, ?_, ?_, hal,
        by rw [htb]; exact le_of_eq hmax, fun _ => by rw [htb]; exact hmax.symm⟩
      · simp only [List.length_cons] at hc
        omega
      · rw [hpool]
        exact uniform_deallocate _ _ _ _ _ _ hu
  | clear =>
    obtain ⟨q1, w1, hcl, hal, hinv, hab, htb⟩ := clear_inv E q w l h
    obtain ⟨-, hcl2⟩ := clear_linked E q w l (linked_of_inv q w l h)
    have hw1 : w1 = destroy_nodes E q.m_allocator l w := by
      rw [hcl] at hcl2
      simp only [Outcome.ok.injEq, Prod.mk.injEq, true_and] at hcl2
      exact hcl2.2
    have hq1 : q1.size = 0 := hinv.2.2.1
    have hmax : max (total_blocks (w.pools q.m_allocator)) q1.size
        = total_blocks (w.pools q.m_allocator) := by
      rw [hq1]; simp
    refine ⟨q1, w1, [], by simp [QueueOp.apply, hcl, Outcome.state?], hinv, ?_, ?_, hal,
      by rw [htb]; exact le_of_eq hmax, fun _ => by rw [htb]; exact hmax.symm⟩
    · simp only [List.length_nil]
      omega
    · rw [hw1]
      exact destroy_nodes_uniform E _ hr l w _ hu

/-- A sequence of calls on a queue that is the only user of its pool:
`total_blocks()` at the end is at least the larger of its value at the start and
the largest `size()` on the way, and exactly that when no construction of an
element throws. -/
theorem run_tracked {T : Type} (E : Env T) (hs : E.upstream_allocate.Sound)
    (hsz : E.sizeof_Node ≤ 2 ^ 64 - 64) (q : pmr_queue) (w : World T) (l : List Nat)
    (ops : List (QueueOp T)) (h : Inv q w l)
    (hc : allocated_blocks (w.pools q.m_allocator) = l.length)
    (hu : Uniform (w.pools q.m_allocator) (actual_size E.sizeof_Node)) :
    ∃ q' w' l' m, run_ops E q w ops = some (q', w') ∧ high_water E q w ops = some m ∧
      Inv q' w' l' ∧ allocated_blocks (w'.pools q.m_allocator) = l'.length ∧
      Uniform (w'.pools q.m_allocator) (actual_size E.sizeof_Node) ∧
      q'.m_allocator = q.m_allocator ∧
      max (total_blocks (w.pools q.m_allocator)) m ≤ total_blocks (w'.pools q.m_allocator) ∧
      ((∀ v, QueueOp.push v ∈ ops → E.construct_throws v = false) →
        total_blocks (w'.pools q.m_allocator)
          = max (total_blocks (w.pools q.m_allocator)) m) := by
  have hsize : q.size = l.length := h.2.2.1
  have hle : allocated_blocks (w.pools q.m_allocator) ≤ total_blocks (w.pools q.m_allocator) :=
    List.countP_le_length _
  induction ops generalizing q w l with
  | nil =>
    have hmax : max (total_blocks (w.pools q.m_allocator)) q.size
        = total_blocks (w.pools q.m_allocator) := max_eq_left (by omega)
    exact ⟨q, w, l, q.size, rfl, rfl, h, hc, hu, rfl, le_of_eq hmax, fun _ => hmax.symm⟩
  | cons op rest ih =>
    obtain ⟨q1, w1, l1, h1, hinv, hc1, hu1, hal, hge, heq⟩ :=
      apply_tracked E hs hsz q w l op h hc hu
    rw [← hal] at hc1 hu1
    obtain ⟨q2, w2, l2, m, h2, hm, hinv2, hc2, hu2, hal2, hge2, heq2⟩ :=
      ih q1 w1 l1 hinv hc1 hu1 hinv.2.2.1 (List.countP_le_length _)
    rw [hal] at hc2 hu2 hge2 heq2
    have hm1 := high_water_ge E q1 w1 rest m hm
    refine ⟨q2, w2, l2, max q.size m, by simp [run_ops, h1, h2],
      by simp [high_water, h1, hm], hinv2, hc2, hu2, hal2.trans hal, ?_, ?_⟩
    · have a1 := le_trans (le_max_left _ _) hge
      have a2 := le_trans (le_max_left _ _) hge2
      have a3 := le_trans (le_max_right _ _) hge2
      simp only [max_le_iff]
      exact ⟨le_trans a1 a2, by omega, a3⟩
    · intro hnt
      have e1 := heq (fun v hv => hnt v (by rw [hv]; exact List.mem_cons_self _ _))
      have e2 := heq2 (fun v hv => hnt v (List.mem_cons_of_mem _ hv))
      rw [e2, e1]
      have b1 : q1.size ≤ m := hm1
      have b2 : q.size ≤ total_blocks (w.pools q.m_allocator) := by omega
      omega

/-- C21 (high-water mark), for a new pool that one queue uses, with a sound upstream
resource and nodes of at most `2 ^ 64 - 64` bytes. After every sequence of `push`,
`pop` and `clear` calls, throwing calls included: `total_blocks()` is at least the
largest value that `size()` has taken, and equal to it when no construction of an
element threw; `total_memory()` is `total_blocks()` times the rounded node size
modulo `2 ^ 64`, and exactly that product when the product is below `2 ^ 64`; a
further `push` does not misbehave, leaves `total_blocks()` as it is when its
allocation throws, and when its allocation returns a block it grows the pool, by
one record, exactly when `size()` before the call equals `total_blocks()`. -/
theorem high_water_mark {T : Type} (E : Env T) (hs : E.upstream_allocate.Sound)
    (hsz : E.sizeof_Node ≤ 2 ^ 64 - 64) (mr : Nat) (hr : mr ≠ DEFAULT_RESOURCE)
    (w : World T) (hfresh : w.pools mr = cube_memory_resource.new)
    (ops : List (QueueOp T)) :
    ∃ q' w' m, run_ops E (pmr_queue.new mr) w ops = some (q', w') ∧
      high_water E (pmr_queue.new mr) w ops = some m ∧
      m ≤ total_blocks (w'.pools mr) ∧
      ((∀ v, QueueOp.push v ∈ ops → E.construct_throws v = false) →
        total_blocks (w'.pools mr) = m) ∧
      total_memory (w'.pools mr)
        = size_mul (total_blocks (w'.pools mr)) (actual_size E.sizeof_Node) ∧
      (total_blocks (w'.pools mr) * actual_size E.sizeof_Node < 2 ^ 64 →
        total_memory (w'.pools mr)
          = total_blocks (w'.pools mr) * actual_size E.sizeof_Node) ∧
      ∀ v, ∃ q1 w1, (push E q' w' v).state? = some (q1, w1) ∧
        ((resource_allocate E.upstream_allocate w' mr
            E.sizeof_Node E.alignof_Node).1 = none →
          total_blocks (w1.pools mr) = total_blocks (w'.pools mr)) ∧
        ((resource_allocate E.upstream_allocate w' mr
            E.sizeof_Node E.alignof_Node).1 ≠ none →
          (total_blocks (w1.pools mr) = total_blocks (w'.pools mr) + 1
            ↔ q'.size = total_blocks (w'.pools mr)) ∧
          (q'.size ≠ total_blocks (w'.pools mr) →
            total_blocks (w1.pools mr) = total_blocks (w'.pools mr))) := by
  have hp : PoolOK (w.pools mr) w.upstream := hfresh ▸ poolOK_new w.upstream
  have hinv0 : Inv (pmr_queue.new mr) w [] := inv_new mr w hr hp
  have hc0 : allocated_blocks (w.pools (pmr_queue.new mr).m_allocator) = ([] : List Nat).length := by
    simp [pmr_queue.new, hfresh, allocated_blocks, cube_memory_resource.new]
  have hu0 : Uniform (w.pools (pmr_queue.new mr).m_allocator) (actual_size E.sizeof_Node) := by
    simp only [pmr_queue.new, hfresh]
    exact uniform_new _
  obtain ⟨q', w', l', m, hrun, hm, hinv, hc, hu, hal, hge, heq⟩ :=
    run_tracked E hs hsz (pmr_queue.new mr) w [] ops hinv0 hc0 hu0
  have hal' : q'.m_allocator = mr := hal
  have htb0 : total_blocks (w.pools (pmr_queue.new mr).m_allocator) = 0 := by
    simp [pmr_queue.new, hfresh, total_blocks, cube_memory_resource.new]
  rw [htb0] at hge heq
  simp only [pmr_queue.new] at hc hu hge heq
  have hmem := uniform_total_memory (w'.pools mr) _ hu
  refine ⟨q', w', m, hrun, hm, by simpa using hge, fun hnt => by simpa using heq hnt,
    hmem, ?_, ?_⟩
  · intro hlt
    rw [hmem]
    unfold size_mul SIZE_RANGE
    exact Nat.mod_eq_of_lt hlt
  · intro v
    rw [← hal'] at hc hu
    obtain ⟨q1, w1, l1, h1, -, -, -, -, -, -, h8, h9⟩ :=
      push_tracked E hs hsz q' w' l' v hinv hc hu
    rw [hal'] at h8 h9
    exact ⟨q1, w1, h1, h8, h9⟩

/-- C21 for a run on a new pool in which `size()` reaches 3. -/
theorem high_water_mark_witness :
    demo_env.upstream_allocate.Sound ∧ demo_env.sizeof_Node ≤ 2 ^ 64 - 64 ∧
    1 ≠ DEFAULT_RESOURCE ∧ demo_world.pools 1 = cube_memory_resource.new ∧
    (∀ v, QueueOp.push v ∈
        [QueueOp.push 1, QueueOp.push 2, QueueOp.pop, QueueOp.push 3, QueueOp.push 4,
         QueueOp.clear, QueueOp.push 5] → demo_env.construct_throws v = false) ∧
    high_water demo_env (pmr_queue.new 1) demo_world
      [QueueOp.push 1, QueueOp.push 2, QueueOp.pop, QueueOp.push 3, QueueOp.push 4,
       QueueOp.clear, QueueOp.push 5] = some 3 ∧
    ∃ q' w' m, run_ops demo_env (pmr_queue.new 1) demo_world
        [QueueOp.push 1, QueueOp.push 2, QueueOp.pop, QueueOp.push 3, QueueOp.push 4,
         QueueOp.clear, QueueOp.push 5] = some (q', w') ∧
      high_water demo_env (pmr_queue.new 1) demo_world
        [QueueOp.push 1, QueueOp.push 2, QueueOp.pop, QueueOp.push 3, QueueOp.push 4,
         QueueOp.clear, QueueOp.push 5] = some m ∧
      m ≤ total_blocks (w'.pools 1) ∧
      ((∀ v, QueueOp.push v ∈
          [QueueOp.push 1, QueueOp.push 2, QueueOp.pop, QueueOp.push 3, QueueOp.push 4,
           QueueOp.clear, QueueOp.push 5] → demo_env.construct_throws v = false) →
        total_blocks (w'.pools 1) = m) ∧
      total_memory (w'.pools 1)
        = size_mul (total_blocks (w'.pools 1)) (actual_size demo_env.sizeof_Node) ∧
      (total_blocks (w'.pools 1) * actual_size demo_env.sizeof_Node < 2 ^ 64 →
        total_memory (w'.pools 1)
          = total_blocks (w'.pools 1) * actual_size demo_env.sizeof_Node) ∧
      ∀ v, ∃ q1 w1, (push demo_env q' w' v).state? = some (q1, w1) ∧
        ((resource_allocate demo_env.upstream_allocate w' 1
            demo_env.sizeof_Node demo_env.alignof_Node).1 = none →
          total_blocks (w1.pools 1) = total_blocks (w'.pools 1)) ∧
        ((resource_allocate demo_env.upstream_allocate w' 1
            demo_env.sizeof_Node demo_env.alignof_Node).1 ≠ none →
          (total_blocks (w1.pools 1) = total_blocks (w'.pools 1) + 1
            ↔ q'.size = total_blocks (w'.pools 1)) ∧
          (q'.size ≠ total_blocks (w'.pools 1) →
            total_blocks (w1.pools 1) = total_blocks (w'.pools 1))) :=
  ⟨bump_upstream_sound, by decide, by decide, rfl, fun _ _ => rfl, by decide,
   high_water_mark demo_env bump_upstream_sound (by decide) 1 (by decide) demo_world rfl _⟩

/-- C21 as stated fails in three ways. (1) With an element type whose construction
from 13 throws, `push(13)` on a new queue makes the new pool grow to one record and
gives the block back, so that `total_blocks()` is 1 while `size()` has never been
more than 0. (2) With an upstream resource that has no memory left, `push(5)` on a
new queue throws and does not grow the pool, although `size()` equals
`total_blocks()`. (3) With nodes of `2 ^ 62` bytes, after four calls of `push` the
pool has 4 records of `2 ^ 62` bytes and `total_memory()` is 0. -/
theorem high_water_mark_fails :
    (∃ s, run_ops throwing_env (pmr_queue.new 1) demo_world [QueueOp.push 13] = some s ∧
      s.1.size = 0 ∧
      high_water throwing_env (pmr_queue.new 1) demo_world [QueueOp.push 13] = some 0 ∧
      total_blocks (s.2.pools 1) = 1) ∧
    ((pmr_queue.new 1).size = total_blocks (demo_world.pools 1) ∧
      ∃ s, push exhausted_env (pmr_queue.new 1) demo_world 5
          = Outcome.throws Exception.upstream_failure s ∧
        total_blocks (s.2.pools 1) = total_blocks (demo_world.pools 1)) ∧
    (∃ s, run_ops big_env (pmr_queue.new 1) demo_world
        [QueueOp.push 1, QueueOp.push 2, QueueOp.push 3, QueueOp.push 4] = some s ∧
      s.1.size = 4 ∧ total_blocks (s.2.pools 1) = 4 ∧
      actual_size big_env.sizeof_Node = 2 ^ 62 ∧ total_memory (s.2.pools 1) = 0 ∧
      total_memory (s.2.pools 1)
        ≠ total_blocks (s.2.pools 1) * actual_size big_env.sizeof_Node) := by
  refine ⟨by decide, ⟨by decide, ?_⟩, by decide⟩
  exact ⟨_, push_alloc_fails exhausted_env (pmr_queue.new 1) demo_world 5 (by decide),
    by decide⟩

end PmrQueue
